import Mathlib

/-!
# go_mai_shedule: verification of `shedule.go`

A shallow embedding of the schedule scraper.  Go strings are Lean strings
(sequences of Unicode code points; every text handled here comes out of the
HTML parser as valid UTF-8), Go `int` is a 64-bit signed integer modelled by
`Int`, a slice of pointers `[]*T` is a `List (Option T)` whose `none` entries
are nil pointers, and a run-time panic is the error side of `Except Panic`.

A document is embedded at the level of what the selectors of the program
return on it: the texts of the matched elements, in document order.
-/

namespace GoMaiShedule

/-! ## Run-time failures and slices -/

/-- The run-time panics the program can raise. -/
inductive Panic where
  | indexOutOfRange
  | nilDereference
  | makeSliceLen
  deriving DecidableEq, Repr

instance instDecEqExcept {ε α : Type} [DecidableEq ε] [DecidableEq α] :
    DecidableEq (Except ε α) := fun a b =>
  match a, b with
  | .ok x, .ok y => if h : x = y then isTrue (by rw [h]) else isFalse (fun e => h (by cases e; rfl))
  | .error x, .error y =>
    if h : x = y then isTrue (by rw [h]) else isFalse (fun e => h (by cases e; rfl))
  | .ok _, .error _ => isFalse (fun e => by cases e)
  | .error _, .ok _ => isFalse (fun e => by cases e)

/-- Go `make([]*T, n)`: `n` nil pointers; a negative length panics. -/
def makeSlice {α : Type} (n : Int) : Except Panic (List (Option α)) :=
  if n < 0 then .error .makeSliceLen else .ok (List.replicate n.toNat none)

/-- Go `xs[idx] = v` on a slice: bounds-checked store. -/
def sliceSet {α : Type} (xs : List α) (idx : Int) (v : α) : Except Panic (List α) :=
  if 0 ≤ idx ∧ idx < (xs.length : Int) then .ok (xs.set idx.toNat v)
  else .error .indexOutOfRange

/-- Go `xs[idx].field = ...` on a slice of pointers: bounds check, then nil
check, then the store through the pointer. -/
def ptrUpdate {α : Type} (xs : List (Option α)) (idx : Int) (f : α → α) :
    Except Panic (List (Option α)) :=
  if 0 ≤ idx ∧ idx < (xs.length : Int) then
    match xs.getD idx.toNat none with
    | none => .error .nilDereference
    | some v => .ok (xs.set idx.toNat (some (f v)))
  else .error .indexOutOfRange

/-! ## Data model (`shedule.go` lines 21-50) -/

/-- Go `StudyWeek`: number of the week and its boundary. -/
structure StudyWeek where
  Num : Int
  Borders : String
  deriving DecidableEq, Repr

/-- Go `Pair`; the Go field `Type` is spelled `Typ` here. -/
structure Pair where
  Time : String
  Typ : String
  Title : String
  Lecturer : String
  Location : String
  deriving DecidableEq, Repr

/-- Go `StudyDay`. -/
structure StudyDay where
  Date : String
  WeekDay : String
  PairCount : Int
  Pairs : List (Option Pair)
  deriving DecidableEq, Repr

/-- Go `Shedule`; its slice field `Shedule` is spelled `Days` here, since a
field cannot bear the name of its own structure without clashes. -/
structure Shedule where
  Group : String
  ThisWeekNum : Int
  Days : List (Option StudyDay)
  Weeks : List (Option StudyWeek)
  deriving DecidableEq, Repr

/-- Go `&Shedule{}`: the zero value. -/
def Shedule.zero : Shedule := ⟨"", 0, [], []⟩

/-! ## `strconv.Atoi` (64-bit platform) -/

/-- ASCII decimal digit. -/
def isDigit (c : Char) : Bool := decide ('0'.toNat ≤ c.toNat) && decide (c.toNat ≤ '9'.toNat)

/-- Value of an ASCII decimal digit. -/
def digitVal (c : Char) : Nat := c.toNat - '0'.toNat

/-- The two kinds of `strconv.NumError`: `ErrSyntax` and `ErrRange`. -/
inductive NumError where
  | invalidText
  | outOfRange
  deriving DecidableEq, Repr

def maxUint64 : Nat := 2 ^ 64 - 1

/-- The digit loop of `strconv.ParseUint(s, 10, 64)`: a non-digit is a
syntax error with value 0; an overflow returns at once with the maximal
value and a range error, without looking at the rest of the text. -/
def parseUintLoop : List Char → Nat → Nat × Option NumError
  | [], n => (n, none)
  | c :: cs, n =>
    if !isDigit c then (0, some .invalidText)
    else if n ≥ maxUint64 / 10 + 1 then (maxUint64, some .outOfRange)
    else
      let n10 := n * 10
      let n1 := (n10 + digitVal c) % 2 ^ 64
      if n1 < n10 ∨ n1 > maxUint64 then (maxUint64, some .outOfRange)
      else parseUintLoop cs n1

/-- Go `strconv.ParseUint(s, 10, 64)`. -/
def ParseUint (s : List Char) : Nat × Option NumError :=
  match s with
  | [] => (0, some .invalidText)
  | _ => parseUintLoop s 0

/-- Go `strconv.ParseInt(s, 10, 0)` with 64-bit `int`. -/
def ParseInt (s : List Char) : Int × Option NumError :=
  match s with
  | [] => (0, some .invalidText)
  | c :: cs =>
    let neg := c == '-'
    let body := if c == '+' ∨ c == '-' then cs else c :: cs
    match ParseUint body with
    | (_, some .invalidText) => (0, some .invalidText)
    | (un, _) =>
      if !neg ∧ un ≥ 2 ^ 63 then ((2 : Int) ^ 63 - 1, some .outOfRange)
      else if neg ∧ un > 2 ^ 63 then (-(2 : Int) ^ 63, some .outOfRange)
      else (if neg then -(un : Int) else (un : Int), none)

/-- The digit loop of the fast path of `strconv.Atoi`. -/
def atoiFastLoop : List Char → Int → Int × Option NumError
  | [], n => (n, none)
  | c :: cs, n =>
    if !isDigit c then (0, some .invalidText) else atoiFastLoop cs (n * 10 + digitVal c)

/-- The fast path of `strconv.Atoi` on the text after its sign: no digit at
all is a syntax error; `neg` tells whether the sign was a minus. -/
def atoiFast (neg : Bool) (body : List Char) : Int × Option NumError :=
  match body with
  | [] => (0, some .invalidText)
  | _ =>
    match atoiFastLoop body 0 with
    | (n, none) => (if neg then -n else n, none)
    | r => r

/-- Go `strconv.Atoi` on a 64-bit platform: texts of 1 to 18 bytes take the
fast path (18 digits cannot overflow), all others go through `ParseInt`. -/
def Atoi (s : String) : Int × Option NumError :=
  if 0 < s.utf8ByteSize ∧ s.utf8ByteSize < 19 then
    match s.data with
    | [] => (0, some .invalidText)
    | c :: cs => atoiFast (c == '-') (if c == '-' ∨ c == '+' then cs else c :: cs)
  else ParseInt s.data

/-! ## `strings.ReplaceAll`, `strings.Split`, `strings.Contains` -/

/-- Is `p` an initial segment of `s`? -/
def startsWith : List Char → List Char → Bool
  | [], _ => true
  | _ :: _, [] => false
  | a :: p, b :: s => a == b && startsWith p s

/-- Scan of `strings.ReplaceAll` for a non-empty `old`: `skip` counts the
characters of the current match still to be dropped. -/
def replaceScan (old new : List Char) : Nat → List Char → List Char
  | _, [] => []
  | skip + 1, _ :: s => replaceScan old new skip s
  | 0, c :: s =>
    if startsWith old (c :: s) then new ++ replaceScan old new (old.length - 1) s
    else c :: replaceScan old new 0 s

/-- Go `strings.ReplaceAll(s, old, new)`: non-overlapping occurrences, left
to right; an empty `old` matches before every character and at the end. -/
def ReplaceAll (s old new : String) : String :=
  match old.data with
  | [] => String.mk (new.data ++ s.data.flatMap (fun c => c :: new.data))
  | _ => String.mk (replaceScan old.data new.data 0 s.data)

/-- Scan of `strings.Split(s, "-")` for a one-character separator: `cur` is
the part being read, reversed. -/
def splitScan (sep : Char) : List Char → List Char → List String
  | [], cur => [String.mk cur.reverse]
  | c :: s, cur =>
    if c == sep then String.mk cur.reverse :: splitScan sep s [] else splitScan sep s (c :: cur)

/-- Go `strings.Split(s, "-")`. -/
def splitDash (s : String) : List String := splitScan '-' s.data []

/-- Does `sub` occur in `s` (as a contiguous run)? -/
def containsAt : List Char → List Char → Bool
  | sub, [] => startsWith sub []
  | sub, c :: s => startsWith sub (c :: s) || containsAt sub s

/-- Go `strings.Contains(s, sub)`. -/
def Contains (s sub : String) : Bool := containsAt sub.data s.data

/-! ## Time: `time.Now`, `Format`, `time.Parse("02.01.06", _)` -/

/-- A calendar date as `Time.Format` reads it in the local zone. -/
structure Civil where
  year : Nat
  month : Nat
  day : Nat
  deriving DecidableEq, Repr

/-- The environment of `time.Now()`: the current instant, in nanoseconds since
0001-01-01 00:00:00 UTC (the zero `time.Time`), and the local zone as the map
from an instant to its calendar date.  The clock is read once per operation:
the successive `time.Now()` calls of one run are taken to be one instant. -/
structure Clock where
  now : Int
  zone : Int → Civil

/-- Decimal text of `n`, zero-padded on the left to `w` digits (`appendInt`). -/
def padZero (w n : Nat) : String :=
  let s := Nat.repr n
  String.mk (List.replicate (w - s.length) '0') ++ s

/-- Go `time.Now().Format("2006")`. -/
def formatYear (c : Clock) : String := padZero 4 (c.zone c.now).year

/-- Go `time.Now().Format("06")`. -/
def formatYearMin (c : Clock) : String := padZero 2 ((c.zone c.now).year % 100)

/-- Go `t.Format("02.01")` for the calendar date of `t`. -/
def formatDayMonth (d : Civil) : String := padZero 2 d.day ++ "." ++ padZero 2 d.month

def nanosPerDay : Int := 86400 * 1000000000

def isLeap (y : Nat) : Bool := y % 4 == 0 && (y % 100 != 0 || y % 400 == 0)

/-- Go `daysIn(month, year)`. -/
def daysIn (m y : Nat) : Nat :=
  if m == 2 then (if isLeap y then 29 else 28)
  else if m == 4 ∨ m == 6 ∨ m == 9 ∨ m == 11 then 30 else 31

/-- Days of the year before the first of month `m`. -/
def daysBeforeMonth (m y : Nat) : Nat :=
  ((List.range (m - 1)).map (fun k => daysIn (k + 1) y)).sum

/-- Days from 0001-01-01 to the first of January of year `y` (`y ≥ 1`). -/
def daysBeforeYear (y : Nat) : Nat :=
  365 * (y - 1) + (y - 1) / 4 - (y - 1) / 100 + (y - 1) / 400

/-- Go `time.Date(y, m, d, 0, 0, 0, 0, time.UTC)` as an instant. -/
def dateInstant (y m d : Nat) : Int :=
  ((daysBeforeYear y + daysBeforeMonth m y + (d - 1) : Nat) : Int) * nanosPerDay

/-- The two-character year of layout element `06`, read by the internal
`atoi` of package `time`: two digits, or a sign and one digit; 69 and above
is 19yy, below is 20yy. -/
def parseYear2 (a b : Char) : Option Int :=
  let v : Option Int :=
    if isDigit a ∧ isDigit b then some ((digitVal a * 10 + digitVal b : Nat) : Int)
    else if a == '+' ∧ isDigit b then some (digitVal b : Int)
    else if a == '-' ∧ isDigit b then some (-(digitVal b : Int))
    else none
  v.map (fun y => if y ≥ 69 then y + 1900 else y + 2000)

/-- Go `time.Parse("02.01.06", value)`: the instant on success, `none` when
Parse returns an error (the returned `Time` is then the zero time). -/
def timeParse (value : String) : Option Int :=
  match value.data with
  | [d1, d2, p1, m1, m2, p2, y1, y2] =>
    if isDigit d1 ∧ isDigit d2 ∧ p1 == '.' ∧ isDigit m1 ∧ isDigit m2 ∧ p2 == '.' then
      let day := digitVal d1 * 10 + digitVal d2
      let month := digitVal m1 * 10 + digitVal m2
      if month = 0 ∨ 12 < month then none
      else
        match parseYear2 y1 y2 with
        | none => none
        | some year =>
          if day < 1 ∨ day > daysIn month year.toNat then none
          else some (dateInstant year.toNat month day)
    else none
  | _ => none

/-- The `Time` that `t, _ := time.Parse(...)` leaves in `t`: the zero time
(instant 0) when parsing fails. -/
def parsedOrZero (value : String) : Int := (timeParse value).getD 0

/-! ## `parseStudyWeeks` (lines 214-248) -/

/-- Local state of the `Each` callback: the slice `weeks` and the counters. -/
structure WeekScan where
  weeks : List (Option StudyWeek)
  i : Int
  j : Int
  deriving DecidableEq, Repr

/-- Label normalisation of lines 231-232. -/
def normBorders (year yearMin text : String) : String :=
  ReplaceAll (ReplaceAll text " - " "-") year yearMin

/-- One call of the `Each` callback (lines 222-235) on the cell `text` at
position `weekIndex`. -/
def weekCell (year yearMin : String) (st : WeekScan) (weekIndex : Nat) (text : String) :
    Except Panic WeekScan :=
  match weekIndex % 2 with
  | 0 =>
    let n := (Atoi text).1
    match sliceSet st.weeks ((weekIndex : Int) - st.i) (some ⟨0, ""⟩) with
    | .error p => .error p
    | .ok ws =>
      match ptrUpdate ws ((weekIndex : Int) - st.i) (fun w => { w with Num := n }) with
      | .error p => .error p
      | .ok ws2 => .ok ⟨ws2, st.i + 1, st.j⟩
  | _ =>
    let j := st.j + 1
    let borders := normBorders year yearMin text
    match ptrUpdate st.weeks ((weekIndex : Int) - j) (fun w => { w with Borders := borders }) with
    | .error p => .error p
    | .ok ws => .ok ⟨ws, st.i, j⟩

/-- The `weeksStrings.Each` loop over the cells from position `k` on. -/
def eachCell (year yearMin : String) : List String → Nat → WeekScan → Except Panic WeekScan
  | [], _, st => .ok st
  | c :: cs, k, st =>
    match weekCell year yearMin st k c with
    | .error p => .error p
    | .ok st2 => eachCell year yearMin cs (k + 1) st2

/-- The `for _, week := range weeks` loop (lines 238-246). -/
def thisWeekLoop (now : Int) : List (Option StudyWeek) → Except Panic Int
  | [] => .ok 0
  | none :: _ => .error .nilDereference
  | some week :: rest =>
    match splitDash week.Borders with
    | d0 :: d1 :: _ =>
      let firstDate := parsedOrZero d0
      let secondDate := parsedOrZero d1
      if now > firstDate ∧ now < secondDate then .ok week.Num else thisWeekLoop now rest
    | _ => .error .indexOutOfRange

/-- Go `parseStudyWeeks(page)`, on the texts of the `td` cells of the week
table in document order. -/
def parseStudyWeeks (clock : Clock) (cells : List String) :
    Except Panic (List (Option StudyWeek) × Int) :=
  match makeSlice ((cells.length : Int) / 2) with
  | .error p => .error p
  | .ok weeks =>
    match eachCell (formatYear clock) (formatYearMin clock) cells 0 ⟨weeks, 0, 0⟩ with
    | .error p => .error p
    | .ok st =>
      match thisWeekLoop clock.now st.weeks with
      | .error p => .error p
      | .ok thisWeekNum => .ok (st.weeks, thisWeekNum)

/-! ## Documents and the fetcher -/

/-- A period row (`div.sc-table-row`): for each of the five sub-selectors of
lines 200-204, the texts of the elements it matches inside the row. -/
structure PairRow where
  time : List String
  typ : List String
  title : List String
  lecturer : List String
  location : List String
  deriving DecidableEq, Repr

/-- A day container (`div.sc-container`): the texts of its day-header
elements and its period rows, in document order. -/
structure DayContainer where
  header : List String
  rows : List PairRow
  deriving DecidableEq, Repr

/-- A fetched document, as the selectors of the program see it: for every
`div#schedule-content` the texts of its `a.sc-group-item` elements; the day
containers; the texts of the `td` cells of the week table. -/
structure Page where
  groupLists : List (List String)
  dayContainers : List DayContainer
  weekCells : List String
  deriving DecidableEq, Repr

/-- The goquery `Selection.Text()`: the texts of the matched elements, joined;
the empty string for an empty selection. -/
def selText (sel : List String) : String := String.join sel

/-- The outside world of one operation: the clock, the Unicode letter table
behind `\p{L}` (package `unicode`, not part of the source), and the network:
`respond log url` is what `getPage url` returns after the requests `log`
(a document, or the message of the error), and `refused url` tells that
`http.Get` rejects `url` before it sends any request (package `net/http`
does so for a URL that does not parse, such as one with a control
character); a rejected URL makes `getPage` return an error. -/
structure World where
  clock : Clock
  letter : Char → Bool
  respond : List String → String → Except String Page
  refused : String → Bool
  refused_fails : ∀ (log : List String) (url : String), refused url = true →
    ∃ err, respond log url = .error err

/-- Go `getPage(url)` (lines 250-262): what it returns, with the log of the
requests sent: `url` is added to it unless `http.Get` rejects the URL before
sending. -/
def getPage (w : World) (log : List String) (url : String) :
    Except String Page × List String :=
  (w.respond log url, if w.refused url then log else log ++ [url])

def sheduleURL : String := "https://mai.ru/education/schedule/"
def detailURL : String := sheduleURL ++ "detail.php?group="
def sessionURL : String := sheduleURL ++ "session.php?group="

/-! ## The regular expressions -/

/-- One element of a regular expression of the program: a character class
repeated `lo` to `hi` times (`hi = none`: no upper bound). -/
structure Rep where
  cls : Char → Bool
  lo : Nat
  hi : Option Nat

/-- Is one more repetition allowed after `k`? -/
def Rep.allows (r : Rep) (k : Nat) : Bool :=
  match r.hi with
  | none => true
  | some h => decide (k < h)

/-- All the remainders of `s` after `r` has consumed `k` characters already
and consumes some more, within its bounds. -/
def spans (r : Rep) : Nat → List Char → List (List Char)
  | k, [] => if r.lo ≤ k then [[]] else []
  | k, c :: s =>
    (if r.lo ≤ k then [c :: s] else []) ++
      (if r.cls c && r.allows k then spans r (k + 1) s else [])

/-- All the remainders of `s` after the elements `rs` have matched a prefix. -/
def matchHere : List Rep → List Char → List (List Char)
  | [], s => [s]
  | r :: rs, s => (spans r 0 s).flatMap (matchHere rs)

/-- Does the expression match somewhere in `s`? (`regexp.MatchString`.) -/
def matchAnywhere (rs : List Rep) : List Char → Bool
  | [] => !(matchHere rs []).isEmpty
  | c :: s => !(matchHere rs (c :: s)).isEmpty || matchAnywhere rs s

/-- A literal character. -/
def Rep.lit (c : Char) : Rep := ⟨fun x => x == c, 1, some 1⟩

/-- The class `\s` of Go regular expressions: tab, newline, form feed,
carriage return, space. -/
def isSpaceClass (c : Char) : Bool :=
  c == '\t' || c == '\n' || c == Char.ofNat 12 || c == '\r' || c == ' '

/-- The pattern of line 55: `-\d{1,3}\s{0,1}\p{L}{1,3}-\d{1,}`. -/
def groupPattern (letter : Char → Bool) : List Rep :=
  [Rep.lit '-', ⟨isDigit, 1, some 3⟩, ⟨isSpaceClass, 0, some 1⟩, ⟨letter, 1, some 3⟩,
   Rep.lit '-', ⟨isDigit, 1, none⟩]

/-- The pattern of line 144: `\d{1,2}week`. -/
def weekPattern : List Rep :=
  [⟨isDigit, 1, some 2⟩, Rep.lit 'w', Rep.lit 'e', Rep.lit 'e', Rep.lit 'k']

/-- Flush of the chunk being read (kept reversed). -/
def flushChunk (cur : List Char) : List String :=
  if cur.isEmpty then [] else [String.mk cur.reverse]

/-- Scan of `FindAllString` for `.{1,5}`: `.` is any character but the line
feed, each match is greedy (up to 5 characters) and the next one starts where
the previous ended. -/
def chunkScan : List Char → List Char → List String
  | [], cur => flushChunk cur
  | c :: s, cur =>
    if c == '\n' then flushChunk cur ++ chunkScan s []
    else if cur.length + 1 ≥ 5 then String.mk (c :: cur).reverse :: chunkScan s []
    else chunkScan s (c :: cur)

/-- Go `regexp.MustCompile(".{1,5}").FindAllString(s, -1)` (lines 182, 191). -/
def findAllChunks (s : String) : List String := chunkScan s.data []

/-! ## `ValidateGroup` (lines 54-74) -/

/-- Go `ValidateGroup(group)`: the error code and the error (its message),
with the log of fetches. -/
def ValidateGroup (w : World) (log : List String) (group : String) :
    (Int × Option String) × List String :=
  if !matchAnywhere (groupPattern w.letter) group.data then
    ((1, some ("Group '" ++ group ++ "' doesn't match the pattern")), log)
  else
    match getPage w log sheduleURL with
    | (.error err, log1) => ((10, some err), log1)
    | (.ok page, log1) =>
      let isErr := !page.groupLists.any (fun items => Contains (selText items) group)
      if isErr then ((2, some ("Group '" ++ group ++ "' not found in MAI shedule")), log1)
      else ((0, none), log1)

/-! ## `parseStudyDays` (lines 181-212) -/

/-- The `Pair` built from one row by lines 199-204. -/
def pairOfRow (r : PairRow) : Pair :=
  ⟨selText r.time, selText r.typ, selText r.title, selText r.lecturer, selText r.location⟩

/-- The `pairString.Each` loop (lines 198-205): the row at position `pairIndex`
is stored at `Pairs[pairIndex]`. -/
def eachPair : List PairRow → Nat → List (Option Pair) → Except Panic (List (Option Pair))
  | [], _, pairs => .ok pairs
  | r :: rs, pairIndex, pairs =>
    match sliceSet pairs (pairIndex : Int) (some (pairOfRow r)) with
    | .error p => .error p
    | .ok pairs2 => eachPair rs (pairIndex + 1) pairs2

/-- The body of the `EachWithBreak` callback for a processed container (lines
190-205).  The stores through the pointer `shedule[dayIndex]` are gathered
into one record; `date[0]` and `date[1]` panic when the header has fewer
than two chunks. -/
def dayCallback (shedule : List (Option StudyDay)) (dayIndex : Nat) (c : DayContainer) :
    Except Panic (List (Option StudyDay)) :=
  match sliceSet shedule (dayIndex : Int) (some ⟨"", "", 0, []⟩) with
  | .error p => .error p
  | .ok sh =>
    match findAllChunks (selText c.header) with
    | d0 :: d1 :: _ =>
      match makeSlice (c.rows.length : Int) with
      | .error p => .error p
      | .ok pairs0 =>
        match eachPair c.rows 0 pairs0 with
        | .error p => .error p
        | .ok pairs =>
          ptrUpdate sh (dayIndex : Int) (fun _ => ⟨d0, d1, (c.rows.length : Int), pairs⟩)
    | _ => .error .indexOutOfRange

/-- The `EachWithBreak` loop (lines 188-210): stops at the first container
whose index is not below `daysCount`. -/
def eachDay (daysCount : Int) :
    List DayContainer → Nat → List (Option StudyDay) → Except Panic (List (Option StudyDay))
  | [], _, shedule => .ok shedule
  | c :: cs, dayIndex, shedule =>
    if (dayIndex : Int) < daysCount then
      match dayCallback shedule dayIndex c with
      | .error p => .error p
      | .ok sh => eachDay daysCount cs (dayIndex + 1) sh
    else .ok shedule

/-- Go `parseStudyDays(page, daysCount)`, on the day containers of the page. -/
def parseStudyDays (containers : List DayContainer) (daysCount : Int) :
    Except Panic (List (Option StudyDay)) :=
  let daysCount := if daysCount == 0 then (containers.length : Int) else daysCount
  match makeSlice daysCount with
  | .error p => .error p
  | .ok shedule => eachDay daysCount containers 0 shedule

/-! ## The entry operations (lines 76-179) -/

/-- Go `strconv.Itoa`. -/
def Itoa (n : Int) : String := Int.repr n

/-- Go `int` addition: wraps around at 64 bits. -/
def addInt64 (a b : Int) : Int := (a + b + 2 ^ 63) % 2 ^ 64 - 2 ^ 63

/-- Go `strings.Trim(s, "week")`: strips the leading and trailing characters
that belong to the set w, e, k. -/
def trimWeek (s : String) : String :=
  let inSet := fun c : Char => c == 'w' || c == 'e' || c == 'k'
  String.mk ((s.data.dropWhile inSet).reverse.dropWhile inSet).reverse

/-- What every operation returns when it does not panic: the schedule, the
error (its message) if any, and the log of fetches. -/
abbrev Reply := Except Panic ((Shedule × Option String) × List String)

/-- The wrapped validation error of lines 80, 119, 166. -/
def validationError (errCode : Int) (err : String) : String :=
  "Error code: " ++ Itoa errCode ++ ", " ++ err

/-- The `switch parseType` of `GetDayShedule` (lines 85-94): `daysCount` and
the target date, or `none` for the default branch. -/
def dayMode (clock : Clock) (parseType : String) : Option (Int × String) :=
  if parseType == "today" then some (1, formatDayMonth (clock.zone clock.now))
  else if parseType == "tomorrow" then
    some (2, formatDayMonth (clock.zone (clock.now + 24 * 3600 * 1000000000)))
  else none

/-- The loop of lines 105-110 over the parsed days; `slot` is the one-element
slice `shedule.Shedule`. -/
def pickDay (date : String) :
    List (Option StudyDay) → List (Option StudyDay) → Except Panic (List (Option StudyDay))
  | [], slot => .ok slot
  | none :: _, _ => .error .nilDereference
  | some d :: rest, slot =>
    if d.Date == date then
      match sliceSet slot 0 (some d) with
      | .error p => .error p
      | .ok slot2 => pickDay date rest slot2
    else pickDay date rest slot

/-- Go `GetDayShedule(parseType, group)`. -/
def GetDayShedule (w : World) (log : List String) (parseType group : String) : Reply :=
  match ValidateGroup w log group with
  | ((errCode, some err), log1) => .ok ((Shedule.zero, some (validationError errCode err)), log1)
  | ((_, none), log1) =>
    match dayMode w.clock parseType with
    | none => .ok ((Shedule.zero, some ("Wrong parseType '" ++ parseType ++ "'")), log1)
    | some (daysCount, date) =>
      match getPage w log1 (detailURL ++ group) with
      | (.error err, log2) => .ok ((Shedule.zero, some err), log2)
      | (.ok page, log2) =>
        match parseStudyDays page.dayContainers daysCount with
        | .error p => .error p
        | .ok studyDays =>
          match makeSlice 1 with
          | .error p => .error p
          | .ok slot0 =>
            match pickDay date studyDays slot0 with
            | .error p => .error p
            | .ok slot => .ok (({ Shedule.zero with Days := slot }, none), log2)

/-- The `switch parseType` of `GetWeekShedule` (lines 135-151): `none` is the
early return of `thisweeknum`, `some (some url)` the URL to refetch,
`some none` the wrong-mode return. -/
def weekMode (url : String) (thisWeekNum : Int) (parseType : String) :
    Option (Option String) :=
  if parseType == "thisweeknum" then none
  else if parseType == "thisweek" then some (some (url ++ "&week=" ++ Itoa thisWeekNum))
  else if parseType == "nextweek" then
    some (some (url ++ "&week=" ++ Itoa (addInt64 thisWeekNum 1)))
  else if matchAnywhere weekPattern parseType.data then
    some (some (url ++ "&week=" ++ trimWeek parseType))
  else some none

/-- Go `GetWeekShedule(parseType, group)`. -/
def GetWeekShedule (w : World) (log : List String) (parseType group : String) : Reply :=
  match ValidateGroup w log group with
  | ((errCode, some err), log1) => .ok ((Shedule.zero, some (validationError errCode err)), log1)
  | ((_, none), log1) =>
    let url := detailURL ++ group
    match getPage w log1 url with
    | (.error err, log2) => .ok ((Shedule.zero, some err), log2)
    | (.ok page, log2) =>
      match parseStudyWeeks w.clock page.weekCells with
      | .error p => .error p
      | .ok (weeks, thisWeekNum) =>
        let shedule : Shedule := { Shedule.zero with Weeks := weeks, ThisWeekNum := thisWeekNum }
        if thisWeekNum == 0 then
          .ok ((shedule, some "Current week doesn't correspond to any shedule week"), log2)
        else
          match weekMode url thisWeekNum parseType with
          | none => .ok ((shedule, none), log2)
          | some none =>
            .ok ((Shedule.zero, some ("Wrong ParseType '" ++ parseType ++ "'")), log2)
          | some (some url2) =>
            match getPage w log2 url2 with
            | (.error err, log3) => .ok ((Shedule.zero, some err), log3)
            | (.ok page2, log3) =>
              match parseStudyDays page2.dayContainers 0 with
              | .error p => .error p
              | .ok days => .ok (({ shedule with Days := days }, none), log3)

/-- Go `GetSessionShedule(group)`. -/
def GetSessionShedule (w : World) (log : List String) (group : String) : Reply :=
  match ValidateGroup w log group with
  | ((errCode, some err), log1) => .ok ((Shedule.zero, some (validationError errCode err)), log1)
  | ((_, none), log1) =>
    match getPage w log1 (sessionURL ++ group) with
    | (.error err, log2) => .ok ((Shedule.zero, some err), log2)
    | (.ok page, log2) =>
      match parseStudyDays page.dayContainers 0 with
      | .error p => .error p
      | .ok studyDays => .ok (({ Shedule.zero with Days := studyDays }, none), log2)

/-! ## Specification-side definitions -/

/-- The week list the cell scan is expected to build: one week per pair of
cells. -/
def pairWeeks (year yearMin : String) : List String → List StudyWeek
  | a :: b :: rest => ⟨(Atoi a).1, normBorders year yearMin b⟩ :: pairWeeks year yearMin rest
  | _ => []

/-- A clock reading 3 September 2024, 12:00 UTC, in a zone where that
instant falls on 3 September 2024 and later ones on 4 September. -/
def clockSep2024 : Clock :=
  ⟨dateInstant 2024 9 3 + 12 * 3600 * 1000000000,
   fun t => if t ≤ dateInstant 2024 9 3 + 12 * 3600 * 1000000000 then ⟨2024, 9, 3⟩
     else ⟨2024, 9, 4⟩⟩

/-- The text is an optionally signed, non-empty run of decimal digits. -/
def isIntegerText (s : String) : Bool :=
  match s.data with
  | [] => false
  | c :: cs =>
    let body := if c == '+' ∨ c == '-' then cs else c :: cs
    !body.isEmpty && body.all isDigit

/-- Decimal value of the digits `ds` read after the value `n`. -/
def decFrom (n : Nat) (ds : List Char) : Nat := ds.foldl (fun a c => a * 10 + digitVal c) n

/-- The integer an integer text denotes. -/
def integerValue (s : String) : Int :=
  match s.data with
  | [] => 0
  | c :: cs =>
    if c == '-' then -(decFrom 0 cs : Int)
    else if c == '+' then (decFrom 0 cs : Int)
    else (decFrom 0 (c :: cs) : Int)

/-- The nearest value of the 64-bit signed range. -/
def clampInt64 (v : Int) : Int :=
  if v > 2 ^ 63 - 1 then 2 ^ 63 - 1 else if v < -(2 ^ 63) then -(2 ^ 63) else v

/-- The range of the week strictly contains `now`: the label splits on the
dash into exactly two date strings, both parse as DD.MM.YY, and
start < now < end. -/
def brackets (now : Int) (w : StudyWeek) : Bool :=
  match splitDash w.Borders with
  | [a, b] =>
    match timeParse a, timeParse b with
    | some s, some e => decide (s < now ∧ now < e)
    | _, _ => false
  | _ => false

/-- The label splits on the dash into two strings that both parse as
DD.MM.YY dates. -/
def wellFormedLabel (label : String) : Bool :=
  match splitDash label with
  | [a, b] => (timeParse a).isSome && (timeParse b).isSome
  | _ => false

/-- The number of the first week of the list that satisfies `p`, 0 when
none does. -/
def firstNum (p : StudyWeek → Bool) (weeks : List StudyWeek) : Int :=
  match weeks.find? p with
  | some w => w.Num
  | none => 0

/-- The test of line 242 on a week whose label has at least two parts, an
unparsable date being read as the zero time. -/
def selects (now : Int) (w : StudyWeek) : Bool :=
  match splitDash w.Borders with
  | d0 :: d1 :: _ => decide (parsedOrZero d0 < now ∧ now < parsedOrZero d1)
  | _ => false

/-- The header of the container splits into at least two chunks. -/
def headerOk (c : DayContainer) : Bool :=
  decide (2 ≤ (findAllChunks (selText c.header)).length)

/-- The day record a container describes: the first two chunks of its header
and one pair per period row, in document order. -/
def dayOf (c : DayContainer) : StudyDay :=
  ⟨(findAllChunks (selText c.header)).getD 0 "", (findAllChunks (selText c.header)).getD 1 "",
    (c.rows.length : Int), c.rows.map (fun r => some (pairOfRow r))⟩

/-- A schedule fragment with three day containers: one period on the first
day (its lecturer element is absent), none on the second, two on the third. -/
def exampleDays : List DayContainer :=
  [⟨["01.09Пн"], [⟨["09:00"], ["ЛК"], ["Physics"], [], ["A-101"]⟩]⟩,
   ⟨["02.09", "Вт"], []⟩,
   ⟨["03.09Ср"], [⟨["10:45"], ["ПЗ"], ["Algebra"], ["Ivanov"], ["B-2"]⟩,
                  ⟨["13:00"], ["ЛР"], ["Chemistry"], ["Petrov"], []⟩]⟩]

/-- The text contains a run of the form: dash, 1 to 3 decimal digits, at most
one white-space character, 1 to 3 letters, dash, at least one decimal digit. -/
def hasGroupShape (letter : Char → Bool) (s : List Char) : Prop :=
  ∃ pre d w l e post : List Char,
    s = pre ++ ('-' :: d) ++ w ++ l ++ ('-' :: e) ++ post
    ∧ 1 ≤ d.length ∧ d.length ≤ 3 ∧ (∀ c ∈ d, isDigit c = true)
    ∧ w.length ≤ 1 ∧ (∀ c ∈ w, isSpaceClass c = true)
    ∧ 1 ≤ l.length ∧ l.length ≤ 3 ∧ (∀ c ∈ l, letter c = true)
    ∧ 1 ≤ e.length ∧ (∀ c ∈ e, isDigit c = true)

/-- The text `sub` occurs in `s` as a contiguous run of characters. -/
def occursIn (sub s : String) : Prop := ∃ pre post : List Char, s.data = pre ++ sub.data ++ post

/-- A listing page with one group list of two groups. -/
def exampleListing : Page := ⟨[["M8O-101B-190", "M8O-406B-19"]], [], []⟩

/-- A world on 3 September 2024 whose letters are the ASCII letters and whose
network accepts every URL and serves `exampleListing` as the listing page and
`detail` for every other URL. -/
def exampleWorld (detail : Page) : World :=
  ⟨clockSep2024, Char.isAlpha,
   fun _ url => if url == sheduleURL then .ok exampleListing else .ok detail,
   fun _ => false, fun _ _ h => Bool.noConfusion h⟩

/-- The last day of the list whose date is `date`, if any. -/
def lastDated (date : String) (ds : List StudyDay) : Option StudyDay :=
  ds.reverse.find? (fun d => d.Date == date)

/-- A detail page with the days 03.09 and 04.09 and a two-week table. -/
def exampleDetail : Page :=
  ⟨[], [⟨["03.09Вт"], [⟨["09:00"], ["ЛК"], ["Physics"], [], ["A-101"]⟩]⟩, ⟨["04.09Ср"], []⟩],
   ["1", "01.09.2024 - 07.09.2024", "2", "08.09.2024 - 14.09.2024"]⟩

/-- A detail page whose week table carries the year-less labels of the
specification example. -/
def exampleYearless : Page :=
  ⟨[], [⟨["03.09Вт"], []⟩], ["1", "01.09 - 07.09", "2", "08.09 - 14.09"]⟩

/-- The text contains a decimal digit directly followed by the word week. -/
def hasDigitWeek (s : List Char) : Prop :=
  ∃ (pre : List Char) (d : Char) (post : List Char),
    s = pre ++ d :: 'w' :: 'e' :: 'e' :: 'k' :: post ∧ isDigit d = true

/-- A clock reading 7 September 2024, 12:00 UTC. -/
def clockSep7 : Clock :=
  ⟨dateInstant 2024 9 7 + 12 * 3600 * 1000000000, fun _ => ⟨2024, 9, 7⟩⟩

/-- The label has the year-less form DD.MM - DD.MM. -/
def yearLess (label : String) : Bool :=
  match label.data with
  | [a, b, p, c, d, s1, h, s2, e, f, q, g, i] =>
    isDigit a && isDigit b && p == '.' && isDigit c && isDigit d
      && s1 == ' ' && h == '-' && s2 == ' '
      && isDigit e && isDigit f && q == '.' && isDigit g && isDigit i
  | _ => false

/-- No occurrence of `old` in `s` is directly preceded or followed by a
digit. -/
def apart (old s : List Char) : Prop :=
  ∀ d : Char, isDigit d = true →
    containsAt (d :: old) s = false ∧ containsAt (old ++ [d]) s = false

/-- The URL holds an ASCII control character (below 32, or 127). -/
def hasControl (url : String) : Bool :=
  url.data.any (fun c => decide (c.toNat < 32) || c.toNat == 127)

/-- A world on 3 September 2024 whose `http.Get` rejects, without sending,
every URL with an ASCII control character, and whose listing page lists the
group "-10", tab, "B-1". -/
def controlWorld : World :=
  ⟨clockSep2024, Char.isAlpha,
   fun _ url =>
     if hasControl url then .error "invalid control character in URL"
     else if url == sheduleURL then .ok ⟨[["-10\tB-1"]], [], []⟩ else .ok exampleDetail,
   hasControl,
   fun _ url h => ⟨"invalid control character in URL", by simp only [h, if_true]⟩⟩

/-- A detail page whose only week has the largest 64-bit number and a range
around 3 September 2024. -/
def overflowDetail : Page :=
  ⟨[], [], ["9223372036854775807", "01.09.2024 - 07.09.2024"]⟩

/-- A listing page whose two group items, joined, read "AB-12C-345". -/
def splitListing : Page := ⟨[["AB-12C", "-345"]], [], []⟩

/-- A world like `exampleWorld` whose listing page is `splitListing`. -/
def splitWorld : World :=
  ⟨clockSep2024, Char.isAlpha, fun _ _ => .ok splitListing,
   fun _ => false, fun _ _ h => Bool.noConfusion h⟩

/-! ## Slice lemmas -/

theorem set_at_length {α : Type} (pre suf : List α) (x v : α) :
    (pre ++ x :: suf).set pre.length v = pre ++ v :: suf := by
  induction pre with
  | nil => rfl
  | cons a pre ih => simp [ih]

theorem getD_at_length {α : Type} (pre suf : List α) (x d : α) :
    (pre ++ x :: suf).getD pre.length d = x := by
  induction pre with
  | nil => rfl
  | cons a pre ih => simpa using ih

theorem sliceSet_at {α : Type} (pre suf : List α) (x v : α) (idx : Int)
    (h : idx = (pre.length : Int)) :
    sliceSet (pre ++ x :: suf) idx v = .ok (pre ++ v :: suf) := by
  subst h
  have h1 : (0 : Int) ≤ (pre.length : Int) := Int.natCast_nonneg _
  have h2 : (pre.length : Int) < ((pre ++ x :: suf).length : Int) := by
    simp only [List.length_append, List.length_cons]; omega
  simp only [sliceSet, h1, h2, and_self, if_true, Int.toNat_ofNat, set_at_length]

theorem ptrUpdate_at {α : Type} (pre suf : List (Option α)) (x : α) (f : α → α) (idx : Int)
    (h : idx = (pre.length : Int)) :
    ptrUpdate (pre ++ some x :: suf) idx f = .ok (pre ++ some (f x) :: suf) := by
  subst h
  have h1 : (0 : Int) ≤ (pre.length : Int) := Int.natCast_nonneg _
  have h2 : (pre.length : Int) < ((pre ++ some x :: suf).length : Int) := by
    simp only [List.length_append, List.length_cons]; omega
  simp only [ptrUpdate, h1, h2, and_self, if_true, Int.toNat_ofNat, set_at_length,
    getD_at_length]

theorem ptrUpdate_nil_at {α : Type} (pre suf : List (Option α)) (f : α → α) (idx : Int)
    (h : idx = (pre.length : Int)) :
    ptrUpdate (pre ++ none :: suf) idx f = .error .nilDereference := by
  subst h
  have h1 : (0 : Int) ≤ (pre.length : Int) := Int.natCast_nonneg _
  have h2 : (pre.length : Int) < ((pre ++ (none : Option α) :: suf).length : Int) := by
    simp only [List.length_append, List.length_cons]; omega
  simp only [ptrUpdate, h1, h2, and_self, if_true, Int.toNat_ofNat, getD_at_length]

/-! ## The cell scan of `parseStudyWeeks` -/

theorem weekCell_even (year yearMin : String) (pre suf : List (Option StudyWeek))
    (x : Option StudyWeek) (t : Nat) (text : String) (j : Int) (hpre : pre.length = t) :
    weekCell year yearMin ⟨pre ++ x :: suf, (t : Int), j⟩ (2 * t) text
      = .ok ⟨pre ++ some ⟨(Atoi text).1, ""⟩ :: suf, (t : Int) + 1, j⟩ := by
  have hmod : 2 * t % 2 = 0 := Nat.mul_mod_right 2 t
  have hidx : (((2 * t : Nat) : Int) - (t : Int)) = (pre.length : Int) := by
    rw [hpre]; push_cast; ring
  simp only [weekCell, hmod]
  rw [sliceSet_at pre suf x _ _ hidx]
  simp only []
  rw [ptrUpdate_at pre suf _ _ _ hidx]

theorem weekCell_odd (year yearMin : String) (pre suf : List (Option StudyWeek))
    (w : StudyWeek) (t : Nat) (text : String) (i : Int) (hpre : pre.length = t) :
    weekCell year yearMin ⟨pre ++ some w :: suf, i, (t : Int)⟩ (2 * t + 1) text
      = .ok ⟨pre ++ some { w with Borders := normBorders year yearMin text } :: suf, i,
          (t : Int) + 1⟩ := by
  have hmod : (2 * t + 1) % 2 = 1 := by omega
  have hidx : (((2 * t + 1 : Nat) : Int) - ((t : Int) + 1)) = (pre.length : Int) := by
    rw [hpre]; push_cast; ring
  simp only [weekCell, hmod]
  rw [ptrUpdate_at pre suf _ _ _ hidx]

theorem eachCell_pairs (year yearMin : String) (r : Nat) :
    ∀ (cells : List String) (pre : List (Option StudyWeek)) (t : Nat),
      cells.length = 2 * r → pre.length = t →
      eachCell year yearMin cells (2 * t) ⟨pre ++ List.replicate r none, (t : Int), (t : Int)⟩
        = .ok ⟨pre ++ (pairWeeks year yearMin cells).map some, (t : Int) + r, (t : Int) + r⟩ := by
  induction r with
  | zero =>
    intro cells pre t hlen _
    have : cells = [] := List.length_eq_zero.mp (by omega)
    subst this
    simp [eachCell, pairWeeks]
  | succ r ih =>
    intro cells pre t hlen hpre
    match cells, hlen with
    | a :: b :: rest, hlen =>
      have hrest : rest.length = 2 * r := by simp at hlen; omega
      have hpre2 : (pre ++ [some (⟨(Atoi a).1, normBorders year yearMin b⟩ : StudyWeek)]).length
          = t + 1 := by simp [hpre]
      have ih2 := ih rest _ (t + 1) hrest hpre2
      simp only [List.replicate_succ, eachCell, pairWeeks, List.map_cons]
      rw [weekCell_even year yearMin pre _ none t a _ hpre]
      simp only []
      rw [weekCell_odd year yearMin pre _ _ t b _ hpre]
      simp only []
      have e1 : 2 * t + 1 + 1 = 2 * (t + 1) := by ring
      rw [e1]
      have e2 : pre ++ some (⟨(Atoi a).1, normBorders year yearMin b⟩ : StudyWeek)
            :: List.replicate r none
          = (pre ++ [some ⟨(Atoi a).1, normBorders year yearMin b⟩]) ++ List.replicate r none := by
        simp
      rw [e2]
      have e3 : ((t : Int) + 1) = ((t + 1 : Nat) : Int) := by push_cast; ring
      rw [e3, ih2]
      congr 2
      · simp
      · push_cast; ring
      · push_cast; ring

theorem pairWeeks_length (year yearMin : String) (m : Nat) :
    ∀ cells : List String, cells.length = 2 * m → (pairWeeks year yearMin cells).length = m := by
  induction m with
  | zero =>
    intro cells h
    have : cells = [] := List.length_eq_zero.mp (by omega)
    subst this; rfl
  | succ m ih =>
    intro cells h
    match cells, h with
    | a :: b :: rest, h =>
      have hrest : rest.length = 2 * m := by simp at h; omega
      simp [pairWeeks, ih rest hrest]

theorem pairWeeks_get (year yearMin : String) (m : Nat) :
    ∀ (cells : List String) (k : Nat), cells.length = 2 * m → k < m →
      (pairWeeks year yearMin cells)[k]? =
        some ⟨(Atoi (cells.getD (2 * k) "")).1,
          normBorders year yearMin (cells.getD (2 * k + 1) "")⟩ := by
  induction m with
  | zero => intro cells k _ hk; omega
  | succ m ih =>
    intro cells k h hk
    match cells, h with
    | a :: b :: rest, h =>
      have hrest : rest.length = 2 * m := by simp at h; omega
      cases k with
      | zero => simp [pairWeeks]
      | succ k =>
        have e : 2 * (k + 1) = (2 * k) + 1 + 1 := by ring
        simp only [pairWeeks, List.getElem?_cons_succ, e, List.getD_cons_succ]
        exact ih rest k hrest (by omega)

theorem eachCell_even (clock : Clock) (cells : List String) (m : Nat)
    (hlen : cells.length = 2 * m) :
    eachCell (formatYear clock) (formatYearMin clock) cells 0 ⟨List.replicate m none, 0, 0⟩
      = .ok ⟨(pairWeeks (formatYear clock) (formatYearMin clock) cells).map some,
          (m : Int), (m : Int)⟩ := by
  have h := eachCell_pairs (formatYear clock) (formatYearMin clock) m cells [] 0 hlen rfl
  simpa using h

/-! ## The current-week loop -/

theorem splitScan_ne_nil (sep : Char) (s : List Char) :
    ∀ cur : List Char, ∃ d rest, splitScan sep s cur = d :: rest := by
  induction s with
  | nil => intro cur; exact ⟨_, _, rfl⟩
  | cons c s ih =>
    intro cur
    simp only [splitScan]
    split
    · exact ⟨_, _, rfl⟩
    · exact ih _

theorem splitScan_two (sep : Char) (s : List Char) (h : sep ∈ s) :
    ∀ cur : List Char, ∃ d0 d1 rest, splitScan sep s cur = d0 :: d1 :: rest := by
  induction s with
  | nil => simp at h
  | cons c s ih =>
    intro cur
    simp only [splitScan]
    by_cases hc : c = sep
    · subst hc
      obtain ⟨d, rest, e⟩ := splitScan_ne_nil c s []
      simp only [beq_self_eq_true, if_true, e]
      exact ⟨_, _, _, rfl⟩
    · have hc2 : (c == sep) = false := by simpa using hc
      simp only [hc2, Bool.false_eq_true, if_false]
      have : sep ∈ s := by
        rcases List.mem_cons.mp h with h | h
        · exact absurd h.symm hc
        · exact h
      exact ih this _

theorem splitScan_one (sep : Char) (s : List Char) (h : sep ∉ s) :
    ∀ cur : List Char, splitScan sep s cur = [String.mk (cur.reverse ++ s)] := by
  induction s with
  | nil => intro cur; simp [splitScan]
  | cons c s ih =>
    intro cur
    have hc : (c == sep) = false := by
      simp only [beq_eq_false_iff_ne, ne_eq]
      intro e; exact h (by simp [e])
    have hs : sep ∉ s := fun hh => h (List.mem_cons_of_mem _ hh)
    simp only [splitScan, hc, Bool.false_eq_true, if_false, ih hs]
    simp

theorem thisWeekLoop_completes (now : Int) (ws : List StudyWeek)
    (h : ∀ w ∈ ws, '-' ∈ w.Borders.data) : ∃ n, thisWeekLoop now (ws.map some) = .ok n := by
  induction ws with
  | nil => exact ⟨0, rfl⟩
  | cons w ws ih =>
    obtain ⟨d0, d1, rest, e⟩ := splitScan_two '-' w.Borders.data (h w (by simp)) []
    simp only [List.map_cons, thisWeekLoop, splitDash, e]
    split
    · exact ⟨_, rfl⟩
    · exact ih (fun v hv => h v (List.mem_cons_of_mem _ hv))

theorem parseStudyWeeks_unfold (clock : Clock) (cells : List String) (m : Nat)
    (hlen : cells.length = 2 * m) :
    parseStudyWeeks clock cells =
      match thisWeekLoop clock.now
          ((pairWeeks (formatYear clock) (formatYearMin clock) cells).map some) with
      | .error p => .error p
      | .ok n => .ok ((pairWeeks (formatYear clock) (formatYearMin clock) cells).map some, n) := by
  have hdiv : ((cells.length : Int) / 2) = (m : Int) := by
    rw [hlen]; push_cast; omega
  have hmk : (makeSlice ((cells.length : Int) / 2) : Except Panic (List (Option StudyWeek)))
      = .ok (List.replicate m none) := by
    rw [hdiv]
    simp [makeSlice]
  simp only [parseStudyWeeks, hmk, eachCell_even clock cells m hlen]

/-! ## `strconv.Atoi` -/

theorem digitVal_le (c : Char) (h : isDigit c = true) : digitVal c ≤ 9 := by
  simp only [isDigit, Bool.and_eq_true, decide_eq_true_eq] at h
  have : '9'.toNat = 57 := by decide
  have : '0'.toNat = 48 := by decide
  simp only [digitVal]; omega

theorem le_decFrom (ds : List Char) : ∀ n : Nat, n ≤ decFrom n ds := by
  induction ds with
  | nil => intro n; exact Nat.le_refl _
  | cons c cs ih =>
    intro n
    have := ih (n * 10 + digitVal c)
    simp only [decFrom, List.foldl_cons] at this ⊢
    omega

theorem decFrom_lt (ds : List Char) (hd : ds.all isDigit = true) :
    ∀ n : Nat, decFrom n ds < (n + 1) * 10 ^ ds.length := by
  induction ds with
  | nil => intro n; simp [decFrom]
  | cons c cs ih =>
    intro n
    simp only [List.all_cons, Bool.and_eq_true] at hd
    have h9 := digitVal_le c hd.1
    have := ih hd.2 (n * 10 + digitVal c)
    simp only [decFrom, List.foldl_cons, List.length_cons] at this ⊢
    calc List.foldl (fun a c => a * 10 + digitVal c) (n * 10 + digitVal c) cs
        < (n * 10 + digitVal c + 1) * 10 ^ cs.length := this
      _ ≤ ((n + 1) * 10) * 10 ^ cs.length := Nat.mul_le_mul_right _ (by omega)
      _ = (n + 1) * 10 ^ (cs.length + 1) := by ring

theorem atoiFastLoop_digits (ds : List Char) (hd : ds.all isDigit = true) :
    ∀ n : Nat, atoiFastLoop ds (n : Int) = (((decFrom n ds : Nat) : Int), none) := by
  induction ds with
  | nil => intro n; rfl
  | cons c cs ih =>
    intro n
    simp only [List.all_cons, Bool.and_eq_true] at hd
    have := ih hd.2 (n * 10 + digitVal c)
    simp only [atoiFastLoop, hd.1, Bool.not_true, Bool.false_eq_true, if_false]
    push_cast at this
    rw [this]
    simp [decFrom]

theorem atoiFastLoop_bad (ds : List Char) (hd : ds.all isDigit = false) :
    ∀ n : Int, atoiFastLoop ds n = (0, some .invalidText) := by
  induction ds with
  | nil => simp at hd
  | cons c cs ih =>
    intro n
    cases hc : isDigit c with
    | false => simp [atoiFastLoop, hc]
    | true =>
      simp only [List.all_cons, hc, Bool.true_and] at hd
      simp only [atoiFastLoop, hc, Bool.not_true, Bool.false_eq_true, if_false]
      exact ih hd _

theorem parseUintLoop_bad (ds : List Char) (hd : ds.all isDigit = false) :
    ∀ n : Nat, parseUintLoop ds n = (0, some .invalidText)
      ∨ parseUintLoop ds n = (maxUint64, some .outOfRange) := by
  induction ds with
  | nil => simp at hd
  | cons c cs ih =>
    intro n
    cases hc : isDigit c with
    | false => left; simp [parseUintLoop, hc]
    | true =>
      simp only [List.all_cons, hc, Bool.true_and] at hd
      simp only [parseUintLoop, hc, Bool.not_true, Bool.false_eq_true, if_false]
      split
      · right; rfl
      · split
        · right; rfl
        · exact ih hd _

theorem parseUintLoop_fits (ds : List Char) (hd : ds.all isDigit = true) :
    ∀ n : Nat, decFrom n ds ≤ maxUint64 → parseUintLoop ds n = (decFrom n ds, none) := by
  induction ds with
  | nil => intro n _; rfl
  | cons c cs ih =>
    intro n hn
    simp only [List.all_cons, Bool.and_eq_true] at hd
    have hle := le_decFrom cs (n * 10 + digitVal c)
    have hn2 : decFrom (n * 10 + digitVal c) cs ≤ maxUint64 := by
      simpa [decFrom] using hn
    have hmax : maxUint64 = 18446744073709551615 := by decide
    have hn3 : n * 10 + digitVal c ≤ 18446744073709551615 := by
      rw [← hmax]; exact Nat.le_trans hle hn2
    have h1 : ¬ (n ≥ maxUint64 / 10 + 1) := by rw [hmax]; omega
    have hmod : (n * 10 + digitVal c) % 2 ^ 64 = n * 10 + digitVal c :=
      Nat.mod_eq_of_lt (by omega)
    have h2 : ¬ (n * 10 + digitVal c < n * 10 ∨ n * 10 + digitVal c > maxUint64) := by
      rw [hmax]; omega
    simp only [parseUintLoop, hd.1, Bool.not_true, Bool.false_eq_true, if_false, h1, hmod, h2]
    rw [ih hd.2 _ hn2]
    simp [decFrom]

theorem parseUintLoop_over (ds : List Char) (hd : ds.all isDigit = true) :
    ∀ n : Nat, n ≤ maxUint64 → maxUint64 < decFrom n ds →
      parseUintLoop ds n = (maxUint64, some .outOfRange) := by
  induction ds with
  | nil => intro n h1 h2; simp only [decFrom, List.foldl_nil] at h2; omega
  | cons c cs ih =>
    intro n hn hover
    simp only [List.all_cons, Bool.and_eq_true] at hd
    simp only [parseUintLoop, hd.1, Bool.not_true, Bool.false_eq_true, if_false]
    split
    · rfl
    · split
      · rfl
      · rename_i h1 h2
        have hmax : maxUint64 = 18446744073709551615 := by decide
        have h9 := digitVal_le c hd.1
        rw [hmax] at h1 h2
        have hmod : (n * 10 + digitVal c) % 2 ^ 64 = n * 10 + digitVal c := by
          by_contra hne
          have hge : 2 ^ 64 ≤ n * 10 + digitVal c := by
            by_contra hlt
            exact hne (Nat.mod_eq_of_lt (by omega))
          have : (n * 10 + digitVal c) % 2 ^ 64 = n * 10 + digitVal c - 2 ^ 64 := by
            rw [Nat.mod_eq_sub_mod hge]
            exact Nat.mod_eq_of_lt (by omega)
          rw [this] at h2
          omega
        rw [hmod] at h2
        rw [hmod]
        apply ih hd.2
        · rw [hmax]; omega
        · simpa [decFrom] using hover

theorem length_le_utf8 (cs : List Char) : cs.length ≤ String.utf8ByteSize.go cs := by
  induction cs with
  | nil => simp [String.utf8ByteSize.go]
  | cons c cs ih =>
    have := Char.utf8Size_pos c
    simp only [String.utf8ByteSize.go, List.length_cons]
    omega

theorem ParseInt_integer (c : Char) (cs : List Char)
    (h : isIntegerText ⟨c :: cs⟩ = true) :
    ParseInt (c :: cs) = (clampInt64 (integerValue ⟨c :: cs⟩),
      if -(2 ^ 63) ≤ integerValue ⟨c :: cs⟩ ∧ integerValue ⟨c :: cs⟩ ≤ 2 ^ 63 - 1 then none
      else some .outOfRange) := by
  have hmax : maxUint64 = 18446744073709551615 := by decide
  by_cases hm : c = '-'
  · subst hm
    simp only [isIntegerText, beq_self_eq_true, or_true, if_true, Bool.and_eq_true,
      Bool.not_eq_true', List.isEmpty_eq_false] at h
    obtain ⟨hne, hd⟩ := h
    have hbody : ParseUint cs = parseUintLoop cs 0 := by
      cases cs with
      | nil => simp at hne
      | cons a as => rfl
    simp only [ParseInt, integerValue, beq_self_eq_true, or_true, if_true, hbody]
    by_cases hfit : decFrom 0 cs ≤ maxUint64
    · rw [parseUintLoop_fits cs hd 0 hfit]
      simp only [Bool.not_true, Bool.false_eq_true, false_and, if_false, true_and, clampInt64]
      rw [hmax] at hfit
      split_ifs <;> first | rfl | omega
    · rw [parseUintLoop_over cs hd 0 (by omega) (by omega)]
      rw [hmax] at hfit ⊢
      simp only [Bool.not_true, Bool.false_eq_true, false_and, if_false, true_and, clampInt64]
      split_ifs <;> first | rfl | omega
  · by_cases hp : c = '+'
    · subst hp
      simp only [isIntegerText, beq_self_eq_true, true_or, if_true, Bool.and_eq_true,
        Bool.not_eq_true', List.isEmpty_eq_false] at h
      obtain ⟨hne, hd⟩ := h
      have hbody : ParseUint cs = parseUintLoop cs 0 := by
        cases cs with
        | nil => simp at hne
        | cons a as => rfl
      have hpm : ('+' == '-') = false := by decide
      simp only [ParseInt, integerValue, beq_self_eq_true, true_or, if_true, hbody, hpm]
      by_cases hfit : decFrom 0 cs ≤ maxUint64
      · rw [parseUintLoop_fits cs hd 0 hfit]
        simp only [Bool.not_false, true_and, Bool.false_eq_true, false_and, if_false,
          clampInt64]
        rw [hmax] at hfit
        split_ifs <;> first | rfl | omega
      · rw [parseUintLoop_over cs hd 0 (by omega) (by omega)]
        rw [hmax] at hfit ⊢
        simp only [Bool.not_false, true_and, Bool.false_eq_true, false_and, if_false,
          clampInt64]
        split_ifs <;> first | rfl | omega
    · have hm2 : (c == '-') = false := by simpa using hm
      have hp2 : (c == '+') = false := by simpa using hp
      simp only [isIntegerText, hm2, hp2, Bool.false_eq_true, or_self, if_false,
        Bool.and_eq_true, Bool.not_eq_true', List.isEmpty_cons] at h
      have hd := h.2
      simp only [ParseInt, integerValue, hm2, hp2, Bool.false_eq_true, or_self, if_false,
        ParseUint]
      by_cases hfit : decFrom 0 (c :: cs) ≤ maxUint64
      · rw [parseUintLoop_fits (c :: cs) hd 0 hfit]
        simp only [Bool.not_false, true_and, Bool.false_eq_true, false_and, if_false,
          clampInt64]
        rw [hmax] at hfit
        split_ifs <;> first | rfl | omega
      · rw [parseUintLoop_over (c :: cs) hd 0 (by omega) (by omega)]
        rw [hmax] at hfit ⊢
        simp only [Bool.not_false, true_and, Bool.false_eq_true, false_and, if_false,
          clampInt64]
        split_ifs <;> first | rfl | omega

theorem ParseInt_bad (s : String) (h : isIntegerText s = false) :
    ParseInt s.data = (0, some .invalidText)
      ∨ ParseInt s.data = (2 ^ 63 - 1, some .outOfRange)
      ∨ ParseInt s.data = (-(2 ^ 63), some .outOfRange) := by
  have hmax : maxUint64 = 18446744073709551615 := by decide
  rcases s with ⟨_ | ⟨c, cs⟩⟩
  · left; rfl
  · simp only [isIntegerText, Bool.and_eq_false_iff, Bool.not_eq_false',
      List.isEmpty_iff] at h
    simp only [ParseInt]
    generalize hb : (if (c == '+') = true ∨ (c == '-') = true then cs else c :: cs) = body at h ⊢
    rcases h with h | h
    · subst h; left; rfl
    · have hbody : ParseUint body = parseUintLoop body 0 := by
        cases body with
        | nil => simp at h
        | cons a as => rfl
      rw [hbody]
      rcases parseUintLoop_bad body h 0 with e | e
      · rw [e]; left; rfl
      · rw [e, hmax]
        cases hneg : (c == '-')
        · right; left; simp
        · right; right; simp

theorem Atoi_fast_integer (c : Char) (cs : List Char)
    (h : isIntegerText ⟨c :: cs⟩ = true) (hlen : (c :: cs).length < 19) :
    atoiFast (c == '-') (if (c == '-') = true ∨ (c == '+') = true then cs else c :: cs)
      = (integerValue ⟨c :: cs⟩, none)
    ∧ -(2 ^ 63) ≤ integerValue ⟨c :: cs⟩ ∧ integerValue ⟨c :: cs⟩ ≤ 2 ^ 63 - 1 := by
  have hpow : ∀ ds : List Char, ds.all isDigit = true → ds.length < 19 →
      decFrom 0 ds < 10 ^ 18 := by
    intro ds hd hl
    have := decFrom_lt ds hd 0
    calc decFrom 0 ds < (0 + 1) * 10 ^ ds.length := this
      _ = 10 ^ ds.length := by ring
      _ ≤ 10 ^ 18 := Nat.pow_le_pow_right (by decide) (by omega)
  have hloop : ∀ ds : List Char, ds.all isDigit = true →
      atoiFastLoop ds 0 = (((decFrom 0 ds : Nat) : Int), none) := fun ds hd => by
    simpa using atoiFastLoop_digits ds hd 0
  simp only [List.length_cons] at hlen
  by_cases hm : c = '-'
  · subst hm
    simp only [isIntegerText, beq_self_eq_true, or_true, if_true, Bool.and_eq_true,
      Bool.not_eq_true', List.isEmpty_eq_false] at h
    obtain ⟨hne, hd⟩ := h
    have hb := hpow cs hd (by omega)
    simp only [integerValue, beq_self_eq_true, true_or, if_true]
    cases cs with
    | nil => simp at hne
    | cons a as =>
      simp only [atoiFast, hloop (a :: as) hd]
      refine ⟨by simp, ?_, ?_⟩ <;> omega
  · by_cases hp : c = '+'
    · subst hp
      simp only [isIntegerText, beq_self_eq_true, true_or, if_true, Bool.and_eq_true,
        Bool.not_eq_true', List.isEmpty_eq_false] at h
      obtain ⟨hne, hd⟩ := h
      have hb := hpow cs hd (by omega)
      have hpm : ('+' == '-') = false := by decide
      simp only [integerValue, beq_self_eq_true, or_true, if_true, hpm, Bool.false_eq_true,
        if_false]
      cases cs with
      | nil => simp at hne
      | cons a as =>
        simp only [atoiFast, hloop (a :: as) hd]
        refine ⟨by simp, ?_, ?_⟩ <;> omega
    · have hm2 : (c == '-') = false := by simpa using hm
      have hp2 : (c == '+') = false := by simpa using hp
      simp only [isIntegerText, hm2, hp2, Bool.false_eq_true, or_self, if_false,
        Bool.and_eq_true, Bool.not_eq_true', List.isEmpty_cons] at h
      have hd := h.2
      have hb := hpow (c :: cs) hd (by simp only [List.length_cons]; omega)
      simp only [integerValue, hm2, hp2, Bool.false_eq_true, or_self, if_false,
        atoiFast, hloop (c :: cs) hd]
      refine ⟨by simp, ?_, ?_⟩ <;> omega

/-- What `strconv.Atoi` returns on an integer text: its value, clamped to the
64-bit range, with a range error exactly when it was clamped. -/
theorem Atoi_integer (s : String) (h : isIntegerText s = true) :
    Atoi s = (clampInt64 (integerValue s),
      if -(2 ^ 63) ≤ integerValue s ∧ integerValue s ≤ 2 ^ 63 - 1 then none
      else some .outOfRange) := by
  rcases s with ⟨_ | ⟨c, cs⟩⟩
  · simp [isIntegerText] at h
  · by_cases hfast : 0 < String.utf8ByteSize ⟨c :: cs⟩ ∧ String.utf8ByteSize ⟨c :: cs⟩ < 19
    · have hlen : (c :: cs).length < 19 :=
        Nat.lt_of_le_of_lt (length_le_utf8 (c :: cs)) hfast.2
      obtain ⟨e, hlo, hhi⟩ := Atoi_fast_integer c cs h hlen
      simp only [Atoi, hfast, and_self, if_true]
      rw [e]
      have hc : clampInt64 (integerValue ⟨c :: cs⟩) = integerValue ⟨c :: cs⟩ := by
        simp only [clampInt64]; split_ifs <;> first | rfl | omega
      rw [hc, if_pos ⟨hlo, hhi⟩]
    · simp only [Atoi, hfast, if_false]
      exact ParseInt_integer c cs h

/-- A non-integer text of fewer than 19 bytes yields 0. -/
theorem Atoi_short_nonInteger (s : String) (h : isIntegerText s = false)
    (hs : s.utf8ByteSize < 19) : Atoi s = (0, some .invalidText) := by
  rcases s with ⟨_ | ⟨c, cs⟩⟩
  · have h0 : String.utf8ByteSize ⟨[]⟩ = 0 := rfl
    simp [Atoi, h0, ParseInt]
  · have hpos : 0 < String.utf8ByteSize ⟨c :: cs⟩ :=
      Nat.lt_of_lt_of_le (by simp) (length_le_utf8 (c :: cs))
    simp only [isIntegerText, Bool.and_eq_false_iff, Bool.not_eq_false',
      List.isEmpty_iff] at h
    simp only [Atoi, hpos, hs, and_self, if_true]
    have hsw : (if (c == '-') = true ∨ (c == '+') = true then cs else c :: cs)
        = (if (c == '+') = true ∨ (c == '-') = true then cs else c :: cs) := by
      simp only [or_comm]
    rw [hsw]
    generalize (if (c == '+') = true ∨ (c == '-') = true then cs else c :: cs) = body at h ⊢
    rcases h with h | h
    · subst h; rfl
    · cases body with
      | nil => rfl
      | cons a as => simp only [atoiFast, atoiFastLoop_bad (a :: as) h 0]

/-- What `strconv.Atoi` returns on a text that is not an integer: 0 with a
syntax error, or a bound of the 64-bit range with a range error (when the
digits read before the first offending character already overflow). -/
theorem Atoi_nonInteger (s : String) (h : isIntegerText s = false) :
    Atoi s = (0, some .invalidText)
      ∨ Atoi s = (2 ^ 63 - 1, some .outOfRange)
      ∨ Atoi s = (-(2 ^ 63), some .outOfRange) := by
  by_cases hs : s.utf8ByteSize < 19
  · left; exact Atoi_short_nonInteger s h hs
  · have hfast : ¬ (0 < s.utf8ByteSize ∧ s.utf8ByteSize < 19) := fun hh => hs hh.2
    simp only [Atoi, hfast, if_false]
    exact ParseInt_bad s h

/-! ## C1: the week list -/

/-- C1, as amended.  For every sequence of `2m` cells the cell scan builds
exactly `m` weeks in cell order, none of them nil: week `k` has `Borders` equal
to the normalised text of cell `2k+1` and `Num` equal to the value
`strconv.Atoi` returns for cell `2k` with its error dropped, which is the
integer the text denotes clamped to the 64-bit range, 0 for a text that is
not an integer unless its digits overflow before the offending character
(then a bound of the range), and always 0 for a non-integer text shorter
than 19 bytes.  `parseStudyWeeks` returns this list whenever it returns, and
it does return when every normalised label contains a dash. -/
theorem parseStudyWeeks_weeks (clock : Clock) (cells : List String) (m : Nat)
    (hlen : cells.length = 2 * m) :
    ∃ weeks : List StudyWeek,
      weeks.length = m
      ∧ (∀ k, k < m → ∃ w, weeks[k]? = some w
          ∧ w.Borders = ReplaceAll (ReplaceAll (cells.getD (2 * k + 1) "") " - " "-")
              (formatYear clock) (formatYearMin clock)
          ∧ w.Num = (Atoi (cells.getD (2 * k) "")).1
          ∧ (isIntegerText (cells.getD (2 * k) "") = true →
              w.Num = clampInt64 (integerValue (cells.getD (2 * k) "")))
          ∧ (isIntegerText (cells.getD (2 * k) "") = false →
              w.Num = 0 ∨ ((Atoi (cells.getD (2 * k) "")).2 = some .outOfRange
                ∧ (w.Num = 2 ^ 63 - 1 ∨ w.Num = -(2 ^ 63))))
          ∧ (isIntegerText (cells.getD (2 * k) "") = false →
              (cells.getD (2 * k) "").utf8ByteSize < 19 → w.Num = 0))
      ∧ (∀ r, parseStudyWeeks clock cells = .ok r → r.1 = weeks.map some)
      ∧ ((∀ w ∈ weeks, '-' ∈ w.Borders.data) →
          ∃ n, parseStudyWeeks clock cells = .ok (weeks.map some, n)) := by
  refine ⟨pairWeeks (formatYear clock) (formatYearMin clock) cells,
    pairWeeks_length _ _ m cells hlen, ?_, ?_, ?_⟩
  · intro k hk
    refine ⟨_, pairWeeks_get _ _ m cells k hlen hk, rfl, rfl, ?_, ?_, ?_⟩
    · intro hi
      simp only [Atoi_integer _ hi]
    · intro hi
      rcases Atoi_nonInteger _ hi with e | e | e
      · left; simp only [e]
      · right; simp only [e]; exact ⟨trivial, Or.inl trivial⟩
      · right; simp only [e]; exact ⟨trivial, Or.inr trivial⟩
    · intro hi hs
      simp only [Atoi_short_nonInteger _ hi hs]
  · intro r hr
    rw [parseStudyWeeks_unfold clock cells m hlen] at hr
    split at hr
    · cases hr
    · cases hr; rfl
  · intro hd
    obtain ⟨n, hn⟩ := thisWeekLoop_completes clock.now _ hd
    exact ⟨n, by rw [parseStudyWeeks_unfold clock cells m hlen, hn]⟩

/-- C1, the example of the claim: in 2024 the four cells yield the two weeks
(the labels carry no year, so no week is current). -/
theorem parseStudyWeeks_weeks_witness :
    (∃ weeks : List StudyWeek, weeks.length = 2
      ∧ parseStudyWeeks clockSep2024 ["1", "01.09 - 07.09", "2", "08.09 - 14.09"]
          = .ok (weeks.map some, 0))
    ∧ parseStudyWeeks clockSep2024 ["1", "01.09 - 07.09", "2", "08.09 - 14.09"]
        = .ok ([some ⟨1, "01.09-07.09"⟩, some ⟨2, "08.09-14.09"⟩], 0) := by
  have hr : parseStudyWeeks clockSep2024 ["1", "01.09 - 07.09", "2", "08.09 - 14.09"]
      = .ok ([some ⟨1, "01.09-07.09"⟩, some ⟨2, "08.09-14.09"⟩], 0) := by decide
  obtain ⟨weeks, hlen, _, hres, _⟩ :=
    parseStudyWeeks_weeks clockSep2024 ["1", "01.09 - 07.09", "2", "08.09 - 14.09"] 2 (by decide)
  have h1 := hres _ hr
  simp only at h1
  exact ⟨⟨weeks, hlen, by rw [hr, h1]⟩, hr⟩

/-- C1 fails as stated: a label without a dash makes `parseStudyWeeks` panic
instead of returning the weeks, and a cell that is not an integer, with
digits that overflow, yields the number 2^63 - 1 rather than 0. -/
theorem parseStudyWeeks_weeks_counterexample :
    parseStudyWeeks clockSep2024 ["1", "01.09.2024"] = .error .indexOutOfRange
    ∧ isIntegerText "99999999999999999999x" = false
    ∧ parseStudyWeeks clockSep2024 ["99999999999999999999x", "01.09.2024 - 07.09.2024"]
        = .ok ([some ⟨9223372036854775807, "01.09.24-07.09.24"⟩], 9223372036854775807) := by
  decide

/-! ## C2, C3: the current week -/

theorem thisWeekLoop_selects (now : Int) (ws : List StudyWeek)
    (h : ∀ w ∈ ws, '-' ∈ w.Borders.data) :
    thisWeekLoop now (ws.map some) = .ok (firstNum (selects now) ws) := by
  induction ws with
  | nil => rfl
  | cons w ws ih =>
    obtain ⟨d0, d1, rest, e⟩ := splitScan_two '-' w.Borders.data (h w (by simp)) []
    have ih2 := ih (fun v hv => h v (List.mem_cons_of_mem _ hv))
    simp only [List.map_cons, thisWeekLoop, splitDash, e]
    by_cases hc : parsedOrZero d0 < now ∧ now < parsedOrZero d1
    · have hs : selects now w = true := by simp [selects, splitDash, e, hc]
      have hc2 : now > parsedOrZero d0 ∧ now < parsedOrZero d1 := hc
      simp only [hc2, and_self, if_true, firstNum, List.find?_cons, hs]
    · have hs : selects now w = false := by simp [selects, splitDash, e, hc]
      have hc2 : ¬ (now > parsedOrZero d0 ∧ now < parsedOrZero d1) := hc
      simp only [hc2, if_false, ih2, firstNum, List.find?_cons, hs]

theorem wellFormed_dash (label : String) (h : wellFormedLabel label = true) :
    '-' ∈ label.data := by
  by_contra hn
  have := splitScan_one '-' label.data hn []
  simp [wellFormedLabel, splitDash, this] at h

theorem selects_eq_brackets (now : Int) (w : StudyWeek)
    (h : wellFormedLabel w.Borders = true) : selects now w = brackets now w := by
  simp only [wellFormedLabel] at h
  simp only [selects, brackets]
  split at h
  · rename_i a b e
    simp only [Bool.and_eq_true, Option.isSome_iff_exists] at h
    obtain ⟨⟨s, hs⟩, ⟨t, ht⟩⟩ := h
    simp only [e, hs, ht, parsedOrZero, Option.getD_some]
  · simp at h

theorem find_congr {α : Type} (p q : α → Bool) (l : List α) (h : ∀ x ∈ l, p x = q x) :
    l.find? p = l.find? q := by
  induction l with
  | nil => rfl
  | cons a l ih =>
    simp only [List.find?_cons, h a (by simp)]
    rw [ih (fun x hx => h x (List.mem_cons_of_mem _ hx))]

/-- C2.  When every normalised label of an even-length cell sequence splits
on the dash into two strings that both parse as DD.MM.YY dates, then for every
current instant `parseStudyWeeks` returns, with the week list, the number of
the first week in list order whose parsed start and end satisfy
start < now < end, and 0 when no week satisfies it. -/
theorem parseStudyWeeks_current (clock : Clock) (cells : List String) (m : Nat)
    (hlen : cells.length = 2 * m)
    (hwf : ∀ w ∈ pairWeeks (formatYear clock) (formatYearMin clock) cells,
      wellFormedLabel w.Borders = true) :
    parseStudyWeeks clock cells
      = .ok ((pairWeeks (formatYear clock) (formatYearMin clock) cells).map some,
          match (pairWeeks (formatYear clock) (formatYearMin clock) cells).find?
              (brackets clock.now) with
          | some w => w.Num
          | none => 0) := by
  have hd : ∀ w ∈ pairWeeks (formatYear clock) (formatYearMin clock) cells,
      '-' ∈ w.Borders.data := fun w hw => wellFormed_dash _ (hwf w hw)
  rw [parseStudyWeeks_unfold clock cells m hlen, thisWeekLoop_selects clock.now _ hd]
  simp only [firstNum]
  rw [find_congr (selects clock.now) (brackets clock.now) _
    (fun w hw => selects_eq_brackets clock.now w (hwf w hw))]

/-- C2 on a two-week table read on 3 September 2024: week 1 is current. -/
theorem parseStudyWeeks_current_witness :
    parseStudyWeeks clockSep2024
        ["1", "01.09.2024 - 07.09.2024", "2", "08.09.2024 - 14.09.2024"]
      = .ok ([some ⟨1, "01.09.24-07.09.24"⟩, some ⟨2, "08.09.24-14.09.24"⟩], 1) :=
  (parseStudyWeeks_current clockSep2024
    ["1", "01.09.2024 - 07.09.2024", "2", "08.09.2024 - 14.09.2024"] 2 (by decide)
    (by decide)).trans (by decide)

theorem timeParse_nonneg (v : String) (t : Int) (h : timeParse v = some t) : 0 ≤ t := by
  simp only [timeParse] at h
  split at h
  · split at h
    · split at h
      · cases h
      · split at h
        · cases h
        · split at h
          · cases h
          · cases h
            simp only [dateInstant, nanosPerDay]
            positivity
    · cases h
  · cases h

theorem parsedOrZero_nonneg (v : String) : 0 ≤ parsedOrZero v := by
  simp only [parsedOrZero]
  cases h : timeParse v with
  | none => simp
  | some t => simpa using timeParse_nonneg v t h

/-- C3, as amended.  For every even-length cell sequence whose normalised
labels all contain a dash, `parseStudyWeeks` completes without a panic,
whether or not the date strings parse: it returns the number of the first week
that passes the test of line 242 with unparsable dates read as the zero time.
A week whose end date (the second part of its label) does not parse never
passes that test, so it is never selected and the scan goes on with the next
week. -/
theorem parseStudyWeeks_malformed (clock : Clock) (cells : List String) (m : Nat)
    (hlen : cells.length = 2 * m)
    (hdash : ∀ w ∈ pairWeeks (formatYear clock) (formatYearMin clock) cells,
      '-' ∈ w.Borders.data) :
    parseStudyWeeks clock cells
        = .ok ((pairWeeks (formatYear clock) (formatYearMin clock) cells).map some,
            firstNum (selects clock.now)
              (pairWeeks (formatYear clock) (formatYearMin clock) cells))
    ∧ (∀ w : StudyWeek, ∀ d0 d1 : String, ∀ rest : List String,
        splitDash w.Borders = d0 :: d1 :: rest → timeParse d1 = none →
        selects clock.now w = false
        ∧ ∀ ws : List StudyWeek, firstNum (selects clock.now) (w :: ws)
            = firstNum (selects clock.now) ws) := by
  refine ⟨?_, ?_⟩
  · rw [parseStudyWeeks_unfold clock cells m hlen, thisWeekLoop_selects clock.now _ hdash]
  · intro w d0 d1 rest hs hp
    have h0 := parsedOrZero_nonneg d0
    have hsel : selects clock.now w = false := by
      simp only [selects, hs, parsedOrZero, hp, Option.getD_none, decide_eq_false_iff_not,
        not_and, not_lt]
      intro h1
      simp only [parsedOrZero] at h0
      omega
    exact ⟨hsel, fun ws => by simp only [firstNum, List.find?_cons, hsel]⟩

/-- C3 on a table whose first week has an unparsable end date and whose second
week brackets the clock: the first week is passed over, week 2 is current. -/
theorem parseStudyWeeks_malformed_witness :
    parseStudyWeeks clockSep2024 ["1", "01.09.2024 - soon", "2", "01.09.2024 - 14.09.2024"]
      = .ok ([some ⟨1, "01.09.24-soon"⟩, some ⟨2, "01.09.24-14.09.24"⟩], 2) :=
  (parseStudyWeeks_malformed clockSep2024
    ["1", "01.09.2024 - soon", "2", "01.09.2024 - 14.09.2024"] 2 (by decide)
    (by decide)).1.trans (by decide)

/-- C3 fails as stated: a label without a dash makes `parseStudyWeeks` panic
with an index out of range, and a week whose start date does not parse is
selected as the current week when `now` is before its end date. -/
theorem parseStudyWeeks_malformed_counterexample :
    parseStudyWeeks clockSep2024 ["5", "first week"] = .error .indexOutOfRange
    ∧ timeParse "soon" = none
    ∧ parseStudyWeeks clockSep2024 ["7", "soon - 31.12.30", "8", "01.09.2024 - 14.09.2024"]
        = .ok ([some ⟨7, "soon-31.12.30"⟩, some ⟨8, "01.09.24-14.09.24"⟩], 7) := by
  decide

/-! ## `parseStudyDays` -/

theorem eachPair_fill (rows : List PairRow) :
    ∀ (pre : List (Option Pair)) (k : Nat), pre.length = k →
      eachPair rows k (pre ++ List.replicate rows.length none)
        = .ok (pre ++ rows.map (fun r => some (pairOfRow r))) := by
  induction rows with
  | nil => intro pre k _; simp [eachPair]
  | cons r rows ih =>
    intro pre k hk
    simp only [eachPair, List.length_cons, List.replicate_succ, List.map_cons]
    rw [sliceSet_at pre _ none _ _ (by rw [hk])]
    simp only []
    have := ih (pre ++ [some (pairOfRow r)]) (k + 1) (by simp [hk])
    simpa using this

theorem dayCallback_eq (pre suf : List (Option StudyDay)) (x : Option StudyDay) (k : Nat)
    (c : DayContainer) (hk : pre.length = k) :
    dayCallback (pre ++ x :: suf) k c
      = if headerOk c then .ok (pre ++ some (dayOf c) :: suf) else .error .indexOutOfRange := by
  have hidx : ((k : Nat) : Int) = (pre.length : Int) := by rw [hk]
  have hmk : (makeSlice (c.rows.length : Int) : Except Panic (List (Option Pair)))
      = .ok (List.replicate c.rows.length none) := by
    simp [makeSlice]
  have hfill := eachPair_fill c.rows [] 0 rfl
  simp only [List.nil_append] at hfill
  simp only [dayCallback]
  rw [sliceSet_at pre suf x _ _ hidx]
  simp only [headerOk, dayOf]
  match hch : findAllChunks (selText c.header) with
  | [] => simp
  | [a] => simp
  | d0 :: d1 :: rest =>
    simp only [hmk, hfill]
    rw [ptrUpdate_at pre suf _ _ _ hidx]
    simp

theorem eachDay_eq (cs : List DayContainer) :
    ∀ (pre : List (Option StudyDay)) (k r : Nat), pre.length = k →
      eachDay ((k + r : Nat) : Int) cs k (pre ++ List.replicate r none)
        = if (cs.take r).all headerOk then
            .ok (pre ++ (cs.take r).map (fun c => some (dayOf c))
              ++ List.replicate (r - cs.length) none)
          else .error .indexOutOfRange := by
  induction cs with
  | nil => intro pre k r _; simp [eachDay]
  | cons c cs ih =>
    intro pre k r hk
    cases r with
    | zero => simp [eachDay]
    | succ r =>
      have hlt : ((k : Nat) : Int) < ((k + (r + 1) : Nat) : Int) := by push_cast; omega
      simp only [eachDay, hlt, if_true, List.replicate_succ]
      rw [dayCallback_eq pre _ none k c hk]
      by_cases hc : headerOk c = true
      · have e : k + (r + 1) = (k + 1) + r := by ring
        have := ih (pre ++ [some (dayOf c)]) (k + 1) r (by simp [hk])
        simp only [hc, if_true, List.take_succ_cons, List.all_cons, Bool.true_and, List.map_cons,
          List.length_cons, Nat.add_sub_add_right, e]
        simpa using this
      · simp [hc]

/-- The exact outcome of `parseStudyDays` for a non-negative count. -/
theorem parseStudyDays_eq (containers : List DayContainer) (cnt : Nat) :
    parseStudyDays containers (cnt : Int)
      = if (containers.take (if cnt = 0 then containers.length else cnt)).all headerOk then
          .ok ((containers.take (if cnt = 0 then containers.length else cnt)).map
              (fun c => some (dayOf c))
            ++ List.replicate ((if cnt = 0 then containers.length else cnt) - containers.length)
              none)
        else .error .indexOutOfRange := by
  have hcnt : (if ((cnt : Int) == 0) = true then (containers.length : Int) else (cnt : Int))
      = (((if cnt = 0 then containers.length else cnt) : Nat) : Int) := by
    by_cases h : cnt = 0
    · simp [h]
    · simp [h]
  generalize (if cnt = 0 then containers.length else cnt) = r at hcnt
  have hmk : (makeSlice (r : Int) : Except Panic (List (Option StudyDay)))
      = .ok (List.replicate r none) := by
    simp [makeSlice]
  simp only [parseStudyDays, hcnt, hmk]
  have := eachDay_eq containers [] 0 r rfl
  simpa using this

/-! ## C4, C5, C6: the day parser -/

theorem parseStudyDays_all (containers : List DayContainer)
    (hwf : ∀ c ∈ containers, 2 ≤ (findAllChunks (selText c.header)).length) :
    parseStudyDays containers 0 = .ok (containers.map (fun c => some (dayOf c))) := by
  have hall : containers.all headerOk = true := by
    simp only [List.all_eq_true, headerOk, decide_eq_true_eq]
    exact hwf
  have h := parseStudyDays_eq containers 0
  simp only [if_true, hall, List.take_length, Nat.sub_self, List.replicate_zero,
    List.append_nil] at h
  exact h

/-- C4.  On a document whose day containers all have a header of at least
two chunks, `parseStudyDays` with count 0 returns one record per container, the
i-th built from the i-th container, and with a count `k` between 1 and the
number of containers it returns the records of the first `k` containers, in
document order. -/
theorem parseStudyDays_count (containers : List DayContainer)
    (hwf : ∀ c ∈ containers, 2 ≤ (findAllChunks (selText c.header)).length) :
    parseStudyDays containers 0 = .ok (containers.map (fun c => some (dayOf c)))
    ∧ (containers.map (fun c => some (dayOf c))).length = containers.length
    ∧ ∀ k : Nat, 0 < k → k ≤ containers.length →
        parseStudyDays containers (k : Int)
          = .ok ((containers.take k).map (fun c => some (dayOf c)))
        ∧ ((containers.take k).map (fun c => some (dayOf c))).length = k := by
  have hall : ∀ r : Nat, (containers.take r).all headerOk = true := by
    intro r
    simp only [List.all_eq_true, headerOk, decide_eq_true_eq]
    exact fun c hc => hwf c (List.mem_of_mem_take hc)
  refine ⟨parseStudyDays_all containers hwf, by simp, ?_⟩
  · intro k hk hkn
    have h := parseStudyDays_eq containers k
    have hk0 : ¬ k = 0 := by omega
    have hsub : k - containers.length = 0 := by omega
    simp only [hk0, if_false, hall, if_true, hsub, List.replicate_zero, List.append_nil] at h
    exact ⟨h, by simp [hkn]⟩

/-- C4 on the fragment with three containers: count 0 gives the three
records, count 2 the first two. -/
theorem parseStudyDays_count_witness :
    parseStudyDays exampleDays 0 = .ok (exampleDays.map (fun c => some (dayOf c)))
    ∧ parseStudyDays exampleDays 2 = .ok ((exampleDays.take 2).map (fun c => some (dayOf c)))
    ∧ ((exampleDays.take 2).map (fun c => some (dayOf c))).length = 2 :=
  ⟨(parseStudyDays_count exampleDays (by decide)).1,
   (parseStudyDays_count exampleDays (by decide)).2.2 2 (by decide) (by decide)⟩

theorem flushChunk_cons (c : Char) (cur : List Char) :
    flushChunk (c :: cur) = [String.mk (c :: cur).reverse] := rfl

theorem chunkScan_short (s : List Char) (hnl : '\n' ∉ s) :
    ∀ cur : List Char, cur.length + s.length < 5 →
      chunkScan s cur = flushChunk (s.reverse ++ cur) := by
  induction s with
  | nil => intro cur _; rfl
  | cons c s ih =>
    intro cur hlen
    have hc : (c == '\n') = false := by
      simp only [beq_eq_false_iff_ne, ne_eq]
      intro e; exact hnl (by simp [e])
    have hs : '\n' ∉ s := fun hh => hnl (List.mem_cons_of_mem _ hh)
    simp only [List.length_cons] at hlen
    have h5 : ¬ (cur.length + 1 ≥ 5) := by omega
    simp only [chunkScan, hc, Bool.false_eq_true, if_false, h5]
    rw [ih hs (c :: cur) (by simp only [List.length_cons]; omega)]
    simp

theorem chunkScan_full (s : List Char) (hnl : '\n' ∉ s) :
    ∀ cur : List Char, cur.length < 5 → 5 ≤ cur.length + s.length →
      chunkScan s cur = String.mk (cur.reverse ++ s.take (5 - cur.length))
        :: chunkScan (s.drop (5 - cur.length)) [] := by
  induction s with
  | nil => intro cur h1 h2; simp only [List.length_nil] at h2; omega
  | cons c s ih =>
    intro cur h1 h2
    have hc : (c == '\n') = false := by
      simp only [beq_eq_false_iff_ne, ne_eq]
      intro e; exact hnl (by simp [e])
    have hs : '\n' ∉ s := fun hh => hnl (List.mem_cons_of_mem _ hh)
    simp only [List.length_cons] at h2
    simp only [chunkScan, hc, Bool.false_eq_true, if_false]
    by_cases h5 : cur.length + 1 ≥ 5
    · have e : 5 - cur.length = 1 := by omega
      simp [h5, e]
    · have e : 5 - cur.length = (5 - (c :: cur).length) + 1 := by
        simp only [List.length_cons]; omega
      simp only [h5, if_false]
      rw [ih hs (c :: cur) (by simp only [List.length_cons]; omega)
        (by simp only [List.length_cons]; omega), e]
      simp

/-- The chunks of a header of at least 6 characters without a line feed start
with its first 5 characters and then the following ones, up to 5. -/
theorem findAllChunks_header (h : String) (h6 : 6 ≤ h.data.length) (hnl : '\n' ∉ h.data) :
    ∃ rest, findAllChunks h
      = String.mk (h.data.take 5) :: String.mk ((h.data.drop 5).take 5) :: rest := by
  have hnl2 : '\n' ∉ h.data.drop 5 := fun hh => hnl (List.mem_of_mem_drop hh)
  have h1 := chunkScan_full h.data hnl [] (by simp)
    (by simp only [List.length_nil, Nat.zero_add]; omega)
  simp only [List.length_nil, Nat.sub_zero, List.reverse_nil, List.nil_append] at h1
  simp only [findAllChunks, h1]
  by_cases hlong : 5 ≤ (h.data.drop 5).length
  · have h2 := chunkScan_full (h.data.drop 5) hnl2 [] (by simp) (by simpa using hlong)
    simp only [List.length_nil, Nat.sub_zero, List.reverse_nil, List.nil_append] at h2
    exact ⟨_, by rw [h2]⟩
  · have h2 := chunkScan_short (h.data.drop 5) hnl2 [] (by simp only [List.length_nil]; omega)
    have hne : (h.data.drop 5).reverse ≠ [] := by
      simp only [ne_eq, List.reverse_eq_nil_iff]
      intro e
      have : (h.data.drop 5).length = 0 := by rw [e]; rfl
      simp only [List.length_drop] at this
      omega
    have htake : (h.data.drop 5).take 5 = h.data.drop 5 :=
      List.take_of_length_le (by omega)
    refine ⟨[], ?_⟩
    rw [h2, htake]
    simp only [List.append_nil, flushChunk]
    cases hr : (h.data.drop 5).reverse with
    | nil => exact absurd hr hne
    | cons a as =>
      have : h.data.drop 5 = (a :: as).reverse := by rw [← hr, List.reverse_reverse]
      simp [this]

theorem getElem?_map_append_replicate {α β : Type} (f : α → β) (l : List α) (n : Nat) :
    ∀ (i : Nat) (d : β), (l.map (fun c => some (f c)) ++ List.replicate n none)[i]? = some (some d) →
      ∃ c, l[i]? = some c ∧ d = f c := by
  induction l with
  | nil =>
    intro i d h
    simp only [List.map_nil, List.nil_append] at h
    rw [List.getElem?_replicate] at h
    split at h <;> simp at h
  | cons a l ih =>
    intro i d h
    cases i with
    | zero =>
      simp only [List.map_cons, List.cons_append, List.getElem?_cons_zero, Option.some.injEq] at h
      exact ⟨a, by simp, h.symm⟩
    | succ i =>
      simp only [List.map_cons, List.cons_append, List.getElem?_cons_succ] at h
      simpa using ih i d h

theorem getElem?_of_take {α : Type} (l : List α) (r i : Nat) (c : α)
    (h : (l.take r)[i]? = some c) : l[i]? = some c := by
  rw [List.getElem?_take] at h
  split at h
  · exact h
  · cases h

theorem parseStudyDays_ok_nat (containers : List DayContainer) (daysCount : Int)
    (days : List (Option StudyDay)) (h : parseStudyDays containers daysCount = .ok days) :
    ∃ cnt : Nat, daysCount = (cnt : Int) := by
  by_cases hneg : daysCount < 0
  · exfalso
    have h0 : (daysCount == 0) = false := by
      simp only [beq_eq_false_iff_ne, ne_eq]; omega
    simp [parseStudyDays, h0, makeSlice, hneg] at h
  · exact ⟨daysCount.toNat, by omega⟩

theorem parseStudyDays_entry (containers : List DayContainer) (daysCount : Int)
    (days : List (Option StudyDay)) (h : parseStudyDays containers daysCount = .ok days)
    (i : Nat) (d : StudyDay) (hd : days[i]? = some (some d)) :
    ∃ c, containers[i]? = some c ∧ headerOk c = true ∧ d = dayOf c := by
  obtain ⟨cnt, rfl⟩ := parseStudyDays_ok_nat containers daysCount days h
  rw [parseStudyDays_eq] at h
  generalize (if cnt = 0 then containers.length else cnt) = r at h
  split at h
  · rename_i hall
    cases h
    obtain ⟨c, hc, hdc⟩ := getElem?_map_append_replicate dayOf _ _ i d hd
    have hmem : c ∈ containers.take r := List.getElem?_mem hc
    exact ⟨c, getElem?_of_take _ _ _ _ hc, (List.all_eq_true.mp hall) c hmem, hdc⟩
  · cases h

/-- C5.  For a day container whose header text has at least 6 characters
(Unicode code points) and no line feed, every record `parseStudyDays` produces
for it has `Date` equal to the first 5 characters of the header and `WeekDay`
equal to the following characters, up to 5; and on a document whose headers all
have two chunks, `parseStudyDays` does produce that record. -/
theorem parseStudyDays_header (containers : List DayContainer) (i : Nat) (c : DayContainer)
    (hi : containers[i]? = some c) (h6 : 6 ≤ (selText c.header).length)
    (hnl : '\n' ∉ (selText c.header).data) :
    (∀ (daysCount : Int) (days : List (Option StudyDay)) (d : StudyDay),
        parseStudyDays containers daysCount = .ok days → days[i]? = some (some d) →
        d.Date = String.mk ((selText c.header).data.take 5)
        ∧ d.WeekDay = String.mk (((selText c.header).data.drop 5).take 5))
    ∧ ((∀ x ∈ containers, 2 ≤ (findAllChunks (selText x.header)).length) →
        ∃ days d, parseStudyDays containers 0 = .ok days ∧ days[i]? = some (some d)
          ∧ d.Date = String.mk ((selText c.header).data.take 5)
          ∧ d.WeekDay = String.mk (((selText c.header).data.drop 5).take 5)) := by
  have hlen : 6 ≤ (selText c.header).data.length := h6
  obtain ⟨rest, hch⟩ := findAllChunks_header (selText c.header) hlen hnl
  have hday : (dayOf c).Date = String.mk ((selText c.header).data.take 5)
      ∧ (dayOf c).WeekDay = String.mk (((selText c.header).data.drop 5).take 5) := by
    simp [dayOf, hch]
  refine ⟨?_, ?_⟩
  · intro daysCount days d hok hd
    obtain ⟨c2, hc2, _, hdc⟩ := parseStudyDays_entry containers daysCount days hok i d hd
    rw [hi] at hc2
    cases hc2
    rw [hdc]
    exact hday
  · intro hwf
    refine ⟨_, dayOf c, parseStudyDays_all containers hwf, ?_, hday⟩
    simp [List.getElem?_map, hi]

/-- C5 on the header of the claim: the text "01.09Пн" gives the date "01.09"
and the week day "Пн". -/
theorem parseStudyDays_header_witness :
    ∃ days d, parseStudyDays exampleDays 0 = .ok days ∧ days[0]? = some (some d)
      ∧ d.Date = "01.09" ∧ d.WeekDay = "Пн" := by
  obtain ⟨days, d, h1, h2, h3, h4⟩ :=
    (parseStudyDays_header exampleDays 0 ⟨["01.09Пн"], [⟨["09:00"], ["ЛК"], ["Physics"], [],
      ["A-101"]⟩]⟩ (by decide) (by decide) (by decide)).2 (by decide)
  exact ⟨days, d, h1, h2, h3.trans (by decide), h4.trans (by decide)⟩

/-- C6.  Every day record `parseStudyDays` produces comes from the container at
its position: `PairCount` is the length of `Pairs` and the number of period
rows of the container, every entry of `Pairs` is set, the j-th holds the five
texts of the j-th row, and a field whose sub-element is absent is empty. -/
theorem parseStudyDays_pairs (containers : List DayContainer) (daysCount : Int)
    (days : List (Option StudyDay)) (h : parseStudyDays containers daysCount = .ok days)
    (i : Nat) (d : StudyDay) (hd : days[i]? = some (some d)) :
    ∃ c, containers[i]? = some c
      ∧ d.PairCount = (d.Pairs.length : Int) ∧ d.Pairs.length = c.rows.length
      ∧ (∀ e ∈ d.Pairs, e ≠ none)
      ∧ ∀ j, j < c.rows.length → ∃ r p, c.rows[j]? = some r ∧ d.Pairs[j]? = some (some p)
          ∧ p.Time = selText r.time ∧ p.Typ = selText r.typ ∧ p.Title = selText r.title
          ∧ p.Lecturer = selText r.lecturer ∧ p.Location = selText r.location
          ∧ (r.time = [] → p.Time = "") ∧ (r.typ = [] → p.Typ = "")
          ∧ (r.title = [] → p.Title = "") ∧ (r.lecturer = [] → p.Lecturer = "")
          ∧ (r.location = [] → p.Location = "") := by
  obtain ⟨c, hc, _, hdc⟩ := parseStudyDays_entry containers daysCount days h i d hd
  subst hdc
  refine ⟨c, hc, by simp [dayOf], by simp [dayOf], ?_, ?_⟩
  · intro e he
    simp only [dayOf, List.mem_map] at he
    obtain ⟨r, _, hr⟩ := he
    rw [← hr]
    exact Option.some_ne_none _
  · intro j hj
    refine ⟨c.rows[j], pairOfRow c.rows[j], List.getElem?_eq_getElem hj, ?_, rfl, rfl, rfl, rfl,
      rfl, ?_, ?_, ?_, ?_, ?_⟩
    · simp [dayOf, List.getElem?_map, List.getElem?_eq_getElem hj]
    all_goals intro e; simp [pairOfRow, e, selText, String.join]

/-- C6 on the first day of the example fragment: one period, whose absent
lecturer element gives the empty string. -/
theorem parseStudyDays_pairs_witness :
    ∃ c, exampleDays[0]? = some c ∧ c.rows.length = 1
      ∧ ∃ r p, c.rows[0]? = some r
        ∧ ([some ⟨"09:00", "ЛК", "Physics", "", "A-101"⟩] : List (Option Pair))[0]? = some (some p)
        ∧ p.Time = selText r.time ∧ (r.lecturer = [] → p.Lecturer = "") := by
  obtain ⟨c, h1, _, h3, _, h5⟩ := parseStudyDays_pairs exampleDays 0
    ((exampleDays.map (fun c => some (dayOf c)))) (by decide) 0
    ⟨"01.09", "Пн", 1, [some ⟨"09:00", "ЛК", "Physics", "", "A-101"⟩]⟩ (by decide)
  have hlen : c.rows.length = 1 := h3.symm
  obtain ⟨r, p, hr, hp, ht, _, _, _, _, _, _, _, hl, _⟩ := h5 0 (by omega)
  exact ⟨c, h1, hlen, r, p, hr, hp, ht, hl⟩

/-! ## The regular expressions -/

theorem mem_spans (r : Rep) (s : List Char) :
    ∀ (k : Nat) (t : List Char), t ∈ spans r k s ↔
      ∃ x, s = x ++ t ∧ (∀ c ∈ x, r.cls c = true) ∧ r.lo ≤ k + x.length
        ∧ (∀ h, r.hi = some h → x = [] ∨ k + x.length ≤ h) := by
  induction s with
  | nil =>
    intro k t
    simp only [spans]
    constructor
    · intro h
      split at h
      · simp only [List.mem_singleton] at h
        subst h
        exact ⟨[], rfl, by simp, by simpa, fun _ _ => Or.inl rfl⟩
      · simp at h
    · rintro ⟨x, hx, _, hlo, _⟩
      have hx2 := List.append_eq_nil.mp hx.symm
      rw [hx2.1] at hlo
      simp only [List.length_nil, Nat.add_zero] at hlo
      simp [hlo, hx2.2]
  | cons c s ih =>
    intro k t
    simp only [spans, List.mem_append]
    constructor
    · intro h
      rcases h with h | h
      · split at h
        · simp only [List.mem_singleton] at h
          subst h
          exact ⟨[], rfl, by simp, by simpa, fun _ _ => Or.inl rfl⟩
        · simp at h
      · split at h
        · rename_i hc
          simp only [Bool.and_eq_true] at hc
          obtain ⟨x, hx, hall, hlo, hhi⟩ := (ih (k + 1) t).mp h
          refine ⟨c :: x, by simp [hx], ?_, by simp only [List.length_cons]; omega, ?_⟩
          · intro a ha
            rcases List.mem_cons.mp ha with e | e
            · rw [e]; exact hc.1
            · exact hall a e
          · intro hh hr
            right
            have hal := hc.2
            simp only [Rep.allows, hr, decide_eq_true_eq] at hal
            rcases hhi hh hr with e | e
            · subst e; simp only [List.length_cons, List.length_nil]; omega
            · simp only [List.length_cons]; omega
        · simp at h
    · rintro ⟨x, hx, hall, hlo, hhi⟩
      cases x with
      | nil =>
        left
        simp only [List.nil_append] at hx
        simp only [List.length_nil, Nat.add_zero] at hlo
        simp [hlo, hx]
      | cons a x =>
        right
        simp only [List.cons_append, List.cons.injEq] at hx
        obtain ⟨hca, hs⟩ := hx
        subst hca
        have hcls : r.cls c = true := hall c (by simp)
        have hal : r.allows k = true := by
          simp only [Rep.allows]
          split
          · rfl
          · rename_i hh hr
            rcases hhi hh hr with e | e
            · cases e
            · simp only [List.length_cons] at e
              simp only [decide_eq_true_eq]; omega
        simp only [hcls, hal, Bool.and_self, if_true]
        refine (ih (k + 1) t).mpr ⟨x, hs, fun a ha => hall a (List.mem_cons_of_mem _ ha), ?_, ?_⟩
        · simp only [List.length_cons] at hlo; omega
        · intro hh hr
          rcases hhi hh hr with e | e
          · cases e
          · right; simp only [List.length_cons] at e; omega

theorem mem_spans_zero (r : Rep) (s t : List Char) :
    t ∈ spans r 0 s ↔
      ∃ x, s = x ++ t ∧ (∀ c ∈ x, r.cls c = true) ∧ r.lo ≤ x.length
        ∧ (∀ h, r.hi = some h → x.length ≤ h) := by
  rw [mem_spans]
  constructor
  · rintro ⟨x, h1, h2, h3, h4⟩
    refine ⟨x, h1, h2, by omega, fun h hr => ?_⟩
    rcases h4 h hr with e | e
    · subst e; simp
    · omega
  · rintro ⟨x, h1, h2, h3, h4⟩
    exact ⟨x, h1, h2, by omega, fun h hr => Or.inr (by have := h4 h hr; omega)⟩

theorem mem_spans_lit (a : Char) (s t : List Char) :
    t ∈ spans (Rep.lit a) 0 s ↔ s = a :: t := by
  rw [mem_spans_zero]
  constructor
  · rintro ⟨x, h1, h2, h3, h4⟩
    have h5 := h4 1 rfl
    simp only [Rep.lit] at h3
    match x, h3, h5 with
    | [b], _, _ =>
      have := h2 b (by simp)
      simp only [Rep.lit, beq_iff_eq] at this
      subst this
      simpa using h1
  · intro h
    refine ⟨[a], by simp [h], ?_, by simp [Rep.lit], ?_⟩
    · intro c hc
      simp only [List.mem_singleton] at hc
      simp [Rep.lit, hc]
    · intro h hr
      simp only [Rep.lit, Option.some.injEq] at hr
      subst hr
      simp

theorem matchAnywhere_iff (rs : List Rep) (s : List Char) :
    matchAnywhere rs s = true ↔ ∃ pre suf t, s = pre ++ suf ∧ t ∈ matchHere rs suf := by
  induction s with
  | nil =>
    simp only [matchAnywhere, Bool.not_eq_true', List.isEmpty_eq_false]
    constructor
    · intro h
      obtain ⟨t, ht⟩ := List.exists_mem_of_ne_nil _ h
      exact ⟨[], [], t, rfl, ht⟩
    · rintro ⟨pre, suf, t, h1, h2⟩
      have := List.append_eq_nil.mp h1.symm
      rw [this.2] at h2
      exact List.ne_nil_of_mem h2
  | cons c s ih =>
    simp only [matchAnywhere, Bool.or_eq_true, Bool.not_eq_true', List.isEmpty_eq_false, ih]
    constructor
    · intro h
      rcases h with h | ⟨pre, suf, t, h1, h2⟩
      · obtain ⟨t, ht⟩ := List.exists_mem_of_ne_nil _ h
        exact ⟨[], c :: s, t, rfl, ht⟩
      · exact ⟨c :: pre, suf, t, by simp [h1], h2⟩
    · rintro ⟨pre, suf, t, h1, h2⟩
      cases pre with
      | nil =>
        left
        simp only [List.nil_append] at h1
        rw [h1]
        exact List.ne_nil_of_mem h2
      | cons a pre =>
        right
        simp only [List.cons_append, List.cons.injEq] at h1
        exact ⟨pre, suf, t, h1.2, h2⟩

theorem groupPattern_iff (letter : Char → Bool) (s : List Char) :
    matchAnywhere (groupPattern letter) s = true ↔ hasGroupShape letter s := by
  rw [matchAnywhere_iff]
  simp only [groupPattern, matchHere, List.mem_flatMap, List.mem_singleton, mem_spans_lit]
  simp only [mem_spans_zero]
  constructor
  · rintro ⟨pre, suf, t, hs, t1, h1, t2, ⟨d, hd, hdc, hdlo, hdhi⟩, t3, ⟨w, hw, hwc, -, hwhi⟩,
      t4, ⟨l, hl, hlc, hllo, hlhi⟩, t5, h5, t6, ⟨e, he, hec, helo, -⟩, ht⟩
    refine ⟨pre, d, w, l, e, t6, ?_, hdlo, hdhi 3 rfl, hdc, hwhi 1 rfl, hwc, hllo, hlhi 3 rfl,
      hlc, helo, hec⟩
    rw [hs, h1, hd, hw, hl, h5, he]
    simp
  · rintro ⟨pre, d, w, l, e, post, hs, hd1, hd3, hdc, hw1, hwc, hl1, hl3, hlc, he1, hec⟩
    refine ⟨pre, ('-' :: d) ++ w ++ l ++ ('-' :: e) ++ post, post, by rw [hs]; simp,
      d ++ w ++ l ++ ('-' :: e) ++ post, by simp,
      w ++ l ++ ('-' :: e) ++ post, ⟨d, by simp, hdc, hd1, ?_⟩,
      l ++ ('-' :: e) ++ post, ⟨w, by simp, hwc, Nat.zero_le _, ?_⟩,
      ('-' :: e) ++ post, ⟨l, by simp, hlc, hl1, ?_⟩,
      e ++ post, by simp,
      post, ⟨e, rfl, hec, he1, ?_⟩, rfl⟩
    · intro h hr; cases hr; exact hd3
    · intro h hr; cases hr; exact hw1
    · intro h hr; cases hr; exact hl3
    · intro h hr; cases hr

/-! ## C7, C8: `ValidateGroup` -/

theorem getPage_ok (w : World) (log : List String) (url : String) (page : Page)
    (h : w.respond log url = .ok page) : getPage w log url = (.ok page, log ++ [url]) := by
  cases hr : w.refused url with
  | false => simp only [getPage, h, hr, Bool.false_eq_true, if_false]
  | true =>
    obtain ⟨err, he⟩ := w.refused_fails log url hr
    rw [h] at he
    cases he

/-- C7.  `ValidateGroup` returns code 1 with an error and without a fetch
exactly when the group contains no run of the form: dash, 1 to 3 decimal
digits, at most one white-space character, 1 to 3 letters, dash, at least one
decimal digit. -/
theorem ValidateGroup_shape (w : World) (log : List String) (group : String) :
    ((ValidateGroup w log group).1.1 = 1 ∧ (ValidateGroup w log group).1.2 ≠ none
        ∧ (ValidateGroup w log group).2 = log)
      ↔ ¬ hasGroupShape w.letter group.data := by
  rw [← groupPattern_iff]
  by_cases hm : matchAnywhere (groupPattern w.letter) group.data = true
  · simp only [hm, not_true_eq_false, iff_false, not_and]
    intro h1
    exfalso
    simp only [ValidateGroup, hm, Bool.not_true, Bool.false_eq_true, if_false, getPage] at h1
    cases hr : w.respond log sheduleURL with
    | error err => simp [hr] at h1
    | ok page =>
      simp only [hr] at h1
      split at h1 <;> simp at h1
  · simp only [hm, not_false_eq_true, iff_true]
    simp only [Bool.not_eq_true] at hm
    simp [ValidateGroup, hm]

theorem startsWith_iff (p s : List Char) : startsWith p s = true ↔ ∃ post, s = p ++ post := by
  induction p generalizing s with
  | nil => simp [startsWith]
  | cons a p ih =>
    cases s with
    | nil => simp [startsWith]
    | cons b s =>
      simp only [startsWith, Bool.and_eq_true, beq_iff_eq, ih, List.cons_append, List.cons.injEq]
      constructor
      · rintro ⟨rfl, post, rfl⟩; exact ⟨post, rfl, rfl⟩
      · rintro ⟨post, rfl, rfl⟩; exact ⟨rfl, post, rfl⟩

theorem containsAt_iff (sub s : List Char) :
    containsAt sub s = true ↔ ∃ pre post, s = pre ++ sub ++ post := by
  induction s with
  | nil =>
    simp only [containsAt, startsWith_iff]
    constructor
    · rintro ⟨post, h⟩; exact ⟨[], post, by simpa using h⟩
    · rintro ⟨pre, post, h⟩
      have h1 := List.append_eq_nil.mp h.symm
      have h2 := List.append_eq_nil.mp h1.1
      exact ⟨[], by rw [h2.2]; rfl⟩
  | cons c s ih =>
    simp only [containsAt, Bool.or_eq_true, startsWith_iff, ih]
    constructor
    · rintro (⟨post, h⟩ | ⟨pre, post, h⟩)
      · exact ⟨[], post, by simpa using h⟩
      · exact ⟨c :: pre, post, by simp [h]⟩
    · rintro ⟨pre, post, h⟩
      cases pre with
      | nil => left; exact ⟨post, by simpa using h⟩
      | cons a pre =>
        right
        simp only [List.cons_append, List.cons.injEq] at h
        exact ⟨pre, post, h.2⟩

theorem Contains_iff (s sub : String) : Contains s sub = true ↔ occursIn sub s := by
  simp only [Contains, containsAt_iff, occursIn]

theorem occursIn_join (items : List String) (g : String) (h : g ∈ items) :
    occursIn g (selText items) := by
  obtain ⟨l1, l2, rfl⟩ := List.append_of_mem h
  refine ⟨((l1.map String.data).flatten), ((l2.map String.data).flatten), ?_⟩
  simp [selText, String.data_join]

/-- What line 65 tests.  For a group that passes the shape check and a listing
page that is fetched successfully, `ValidateGroup` makes that one fetch and
returns (0, no error) exactly when the group occurs as a contiguous run in the
joined texts of the group items of some schedule-content container, and
(2, "... not found in MAI shedule") otherwise.  It does return (0, no error)
when the group is the text of some group item. -/
theorem ValidateGroup_listing (w : World) (log : List String) (group : String) (page : Page)
    (hshape : hasGroupShape w.letter group.data)
    (hpage : w.respond log sheduleURL = .ok page) :
    ((∃ items ∈ page.groupLists, occursIn group (selText items)) →
        ValidateGroup w log group = ((0, none), log ++ [sheduleURL]))
    ∧ ((¬ ∃ items ∈ page.groupLists, occursIn group (selText items)) →
        ValidateGroup w log group
          = ((2, some ("Group '" ++ group ++ "' not found in MAI shedule")),
              log ++ [sheduleURL]))
    ∧ ((∃ items ∈ page.groupLists, group ∈ items) →
        ValidateGroup w log group = ((0, none), log ++ [sheduleURL])) := by
  have hm := (groupPattern_iff w.letter group.data).mpr hshape
  have hany : page.groupLists.any (fun items => Contains (selText items) group) = true
      ↔ ∃ items ∈ page.groupLists, occursIn group (selText items) := by
    simp only [List.any_eq_true, Contains_iff]
  have hyes : (∃ items ∈ page.groupLists, occursIn group (selText items)) →
      ValidateGroup w log group = ((0, none), log ++ [sheduleURL]) := by
    intro h
    simp [ValidateGroup, hm, getPage_ok w log sheduleURL page hpage, hany.mpr h]
  refine ⟨hyes, ?_, ?_⟩
  · intro h
    have hf : page.groupLists.any (fun items => Contains (selText items) group) = false := by
      rw [← Bool.not_eq_true, hany]; exact h
    simp [ValidateGroup, hm, getPage_ok w log sheduleURL page hpage, hf]
  · rintro ⟨items, hi, hg⟩
    exact hyes ⟨items, hi, occursIn_join items group hg⟩

/-- On the example listing the listed group M8O-406B-19 is valid. -/
theorem ValidateGroup_listing_witness :
    ValidateGroup (exampleWorld ⟨[], [], []⟩) [] "M8O-406B-19" = ((0, none), [sheduleURL]) :=
  (ValidateGroup_listing (exampleWorld ⟨[], [], []⟩) [] "M8O-406B-19" exampleListing
    ((groupPattern_iff _ _).mp (by decide)) (by decide)).2.2
    ⟨["M8O-101B-190", "M8O-406B-19"], by decide, by decide⟩

/-- C8, the failing input.  The group M8O-101B-19 passes the shape check and
is not one of the two listed groups (it is only a part of the listed
M8O-101B-190); the group B-12C-3 is no listed item either (it appears only
when the items AB-12C and -345 are joined).  The claim, like the comment of
`ValidateGroup`, calls for code 2 on a group that is not listed, yet
`ValidateGroup` returns code 0 and no error for both. -/
theorem ValidateGroup_unlisted :
    "M8O-101B-19" ∉ ["M8O-101B-190", "M8O-406B-19"]
    ∧ matchAnywhere (groupPattern Char.isAlpha) "M8O-101B-19".data = true
    ∧ ValidateGroup (exampleWorld ⟨[], [], []⟩) [] "M8O-101B-19" = ((0, none), [sheduleURL])
    ∧ "B-12C-3" ∉ ["AB-12C", "-345"]
    ∧ matchAnywhere (groupPattern Char.isAlpha) "B-12C-3".data = true
    ∧ ValidateGroup splitWorld [] "B-12C-3" = ((0, none), [sheduleURL]) := by
  decide

/-! ## C9: `GetDayShedule` -/

theorem pickDay_map (date : String) (ds : List StudyDay) :
    ∀ s : Option StudyDay, pickDay date (ds.map some) [s]
      = .ok [match lastDated date ds with
             | some d => some d
             | none => s] := by
  induction ds with
  | nil => intro s; rfl
  | cons d ds ih =>
    intro s
    simp only [List.map_cons, pickDay, lastDated, List.reverse_cons, List.find?_append]
    by_cases hd : (d.Date == date) = true
    · have hset : sliceSet [s] 0 (some d) = .ok [some d] := by simp [sliceSet]
      simp only [hd, if_true, hset, ih (some d), lastDated, List.find?_cons, List.find?_nil]
      cases ds.reverse.find? (fun d => d.Date == date) <;> rfl
    · simp only [hd, Bool.false_eq_true, if_false, ih s, lastDated, List.find?_cons,
        List.find?_nil]
      cases ds.reverse.find? (fun d => d.Date == date) <;> rfl

theorem lastDated_none (date : String) (ds : List StudyDay) :
    lastDated date ds = none ↔ ∀ d ∈ ds, d.Date ≠ date := by
  simp [lastDated, List.find?_eq_none]

theorem lastDated_some (date : String) (ds : List StudyDay) (d : StudyDay)
    (h : lastDated date ds = some d) : d ∈ ds ∧ d.Date = date := by
  simp only [lastDated] at h
  have h1 := List.mem_of_find?_eq_some h
  have h2 := List.find?_some h
  exact ⟨by simpa using h1, by simpa using h2⟩

theorem GetDayShedule_scan (w : World) (log log1 : List String) (mode group date : String)
    (page : Page) (k : Nat) (hk0 : k ≠ 0)
    (hvalid : ValidateGroup w log group = ((0, none), log1))
    (hmode : dayMode w.clock mode = some ((k : Int), date))
    (hpage : w.respond log1 (detailURL ++ group) = .ok page)
    (hk : k ≤ page.dayContainers.length)
    (hwf : ∀ c ∈ page.dayContainers.take k, 2 ≤ (findAllChunks (selText c.header)).length) :
    GetDayShedule w log mode group
      = .ok ((⟨"", 0, [lastDated date ((page.dayContainers.take k).map dayOf)], []⟩, none),
          log1 ++ [detailURL ++ group]) := by
  have hall : (page.dayContainers.take k).all headerOk = true := by
    simp only [List.all_eq_true, headerOk, decide_eq_true_eq]
    exact hwf
  have hparse := parseStudyDays_eq page.dayContainers k
  have hsub : k - page.dayContainers.length = 0 := by omega
  simp only [hk0, if_false, hall, if_true, hsub, List.replicate_zero, List.append_nil] at hparse
  have hmap : (page.dayContainers.take k).map (fun c => some (dayOf c))
      = ((page.dayContainers.take k).map dayOf).map some := by
    rw [List.map_map]; rfl
  have hmk : (makeSlice 1 : Except Panic (List (Option StudyDay))) = .ok [none] := by
    simp [makeSlice]
  simp only [GetDayShedule, hvalid, hmode, getPage_ok w log1 _ page hpage, hparse, hmk, hmap,
    pickDay_map, Shedule.zero]
  cases lastDated date ((page.dayContainers.take k).map dayOf) <;> rfl

/-- C9, as amended.  For a valid group and a detail page that is fetched
successfully, `GetDayShedule` returns without error a schedule with exactly one
day slot, provided the page has at least 1 container (mode today) or 2
(mode tomorrow) and the scanned ones have headers of two chunks: the slot
holds the day among the scanned ones whose date is the target date (today, or
24 hours later, as DD.MM; the later day if both have it) and is left unset
when no scanned day has that date. -/
theorem GetDayShedule_day (w : World) (log log1 : List String) (group : String) (page : Page)
    (hvalid : ValidateGroup w log group = ((0, none), log1))
    (hpage : w.respond log1 (detailURL ++ group) = .ok page) :
    (1 ≤ page.dayContainers.length →
      (∀ c ∈ page.dayContainers.take 1, 2 ≤ (findAllChunks (selText c.header)).length) →
      GetDayShedule w log "today" group
        = .ok ((⟨"", 0, [lastDated (formatDayMonth (w.clock.zone w.clock.now))
                  ((page.dayContainers.take 1).map dayOf)], []⟩, none),
            log1 ++ [detailURL ++ group]))
    ∧ (2 ≤ page.dayContainers.length →
      (∀ c ∈ page.dayContainers.take 2, 2 ≤ (findAllChunks (selText c.header)).length) →
      GetDayShedule w log "tomorrow" group
        = .ok ((⟨"", 0, [lastDated
                  (formatDayMonth (w.clock.zone (w.clock.now + 24 * 3600 * 1000000000)))
                  ((page.dayContainers.take 2).map dayOf)], []⟩, none),
            log1 ++ [detailURL ++ group]))
    ∧ (∀ (date : String) (ds : List StudyDay),
        (lastDated date ds = none ↔ ∀ d ∈ ds, d.Date ≠ date)
        ∧ ∀ d, lastDated date ds = some d → d ∈ ds ∧ d.Date = date) := by
  refine ⟨?_, ?_, fun date ds => ⟨lastDated_none date ds, lastDated_some date ds⟩⟩
  · intro h1 hwf
    exact GetDayShedule_scan w log log1 "today" group _ page 1 (by decide) hvalid
      (by simp [dayMode]) hpage h1 hwf
  · intro h2 hwf
    have hne : ("tomorrow" == "today") = false := by decide
    exact GetDayShedule_scan w log log1 "tomorrow" group _ page 2 (by decide) hvalid
      (by simp [dayMode, hne]) hpage h2 hwf

/-- C9 on the example detail page, read on 3 September 2024: mode tomorrow
scans two containers and returns the day 04.09. -/
theorem GetDayShedule_day_witness :
    GetDayShedule (exampleWorld exampleDetail) [] "tomorrow" "M8O-406B-19"
      = .ok ((⟨"", 0, [some ⟨"04.09", "Ср", 0, []⟩], []⟩, none),
          [sheduleURL, detailURL ++ "M8O-406B-19"]) :=
  ((GetDayShedule_day (exampleWorld exampleDetail) [] [sheduleURL] "M8O-406B-19" exampleDetail
    (by decide) (by decide)).2.1 (by decide) (by decide)).trans (by decide)

/-- C9 fails as stated: on a detail page without day containers mode today
panics on the nil entry of the parsed days, and so does mode tomorrow on a
page with a single container. -/
theorem GetDayShedule_day_counterexample :
    GetDayShedule (exampleWorld ⟨[], [], []⟩) [] "today" "M8O-406B-19"
      = .error .nilDereference
    ∧ GetDayShedule (exampleWorld ⟨[], [⟨["03.09Вт"], []⟩], []⟩) [] "tomorrow" "M8O-406B-19"
      = .error .nilDereference := by
  decide

/-! ## The week modes of `GetWeekShedule` -/

theorem digit_not_week (c : Char) (h : isDigit c = true) :
    (c == 'w' || c == 'e' || c == 'k') = false := by
  simp only [isDigit, Bool.and_eq_true, decide_eq_true_eq] at h
  have h9 : '9'.toNat = 57 := by decide
  rw [h9] at h
  have hw : c ≠ 'w' := by rintro rfl; revert h; decide
  have he : c ≠ 'e' := by rintro rfl; revert h; decide
  have hk : c ≠ 'k' := by rintro rfl; revert h; decide
  simp [hw, he, hk]

theorem trimWeek_digits (N : List Char) (hne : N ≠ []) (hd : N.all isDigit = true) :
    trimWeek (String.mk N ++ "week") = String.mk N := by
  have hdata : (String.mk N ++ "week").data = N ++ ['w', 'e', 'e', 'k'] := by
    simp [String.data_append]
  simp only [trimWeek, hdata]
  congr 1
  have hfront : (N ++ ['w', 'e', 'e', 'k']).dropWhile
      (fun c : Char => c == 'w' || c == 'e' || c == 'k') = N ++ ['w', 'e', 'e', 'k'] := by
    cases N with
    | nil => exact absurd rfl hne
    | cons a N =>
      simp only [List.all_cons, Bool.and_eq_true] at hd
      simp only [List.cons_append, List.dropWhile_cons, digit_not_week a hd.1,
        Bool.false_eq_true, if_false]
  rw [hfront]
  have hlast : ∃ ini d, N = ini ++ [d] := ⟨N.dropLast, N.getLast hne,
    (List.dropLast_append_getLast hne).symm⟩
  obtain ⟨ini, d, rfl⟩ := hlast
  have hdd : isDigit d = true := by
    simp only [List.all_append, Bool.and_eq_true, List.all_cons, List.all_nil,
      Bool.and_true] at hd
    exact hd.2
  have hkw : ('k' == 'w' || 'k' == 'e' || 'k' == 'k') = true := by decide
  have hew : ('e' == 'w' || 'e' == 'e' || 'e' == 'k') = true := by decide
  have hww : ('w' == 'w' || 'w' == 'e' || 'w' == 'k') = true := by decide
  simp only [List.reverse_append, List.reverse_cons, List.reverse_nil, List.nil_append,
    List.cons_append, List.dropWhile_cons, hkw, hew, hww, if_true, digit_not_week d hdd,
    Bool.false_eq_true, if_false, List.reverse_reverse]

theorem weekPattern_digits (N : List Char) (hne : N ≠ []) (hd : N.all isDigit = true) :
    matchAnywhere weekPattern (N ++ ['w', 'e', 'e', 'k']) = true := by
  have hlast : ∃ ini d, N = ini ++ [d] := ⟨N.dropLast, N.getLast hne,
    (List.dropLast_append_getLast hne).symm⟩
  obtain ⟨ini, d, rfl⟩ := hlast
  have hdd : isDigit d = true := by
    simp only [List.all_append, Bool.and_eq_true, List.all_cons, List.all_nil,
      Bool.and_true] at hd
    exact hd.2
  rw [matchAnywhere_iff]
  refine ⟨ini, d :: ['w', 'e', 'e', 'k'], [], by simp, ?_⟩
  simp only [weekPattern, matchHere, List.mem_flatMap, List.mem_singleton, mem_spans_lit]
  refine ⟨['w', 'e', 'e', 'k'], ?_, ['e', 'e', 'k'], rfl, ['e', 'k'], rfl, ['k'], rfl, [], rfl,
    rfl⟩
  rw [mem_spans_zero]
  refine ⟨[d], rfl, ?_, by simp, ?_⟩
  · intro c hc
    simp only [List.mem_singleton] at hc
    rw [hc]; exact hdd
  · intro h hr
    cases hr
    simp

theorem weekMode_digits (url : String) (c : Int) (N : List Char) (hne : N ≠ [])
    (hd : N.all isDigit = true) :
    weekMode url c (String.mk N ++ "week") = some (some (url ++ "&week=" ++ String.mk N)) := by
  have hdata : (String.mk N ++ "week").data = N ++ ['w', 'e', 'e', 'k'] := by
    simp [String.data_append]
  have hfirst : ∀ s : String, s.data.head? = some 't' ∨ s.data.head? = some 'n' →
      (String.mk N ++ "week" == s) = false := by
    intro s hs
    simp only [beq_eq_false_iff_ne, ne_eq]
    intro e
    have e2 := congrArg String.data e
    rw [hdata] at e2
    cases N with
    | nil => exact hne rfl
    | cons a N =>
      simp only [List.all_cons, Bool.and_eq_true] at hd
      rw [← e2] at hs
      simp only [List.cons_append, List.head?_cons, Option.some.injEq] at hs
      rcases hs with h | h
      · rw [h] at hd; exact absurd hd.1 (by decide)
      · rw [h] at hd; exact absurd hd.1 (by decide)
  have h1 := hfirst "thisweeknum" (Or.inl rfl)
  have h2 := hfirst "thisweek" (Or.inl rfl)
  have h3 := hfirst "nextweek" (Or.inr rfl)
  simp only [weekMode, h1, h2, h3, Bool.false_eq_true, if_false, hdata,
    weekPattern_digits N hne hd, if_true, trimWeek_digits N hne hd]

theorem addInt64_succ (x : Int) (h1 : -(2 ^ 63) ≤ x) (h2 : x < 2 ^ 63 - 1) :
    addInt64 x 1 = x + 1 := by
  simp only [addInt64]
  omega

/-! ## C11, C13, C16, C20: the entry operations -/

theorem ValidateGroup_codes (w : World) (log : List String) (group : String) :
    (∃ msg, ValidateGroup w log group = ((1, some msg), log))
    ∨ (∃ msg log1, ValidateGroup w log group = ((10, some msg), log1)
        ∧ (log1 = log ∨ log1 = log ++ [sheduleURL]))
    ∨ (∃ msg, ValidateGroup w log group = ((2, some msg), log ++ [sheduleURL]))
    ∨ ValidateGroup w log group = ((0, none), log ++ [sheduleURL]) := by
  by_cases hm : matchAnywhere (groupPattern w.letter) group.data = true
  · cases hr : w.respond log sheduleURL with
    | error err =>
      refine Or.inr (Or.inl ⟨err, (getPage w log sheduleURL).2, ?_, ?_⟩)
      · simp only [ValidateGroup, hm, Bool.not_true, Bool.false_eq_true, if_false]
        have e : getPage w log sheduleURL = (.error err, (getPage w log sheduleURL).2) := by
          simp only [getPage, hr]
        rw [e]
      · simp only [getPage]
        split
        · exact Or.inl rfl
        · exact Or.inr rfl
    | ok page =>
      simp only [ValidateGroup, hm, Bool.not_true, Bool.false_eq_true, if_false,
        getPage_ok w log sheduleURL page hr]
      split
      · exact Or.inr (Or.inr (Or.inl ⟨_, rfl⟩))
      · exact Or.inr (Or.inr (Or.inr rfl))
  · simp only [Bool.not_eq_true] at hm
    refine Or.inl ⟨"Group '" ++ group ++ "' doesn't match the pattern", ?_⟩
    simp only [ValidateGroup, hm, Bool.not_false, if_true]

theorem ValidateGroup_valid (w : World) (log : List String) (group : String)
    (h : (ValidateGroup w log group).1 = (0, none)) :
    ValidateGroup w log group = ((0, none), log ++ [sheduleURL]) := by
  rcases ValidateGroup_codes w log group with ⟨m, e⟩ | ⟨m, l, e, _⟩ | ⟨m, e⟩ | e
  · rw [e] at h; simp at h
  · rw [e] at h; simp at h
  · rw [e] at h; simp at h
  · exact e

theorem GetWeekShedule_first (w : World) (log : List String) (mode g : String) (page : Page)
    (weeks : List (Option StudyWeek)) (c : Int)
    (hvalid : (ValidateGroup w log g).1 = (0, none))
    (hpage : w.respond (log ++ [sheduleURL]) (detailURL ++ g) = .ok page)
    (hweeks : parseStudyWeeks w.clock page.weekCells = .ok (weeks, c)) :
    GetWeekShedule w log mode g
      = if c = 0 then
          .ok ((⟨"", 0, [], weeks⟩, some "Current week doesn't correspond to any shedule week"),
            log ++ [sheduleURL] ++ [detailURL ++ g])
        else
          match weekMode (detailURL ++ g) c mode with
          | none => .ok ((⟨"", c, [], weeks⟩, none), log ++ [sheduleURL] ++ [detailURL ++ g])
          | some none =>
            .ok ((Shedule.zero, some ("Wrong ParseType '" ++ mode ++ "'")),
              log ++ [sheduleURL] ++ [detailURL ++ g])
          | some (some url2) =>
            match getPage w (log ++ [sheduleURL] ++ [detailURL ++ g]) url2 with
            | (.error err, log3) => .ok ((Shedule.zero, some err), log3)
            | (.ok page2, log3) =>
              match parseStudyDays page2.dayContainers 0 with
              | .error p => .error p
              | .ok days => .ok ((⟨"", c, days, weeks⟩, none), log3) := by
  have hv := ValidateGroup_valid w log g hvalid
  simp only [GetWeekShedule, hv, getPage_ok w _ _ page hpage, hweeks, Shedule.zero]
  by_cases hc : c = 0
  · subst hc; simp
  · have hc0 : (c == 0) = false := by simpa using hc
    simp only [hc0, Bool.false_eq_true, if_false, hc]

/-- C11, as amended.  For every valid group, `GetWeekShedule` in mode
thisweeknum performs, whenever it returns, the listing fetch of the validation
and then one fetch of the detail page, and no refetch: exactly two fetches in
total, or the first one only when `http.Get` rejects the detail URL without
sending a request.  When the detail page is fetched and the week parser
resolves a current week other than 0, the schedule returned has only its weeks
and current week number populated, its days are empty, and there is no
error. -/
theorem GetWeekShedule_thisweeknum (w : World) (log : List String) (g : String)
    (hvalid : (ValidateGroup w log g).1 = (0, none)) :
    (∀ r, GetWeekShedule w log "thisweeknum" g = .ok r →
        r.2 = log ++ [sheduleURL]
          ++ (if w.refused (detailURL ++ g) then [] else [detailURL ++ g]))
    ∧ (∀ (page : Page) (weeks : List (Option StudyWeek)) (c : Int),
        w.respond (log ++ [sheduleURL]) (detailURL ++ g) = .ok page →
        parseStudyWeeks w.clock page.weekCells = .ok (weeks, c) → c ≠ 0 →
        GetWeekShedule w log "thisweeknum" g
          = .ok ((⟨"", c, [], weeks⟩, none), log ++ [sheduleURL] ++ [detailURL ++ g])) := by
  have hmode : ∀ (url : String) (c : Int), weekMode url c "thisweeknum" = none := by
    intro url c; simp [weekMode]
  have hv := ValidateGroup_valid w log g hvalid
  refine ⟨?_, ?_⟩
  · intro r hr
    cases hpage : w.respond (log ++ [sheduleURL]) (detailURL ++ g) with
    | error err =>
      simp only [GetWeekShedule, hv, getPage, hpage] at hr
      cases hr
      cases w.refused (detailURL ++ g) <;> simp
    | ok page =>
      have hnot : w.refused (detailURL ++ g) = false := by
        cases hr2 : w.refused (detailURL ++ g) with
        | false => rfl
        | true =>
          obtain ⟨err, he⟩ := w.refused_fails (log ++ [sheduleURL]) (detailURL ++ g) hr2
          rw [hpage] at he
          cases he
      simp only [hnot, Bool.false_eq_true, if_false]
      cases hweeks : parseStudyWeeks w.clock page.weekCells with
      | error p =>
        simp only [GetWeekShedule, hv, getPage_ok w _ _ page hpage, hweeks] at hr
        cases hr
      | ok res =>
        obtain ⟨weeks, c⟩ := res
        rw [GetWeekShedule_first w log _ g page weeks c hvalid hpage hweeks, hmode] at hr
        split at hr <;> (cases hr; rfl)
  · intro page weeks c hpage hweeks hc
    rw [GetWeekShedule_first w log _ g page weeks c hvalid hpage hweeks, hmode, if_neg hc]

/-- C11 on two worlds: on the example two fetches, weeks and week number set,
no days; for the listed group "-10", tab, "B-1", whose detail URL `http.Get`
rejects for its control character, the listing fetch only. -/
theorem GetWeekShedule_thisweeknum_witness :
    GetWeekShedule (exampleWorld exampleDetail) [] "thisweeknum" "M8O-406B-19"
      = .ok ((⟨"", 1, [], [some ⟨1, "01.09.24-07.09.24"⟩, some ⟨2, "08.09.24-14.09.24"⟩]⟩, none),
          [sheduleURL, detailURL ++ "M8O-406B-19"])
    ∧ ∀ r, GetWeekShedule controlWorld [] "thisweeknum" "-10\tB-1" = .ok r →
        r.2 = [sheduleURL] :=
  ⟨(GetWeekShedule_thisweeknum (exampleWorld exampleDetail) [] "M8O-406B-19" (by decide)).2
    exampleDetail _ 1 (by decide) (by decide) (by decide),
   fun r hr => ((GetWeekShedule_thisweeknum controlWorld [] "-10\tB-1" (by decide)).1 r hr).trans
    (by decide)⟩

/-- C11 fails as stated: for a valid group the operation makes two fetches,
the listing page and the detail page, not one. -/
theorem GetWeekShedule_thisweeknum_counterexample :
    (ValidateGroup (exampleWorld exampleDetail) [] "M8O-406B-19").1 = (0, none)
    ∧ GetWeekShedule (exampleWorld exampleDetail) [] "thisweeknum" "M8O-406B-19"
      = .ok ((⟨"", 1, [], [some ⟨1, "01.09.24-07.09.24"⟩, some ⟨2, "08.09.24-14.09.24"⟩]⟩, none),
          [sheduleURL, detailURL ++ "M8O-406B-19"])
    ∧ [sheduleURL, detailURL ++ "M8O-406B-19"].length = 2 := by
  decide

/-- C13.  For every valid group and every mode, when the first detail page
is fetched and the week parser resolves no current week (0),
`GetWeekShedule` returns the error "Current week doesn't correspond to any
shedule week" with a schedule whose weeks are the parsed week list and whose
days are empty, after the listing fetch and the detail fetch and no other. -/
theorem GetWeekShedule_unresolved (w : World) (log : List String) (mode g : String)
    (page : Page) (weeks : List (Option StudyWeek))
    (hvalid : (ValidateGroup w log g).1 = (0, none))
    (hpage : w.respond (log ++ [sheduleURL]) (detailURL ++ g) = .ok page)
    (hweeks : parseStudyWeeks w.clock page.weekCells = .ok (weeks, 0)) :
    GetWeekShedule w log mode g
      = .ok ((⟨"", 0, [], weeks⟩, some "Current week doesn't correspond to any shedule week"),
          log ++ [sheduleURL] ++ [detailURL ++ g]) := by
  rw [GetWeekShedule_first w log mode g page weeks 0 hvalid hpage hweeks, if_pos rfl]

/-- C13 on a detail page with year-less labels: no week is current, the weeks
are returned with the error, whatever the mode. -/
theorem GetWeekShedule_unresolved_witness :
    GetWeekShedule (exampleWorld exampleYearless) [] "nextweek" "M8O-406B-19"
      = .ok ((⟨"", 0, [], [some ⟨1, "01.09-07.09"⟩, some ⟨2, "08.09-14.09"⟩]⟩,
            some "Current week doesn't correspond to any shedule week"),
          [] ++ [sheduleURL] ++ [detailURL ++ "M8O-406B-19"]) :=
  GetWeekShedule_unresolved (exampleWorld exampleYearless) [] "nextweek" "M8O-406B-19"
    exampleYearless _ (by decide) (by decide) (by decide)

/-- C16.  When `ValidateGroup` returns code `c` with an error `e`, each of
the three operations returns the empty schedule (no group, week 0, no days, no
weeks) and the error "Error code: c, e", with no fetch beyond those of the
validator; the code is then 1, 2 or 10. -/
theorem validation_failure (w : World) (log log1 : List String) (mode g e : String) (c : Int)
    (hv : ValidateGroup w log g = ((c, some e), log1)) :
    GetDayShedule w log mode g
        = .ok ((⟨"", 0, [], []⟩, some ("Error code: " ++ Itoa c ++ ", " ++ e)), log1)
    ∧ GetWeekShedule w log mode g
        = .ok ((⟨"", 0, [], []⟩, some ("Error code: " ++ Itoa c ++ ", " ++ e)), log1)
    ∧ GetSessionShedule w log g
        = .ok ((⟨"", 0, [], []⟩, some ("Error code: " ++ Itoa c ++ ", " ++ e)), log1)
    ∧ (c = 1 ∨ c = 2 ∨ c = 10)
    ∧ (log1 = log ∨ log1 = log ++ [sheduleURL]) := by
  refine ⟨by simp only [GetDayShedule, hv, Shedule.zero, validationError],
    by simp only [GetWeekShedule, hv, Shedule.zero, validationError],
    by simp only [GetSessionShedule, hv, Shedule.zero, validationError], ?_, ?_⟩
  · rcases ValidateGroup_codes w log g with ⟨m, h⟩ | ⟨m, l, h, _⟩ | ⟨m, h⟩ | h
    · rw [h] at hv; simp only [Prod.mk.injEq] at hv; exact Or.inl hv.1.1.symm
    · rw [h] at hv; simp only [Prod.mk.injEq] at hv; exact Or.inr (Or.inr hv.1.1.symm)
    · rw [h] at hv; simp only [Prod.mk.injEq] at hv; exact Or.inr (Or.inl hv.1.1.symm)
    · rw [h] at hv; simp only [Prod.mk.injEq] at hv; exact absurd hv.1.2 (by simp)
  · rcases ValidateGroup_codes w log g with ⟨m, h⟩ | ⟨m, l, h, hl⟩ | ⟨m, h⟩ | h
    · rw [h] at hv; simp only [Prod.mk.injEq] at hv; exact Or.inl hv.2.symm
    · rw [h] at hv; simp only [Prod.mk.injEq] at hv; rw [← hv.2]; exact hl
    · rw [h] at hv; simp only [Prod.mk.injEq] at hv; exact Or.inr hv.2.symm
    · rw [h] at hv; simp only [Prod.mk.injEq] at hv; exact Or.inr hv.2.symm

/-- C16 on a group that fails the shape check: code 1, wrapped. -/
theorem validation_failure_witness :
    GetSessionShedule (exampleWorld exampleDetail) [] "bogus"
      = .ok ((⟨"", 0, [], []⟩,
          some ("Error code: " ++ Itoa 1 ++ ", " ++ "Group 'bogus' doesn't match the pattern")),
          []) :=
  (validation_failure (exampleWorld exampleDetail) [] [] "today" "bogus"
    "Group 'bogus' doesn't match the pattern" 1 (by decide)).2.2.1

/-- C20.  Whatever the mode and the group, the schedule returned by each of
the three operations, with or without an error, has an empty `Group` field. -/
theorem group_never_recorded (w : World) (log : List String) (mode g : String) :
    (∀ r, GetDayShedule w log mode g = .ok r → r.1.1.Group = "")
    ∧ (∀ r, GetWeekShedule w log mode g = .ok r → r.1.1.Group = "")
    ∧ (∀ r, GetSessionShedule w log g = .ok r → r.1.1.Group = "") := by
  refine ⟨?_, ?_, ?_⟩
  · intro r h
    simp only [GetDayShedule, Shedule.zero] at h
    repeat' split at h
    all_goals first | (cases h; rfl) | cases h
  · intro r h
    simp only [GetWeekShedule, Shedule.zero] at h
    repeat' split at h
    all_goals first | (cases h; rfl) | cases h
  · intro r h
    simp only [GetSessionShedule, Shedule.zero] at h
    repeat' split at h
    all_goals first | (cases h; rfl) | cases h

/-- C20 on the example: a successful week request for group M8O-406B-19
returns a schedule whose `Group` is empty. -/
theorem group_never_recorded_witness :
    ∃ r, GetWeekShedule (exampleWorld exampleDetail) [] "thisweek" "M8O-406B-19" = .ok r
      ∧ r.1.2 = none ∧ r.1.1.Group = "" := by
  have h : GetWeekShedule (exampleWorld exampleDetail) [] "thisweek" "M8O-406B-19"
      = .ok ((⟨"", 1, exampleDetail.dayContainers.map (fun c => some (dayOf c)),
              [some ⟨1, "01.09.24-07.09.24"⟩, some ⟨2, "08.09.24-14.09.24"⟩]⟩, none),
          [sheduleURL, detailURL ++ "M8O-406B-19",
            detailURL ++ "M8O-406B-19" ++ "&week=" ++ "1"]) := by decide
  exact ⟨_, h, rfl, (group_never_recorded (exampleWorld exampleDetail) [] "thisweek"
    "M8O-406B-19").2.1 _ h⟩

/-! ## C12: unrecognised modes -/

theorem weekPattern_iff (s : List Char) :
    matchAnywhere weekPattern s = true ↔ hasDigitWeek s := by
  rw [matchAnywhere_iff]
  simp only [weekPattern, matchHere, List.mem_flatMap, List.mem_singleton, mem_spans_lit]
  simp only [mem_spans_zero]
  constructor
  · rintro ⟨pre, suf, t, hs, t1, ⟨x, hx, hxc, hxlo, -⟩, t2, h2, t3, h3, t4, h4, t5, h5, ht⟩
    have hne : x ≠ [] := by
      intro e; rw [e] at hxlo; simp at hxlo
    refine ⟨pre ++ x.dropLast, x.getLast hne, t5, ?_, hxc _ (List.getLast_mem hne)⟩
    rw [hs, hx, h2, h3, h4, h5]
    conv_lhs => rw [← List.dropLast_append_getLast hne]
    simp
  · rintro ⟨pre, d, post, hs, hd⟩
    refine ⟨pre, d :: 'w' :: 'e' :: 'e' :: 'k' :: post, post, hs,
      'w' :: 'e' :: 'e' :: 'k' :: post, ⟨[d], rfl, ?_, by simp, ?_⟩,
      'e' :: 'e' :: 'k' :: post, rfl, 'e' :: 'k' :: post, rfl, 'k' :: post, rfl, post, rfl, rfl⟩
    · intro c hc
      simp only [List.mem_singleton] at hc
      rw [hc]; exact hd
    · intro h hr
      cases hr
      simp

/-- C12, as amended.  For every valid group: `GetDayShedule` with a mode other
than today and tomorrow returns the error "Wrong parseType 'mode'" with the
empty schedule and no fetch beyond the listing fetch of the validation;
`GetWeekShedule` first fetches the detail page and runs the week parser, and
when that page is fetched and a current week other than 0 is resolved, it
returns the error "Wrong ParseType 'mode'" with the empty schedule and without
a further fetch for every mode that is none of thisweeknum, thisweek, nextweek
and contains no decimal digit directly followed by week. -/
theorem wrong_mode (w : World) (log : List String) (mode g : String)
    (hvalid : (ValidateGroup w log g).1 = (0, none)) :
    (mode ≠ "today" → mode ≠ "tomorrow" →
      GetDayShedule w log mode g
        = .ok ((⟨"", 0, [], []⟩, some ("Wrong parseType '" ++ mode ++ "'")),
            log ++ [sheduleURL]))
    ∧ (∀ (page : Page) (weeks : List (Option StudyWeek)) (c : Int),
        w.respond (log ++ [sheduleURL]) (detailURL ++ g) = .ok page →
        parseStudyWeeks w.clock page.weekCells = .ok (weeks, c) → c ≠ 0 →
        mode ≠ "thisweeknum" → mode ≠ "thisweek" → mode ≠ "nextweek" →
        ¬ hasDigitWeek mode.data →
        GetWeekShedule w log mode g
          = .ok ((⟨"", 0, [], []⟩, some ("Wrong ParseType '" ++ mode ++ "'")),
              log ++ [sheduleURL] ++ [detailURL ++ g])) := by
  have hv := ValidateGroup_valid w log g hvalid
  refine ⟨?_, ?_⟩
  · intro h1 h2
    have hm : dayMode w.clock mode = none := by
      simp [dayMode, h1, h2]
    simp only [GetDayShedule, hv, hm, Shedule.zero]
  · intro page weeks c hpage hweeks hc h1 h2 h3 h4
    have hre : matchAnywhere weekPattern mode.data = false := by
      rw [← Bool.not_eq_true, weekPattern_iff]; exact h4
    have hm : weekMode (detailURL ++ g) c mode = some none := by
      simp [weekMode, h1, h2, h3, hre]
    rw [GetWeekShedule_first w log mode g page weeks c hvalid hpage hweeks, if_neg hc, hm]
    rfl

/-- C12 on the mode bogus: the day flow stops after the listing fetch, the
week flow after the detail fetch, both with the wrong-mode error. -/
theorem wrong_mode_witness :
    GetDayShedule (exampleWorld exampleDetail) [] "bogus" "M8O-406B-19"
        = .ok ((⟨"", 0, [], []⟩, some ("Wrong parseType '" ++ "bogus" ++ "'")),
            [] ++ [sheduleURL])
    ∧ GetWeekShedule (exampleWorld exampleDetail) [] "bogus" "M8O-406B-19"
        = .ok ((⟨"", 0, [], []⟩, some ("Wrong ParseType '" ++ "bogus" ++ "'")),
            [] ++ [sheduleURL] ++ [detailURL ++ "M8O-406B-19"]) :=
  ⟨(wrong_mode (exampleWorld exampleDetail) [] "bogus" "M8O-406B-19" (by decide)).1
      (by decide) (by decide),
   (wrong_mode (exampleWorld exampleDetail) [] "bogus" "M8O-406B-19" (by decide)).2
      exampleDetail [some ⟨1, "01.09.24-07.09.24"⟩, some ⟨2, "08.09.24-14.09.24"⟩] 1
      (by decide) (by decide) (by decide) (by decide) (by decide) (by decide)
      (fun h => absurd ((weekPattern_iff "bogus".data).mpr h) (by decide))⟩

/-- C12 fails as stated for the week flow: with the unrecognised mode bogus
`GetWeekShedule` fetches the detail page before it rejects the mode, and the
mode x5weeks, which is not a decimal number followed by week, is not rejected
at all: the page is refetched with week=x5weeks and no error is returned. -/
theorem wrong_mode_counterexample :
    GetWeekShedule (exampleWorld exampleDetail) [] "bogus" "M8O-406B-19"
        = .ok ((⟨"", 0, [], []⟩, some "Wrong ParseType 'bogus'"),
            [sheduleURL, detailURL ++ "M8O-406B-19"])
    ∧ GetWeekShedule (exampleWorld exampleDetail) [] "x5weeks" "M8O-406B-19"
        = .ok ((⟨"", 1, exampleDetail.dayContainers.map (fun c => some (dayOf c)),
                [some ⟨1, "01.09.24-07.09.24"⟩, some ⟨2, "08.09.24-14.09.24"⟩]⟩, none),
            [sheduleURL, detailURL ++ "M8O-406B-19",
              detailURL ++ "M8O-406B-19" ++ "&week=x5weeks"]) := by
  decide

/-! ## C17: the end date of a week -/

theorem timeParse_midnight (v : String) (t : Int) (h : timeParse v = some t) :
    t % nanosPerDay = 0 := by
  simp only [timeParse] at h
  split at h
  · split at h
    · split at h
      · cases h
      · split at h
        · cases h
        · split at h
          · cases h
          · cases h
            simp only [dateInstant]
            exact Int.mul_emod_left _ _
    · cases h
  · cases h

/-- C17.  A parsed date is the instant 00:00 UTC of its day.  On a table whose
labels are all well formed, when the current instant is at or after the
parsed end date of week `k` and not strictly inside the range of any other
week, week `k` does not bracket it either and `parseStudyWeeks` returns the
current week number 0. -/
theorem parseStudyWeeks_endDate (clock : Clock) (cells : List String) (m k : Nat)
    (wk : StudyWeek) (a b : String) (e : Int)
    (hlen : cells.length = 2 * m)
    (hwf : ∀ w ∈ pairWeeks (formatYear clock) (formatYearMin clock) cells,
      wellFormedLabel w.Borders = true)
    (hk : (pairWeeks (formatYear clock) (formatYearMin clock) cells)[k]? = some wk)
    (hsplit : splitDash wk.Borders = [a, b]) (hend : timeParse b = some e)
    (hnow : e ≤ clock.now)
    (hothers : ∀ (j : Nat) (w : StudyWeek), j ≠ k →
      (pairWeeks (formatYear clock) (formatYearMin clock) cells)[j]? = some w →
      brackets clock.now w = false) :
    parseStudyWeeks clock cells
        = .ok ((pairWeeks (formatYear clock) (formatYearMin clock) cells).map some, 0)
    ∧ brackets clock.now wk = false
    ∧ e % nanosPerDay = 0 := by
  have hwk : brackets clock.now wk = false := by
    simp only [brackets, hsplit, hend]
    cases timeParse a with
    | none => rfl
    | some s =>
      simp only [decide_eq_false_iff_not, not_and, not_lt]
      intro _; exact hnow
  have hall : ∀ w ∈ pairWeeks (formatYear clock) (formatYearMin clock) cells,
      brackets clock.now w = false := by
    intro w hw
    obtain ⟨j, hj⟩ := List.getElem?_of_mem hw
    by_cases hjk : j = k
    · subst hjk
      rw [hk] at hj
      cases hj
      exact hwk
    · exact hothers j w hjk hj
  have hd : ∀ w ∈ pairWeeks (formatYear clock) (formatYearMin clock) cells,
      '-' ∈ w.Borders.data := fun w hw => wellFormed_dash _ (hwf w hw)
  refine ⟨?_, hwk, timeParse_midnight b e hend⟩
  rw [parseStudyWeeks_unfold clock cells m hlen, thisWeekLoop_selects clock.now _ hd]
  simp only [firstNum]
  rw [find_congr (selects clock.now) (brackets clock.now) _
    (fun w hw => selects_eq_brackets clock.now w (hwf w hw))]
  have hnone : (pairWeeks (formatYear clock) (formatYearMin clock) cells).find?
      (brackets clock.now) = none := by
    rw [List.find?_eq_none]
    intro w hw
    simp [hall w hw]
  rw [hnone]

/-- C17 at noon of 7 September 2024, the end date of week 1: no week is
current. -/
theorem parseStudyWeeks_endDate_witness :
    parseStudyWeeks clockSep7 ["1", "01.09.2024 - 07.09.2024", "2", "08.09.2024 - 14.09.2024"]
      = .ok ([some ⟨1, "01.09.24-07.09.24"⟩, some ⟨2, "08.09.24-14.09.24"⟩], 0) :=
  (parseStudyWeeks_endDate clockSep7
    ["1", "01.09.2024 - 07.09.2024", "2", "08.09.2024 - 14.09.2024"] 2 0
    ⟨1, "01.09.24-07.09.24"⟩ "01.09.24" "07.09.24" (dateInstant 2024 9 7)
    (by decide) (by decide) (by decide) (by decide) (by decide) (by decide)
    (by
      intro j w hj hw
      match j, hj, hw with
      | 1, _, hw =>
        have e : w = ⟨2, "08.09.24-14.09.24"⟩ := by
          have h2 : (pairWeeks (formatYear clockSep7) (formatYearMin clockSep7)
              ["1", "01.09.2024 - 07.09.2024", "2", "08.09.2024 - 14.09.2024"])[1]?
              = some ⟨2, "08.09.24-14.09.24"⟩ := by decide
          rw [h2] at hw
          cases hw; rfl
        rw [e]; decide
      | j + 2, _, hw =>
        have h2 : (pairWeeks (formatYear clockSep7) (formatYearMin clockSep7)
            ["1", "01.09.2024 - 07.09.2024", "2", "08.09.2024 - 14.09.2024"])[j + 2]?
            = none := by
          have hl : (pairWeeks (formatYear clockSep7) (formatYearMin clockSep7)
            ["1", "01.09.2024 - 07.09.2024", "2", "08.09.2024 - 14.09.2024"]).length = 2 := by
            decide
          exact List.getElem?_eq_none (by omega)
        rw [h2] at hw
        cases hw)).1.trans (by decide)

/-! ## C18: when `parseStudyDays` completes -/

theorem parseStudyDays_negative (containers : List DayContainer) (daysCount : Int)
    (h : daysCount < 0) : parseStudyDays containers daysCount = .error .makeSliceLen := by
  have h0 : (daysCount == 0) = false := by
    simp only [beq_eq_false_iff_ne, ne_eq]; omega
  simp [parseStudyDays, h0, makeSlice, h]

theorem findAllChunks_oneLine (h : String) (hnl : '\n' ∉ h.data) (h5 : h.data.length ≤ 5) :
    (findAllChunks h).length ≤ 1 := by
  simp only [findAllChunks]
  by_cases hlt : h.data.length < 5
  · rw [chunkScan_short h.data hnl [] (by simpa using hlt)]
    simp only [flushChunk]
    split <;> simp
  · rw [chunkScan_full h.data hnl [] (by simp)
      (by simp only [List.length_nil, Nat.zero_add]; omega)]
    have hdrop : h.data.drop (5 - ([] : List Char).length) = [] := by
      apply List.drop_eq_nil_of_le
      simp only [List.length_nil, Nat.sub_zero]; exact h5
    rw [hdrop]
    simp [chunkScan, flushChunk]

/-- C18.  `parseStudyDays` fails with an index out of range exactly when some
container it processes (all of them for count 0, the first `daysCount`
otherwise) has a header whose split into runs of up to 5 characters other than
the line feed gives fewer than two chunks; for a count that is not negative it
then returns its records exactly when every processed header gives two chunks.
A missing or empty header gives no chunk, and a header of at most 5 characters
without a line feed gives at most one, so a processed container with such a
header makes `parseStudyDays` fail. -/
theorem parseStudyDays_completes (containers : List DayContainer) (daysCount : Int) :
    (parseStudyDays containers daysCount ≠ .error .indexOutOfRange ↔
      ∀ c ∈ containers.take (if daysCount = 0 then containers.length else daysCount.toNat),
        2 ≤ (findAllChunks (selText c.header)).length)
    ∧ (0 ≤ daysCount →
        ((∃ days, parseStudyDays containers daysCount = .ok days) ↔
          ∀ c ∈ containers.take (if daysCount = 0 then containers.length else daysCount.toNat),
            2 ≤ (findAllChunks (selText c.header)).length))
    ∧ (∀ c : DayContainer, c.header = [] ∨ selText c.header = "" →
        (findAllChunks (selText c.header)).length = 0)
    ∧ (∀ c : DayContainer, '\n' ∉ (selText c.header).data → (selText c.header).length ≤ 5 →
        (findAllChunks (selText c.header)).length ≤ 1)
    ∧ (∀ c ∈ containers.take (if daysCount = 0 then containers.length else daysCount.toNat),
        '\n' ∉ (selText c.header).data → (selText c.header).length ≤ 5 →
        parseStudyDays containers daysCount = .error .indexOutOfRange) := by
  have hall : ∀ r : Nat, ((containers.take r).all headerOk = true ↔
      ∀ c ∈ containers.take r, 2 ≤ (findAllChunks (selText c.header)).length) := by
    intro r
    simp only [List.all_eq_true, headerOk, decide_eq_true_eq]
  have hrun : ∀ cnt : Nat,
      (parseStudyDays containers (cnt : Int) ≠ .error .indexOutOfRange ↔
        ∀ c ∈ containers.take (if (cnt : Int) = 0 then containers.length else (cnt : Int).toNat),
          2 ≤ (findAllChunks (selText c.header)).length)
      ∧ ((∃ days, parseStudyDays containers (cnt : Int) = .ok days) ↔
        ∀ c ∈ containers.take (if (cnt : Int) = 0 then containers.length else (cnt : Int).toNat),
          2 ≤ (findAllChunks (selText c.header)).length) := by
    intro cnt
    have hif : (if (cnt : Int) = 0 then containers.length else (cnt : Int).toNat)
        = (if cnt = 0 then containers.length else cnt) := by
      by_cases h : cnt = 0 <;> simp [h]
    rw [parseStudyDays_eq, hif, ← hall]
    by_cases hok : (containers.take (if cnt = 0 then containers.length else cnt)).all headerOk
        = true
    · simp only [hok, if_true]
      exact ⟨⟨fun _ => trivial, fun _ h => by cases h⟩, ⟨fun _ => trivial, fun _ => ⟨_, rfl⟩⟩⟩
    · simp only [hok, if_false]
      refine ⟨⟨fun h => absurd rfl h, fun h => absurd h (by simp)⟩, ⟨?_, fun h => absurd h (by simp)⟩⟩
      rintro ⟨days, h⟩
      cases h
  have hfirst : parseStudyDays containers daysCount ≠ .error .indexOutOfRange ↔
      ∀ c ∈ containers.take (if daysCount = 0 then containers.length else daysCount.toNat),
        2 ≤ (findAllChunks (selText c.header)).length := by
    by_cases hneg : daysCount < 0
    · have h0 : ¬ daysCount = 0 := by omega
      have ht : daysCount.toNat = 0 := by omega
      simp [parseStudyDays_negative containers daysCount hneg, h0, ht]
    · obtain ⟨cnt, rfl⟩ : ∃ cnt : Nat, daysCount = (cnt : Int) := ⟨daysCount.toNat, by omega⟩
      exact (hrun cnt).1
  refine ⟨hfirst, ?_, ?_, ?_, ?_⟩
  · intro hpos
    obtain ⟨cnt, rfl⟩ : ∃ cnt : Nat, daysCount = (cnt : Int) := ⟨daysCount.toNat, by omega⟩
    exact (hrun cnt).2
  · intro c hc
    have he : selText c.header = "" := by
      rcases hc with h | h
      · rw [h]; rfl
      · exact h
    rw [he]; rfl
  · intro c hnl h5
    exact findAllChunks_oneLine _ hnl h5
  · intro c hc hnl h5
    by_contra hne
    have h2 := hfirst.mp hne c hc
    have h1 := findAllChunks_oneLine _ hnl h5
    omega

/-! ## C19: odd and even numbers of cells -/

theorem eachCell_append (year yearMin : String) (xs ys : List String) :
    ∀ (k : Nat) (st : WeekScan), eachCell year yearMin (xs ++ ys) k st
      = match eachCell year yearMin xs k st with
        | .error p => .error p
        | .ok st2 => eachCell year yearMin ys (k + xs.length) st2 := by
  induction xs with
  | nil => intro k st; simp [eachCell]
  | cons x xs ih =>
    intro k st
    simp only [List.cons_append, eachCell]
    cases weekCell year yearMin st k x with
    | error p => rfl
    | ok st2 =>
      have e : k + 1 + xs.length = k + (xs.length + 1) := by omega
      have h := ih (k + 1) st2
      rw [e] at h
      simpa using h

theorem weekCell_full (year yearMin : String) (ws : List (Option StudyWeek)) (m : Nat)
    (j : Int) (text : String) (hws : ws.length = m) :
    weekCell year yearMin ⟨ws, (m : Int), j⟩ (2 * m) text = .error .indexOutOfRange := by
  have hmod : 2 * m % 2 = 0 := Nat.mul_mod_right 2 m
  have hidx : ¬ (0 ≤ ((2 * m : Nat) : Int) - (m : Int)
      ∧ ((2 * m : Nat) : Int) - (m : Int) < (ws.length : Int)) := by
    rw [hws]; push_cast; omega
  simp only [weekCell, hmod, sliceSet, hidx, if_false]

/-- C19.  On an odd number `2m+1` of cells the slice `weeks` has `m` entries;
the first `2m` cells fill them, and the last cell, at the even position `2m`,
stores at index `m` and panics with an index out of range, so
`parseStudyWeeks` fails.  On an even number `2m` of cells every store of the
scan is in range and every one of the `m` entries is set. -/
theorem parseStudyWeeks_parity (clock : Clock) (cells : List String) (m : Nat) :
    (cells.length = 2 * m + 1 →
      parseStudyWeeks clock cells = .error .indexOutOfRange
      ∧ (makeSlice ((cells.length : Int) / 2) : Except Panic (List (Option StudyWeek)))
          = .ok (List.replicate m none)
      ∧ ∃ ws : List StudyWeek, ws.length = m
          ∧ eachCell (formatYear clock) (formatYearMin clock) (cells.take (2 * m)) 0
              ⟨List.replicate m none, 0, 0⟩ = .ok ⟨ws.map some, (m : Int), (m : Int)⟩
          ∧ weekCell (formatYear clock) (formatYearMin clock) ⟨ws.map some, (m : Int), (m : Int)⟩
              (2 * m) (cells.getD (2 * m) "") = .error .indexOutOfRange)
    ∧ (cells.length = 2 * m →
      ∃ ws : List StudyWeek, ws.length = m
        ∧ eachCell (formatYear clock) (formatYearMin clock) cells 0
            ⟨List.replicate m none, 0, 0⟩ = .ok ⟨ws.map some, (m : Int), (m : Int)⟩) := by
  refine ⟨?_, ?_⟩
  · intro hlen
    have htake : (cells.take (2 * m)).length = 2 * m := by
      rw [List.length_take]; omega
    have hscan := eachCell_even clock (cells.take (2 * m)) m htake
    have hwl := pairWeeks_length (formatYear clock) (formatYearMin clock) m _ htake
    have hlast := weekCell_full (formatYear clock) (formatYearMin clock)
      ((pairWeeks (formatYear clock) (formatYearMin clock) (cells.take (2 * m))).map some) m
      (m : Int) (cells.getD (2 * m) "") (by simp [hwl])
    have hdiv : ((cells.length : Int) / 2) = (m : Int) := by
      rw [hlen]; push_cast; omega
    have hmk : (makeSlice ((cells.length : Int) / 2) : Except Panic (List (Option StudyWeek)))
        = .ok (List.replicate m none) := by
      rw [hdiv]; simp [makeSlice]
    refine ⟨?_, hmk, _, hwl, hscan, hlast⟩
    have hsplit : cells = cells.take (2 * m) ++ [cells.getD (2 * m) ""] := by
      have hdl : (cells.drop (2 * m)).length = 1 := by
        rw [List.length_drop]; omega
      obtain ⟨x, hx⟩ : ∃ x, cells.drop (2 * m) = [x] := by
        match hd : cells.drop (2 * m), hdl with
        | [x], _ => exact ⟨x, rfl⟩
      have hc : cells = cells.take (2 * m) ++ [x] := by
        conv_lhs => rw [← List.take_append_drop (2 * m) cells, hx]
      have hget : cells.getD (2 * m) "" = x := by
        have := getD_at_length (cells.take (2 * m)) [] x ""
        rw [htake, ← hc] at this
        exact this
      rw [hget]; exact hc
    have hrun : eachCell (formatYear clock) (formatYearMin clock) cells 0
        ⟨List.replicate m none, 0, 0⟩ = .error .indexOutOfRange := by
      rw [hsplit, eachCell_append, hscan]
      simp only [htake, Nat.zero_add, eachCell, hlast]
    simp only [parseStudyWeeks, hmk, hrun]
  · intro hlen
    exact ⟨_, pairWeeks_length _ _ m cells hlen, eachCell_even clock cells m hlen⟩

/-- C19 on three cells and on two. -/
theorem parseStudyWeeks_parity_witness :
    parseStudyWeeks clockSep2024 ["1", "01.09.2024 - 07.09.2024", "2"]
        = .error .indexOutOfRange
    ∧ ∃ ws : List StudyWeek, ws.length = 1
        ∧ eachCell (formatYear clockSep2024) (formatYearMin clockSep2024)
            ["1", "01.09.2024 - 07.09.2024"] 0 ⟨List.replicate 1 none, 0, 0⟩
          = .ok ⟨ws.map some, ((1 : Nat) : Int), ((1 : Nat) : Int)⟩ :=
  ⟨((parseStudyWeeks_parity clockSep2024 ["1", "01.09.2024 - 07.09.2024", "2"] 1).1
      (by decide)).1,
   (parseStudyWeeks_parity clockSep2024 ["1", "01.09.2024 - 07.09.2024"] 1).2 (by decide)⟩

/-! ## C15: year-less labels -/

theorem digit_not_mark (c : Char) (h : isDigit c = true) :
    (c == ' ') = false ∧ (c == '-') = false ∧ (c == '.') = false
      ∧ (' ' == c) = false ∧ ('-' == c) = false ∧ ('.' == c) = false := by
  simp only [isDigit, Bool.and_eq_true, decide_eq_true_eq] at h
  have h0 : '0'.toNat = 48 := by decide
  rw [h0] at h
  have hs : c ≠ ' ' := by rintro rfl; revert h; decide
  have hd : c ≠ '-' := by rintro rfl; revert h; decide
  have hp : c ≠ '.' := by rintro rfl; revert h; decide
  simp [hs, hd, hp, Ne.symm hs, Ne.symm hd, Ne.symm hp]

theorem yearLess_data (label : String) (hl : yearLess label = true) :
    ∃ a b c d e f g i : Char,
      label.data = [a, b, '.', c, d, ' ', '-', ' ', e, f, '.', g, i]
      ∧ isDigit a = true ∧ isDigit b = true ∧ isDigit c = true ∧ isDigit d = true
      ∧ isDigit e = true ∧ isDigit f = true ∧ isDigit g = true ∧ isDigit i = true := by
  simp only [yearLess] at hl
  split at hl
  · rename_i x a b p c d s1 h s2 e f q g i heq
    simp only [Bool.and_eq_true, beq_iff_eq] at hl
    obtain ⟨⟨⟨⟨⟨⟨⟨⟨⟨⟨⟨⟨ha, hb⟩, hp⟩, hc⟩, hd⟩, hs1⟩, hh⟩, hs2⟩, he⟩, hf⟩, hq⟩, hg⟩, hi⟩ := hl
    subst hp hs1 hh hs2 hq
    exact ⟨a, b, c, d, e, f, g, i, heq, ha, hb, hc, hd, he, hf, hg, hi⟩
  · cases hl

theorem normBorders_yearLess (year yearMin label : String) (hl : yearLess label = true)
    (hy4 : year.length = 4) (hyd : year.data.all isDigit = true) :
    ∃ a b c d e f g i : Char,
      normBorders year yearMin label = String.mk [a, b, '.', c, d, '-', e, f, '.', g, i]
      ∧ splitDash (normBorders year yearMin label)
          = [String.mk [a, b, '.', c, d], String.mk [e, f, '.', g, i]] := by
  obtain ⟨a, b, c, d, e, f, g, i, hdata, ha, hb, hc, hd, he, hf, hg, hi⟩ :=
    yearLess_data label hl
  rcases label with ⟨ld⟩
  have hld : ld = [a, b, '.', c, d, ' ', '-', ' ', e, f, '.', g, i] := hdata
  subst hld
  rcases year with ⟨yd⟩
  have hylen : yd.length = 4 := hy4
  match yd, hylen, hyd with
  | [y1, y2, y3, y4], _, hyd =>
    simp only [List.all_cons, List.all_nil, Bool.and_true, Bool.and_eq_true] at hyd
    obtain ⟨h1, h2, h3, h4⟩ := hyd
    have ma := digit_not_mark a ha
    have mb := digit_not_mark b hb
    have mc := digit_not_mark c hc
    have md := digit_not_mark d hd
    have me := digit_not_mark e he
    have mf := digit_not_mark f hf
    have mg := digit_not_mark g hg
    have mi := digit_not_mark i hi
    have m1 := digit_not_mark y1 h1
    have m2 := digit_not_mark y2 h2
    have m3 := digit_not_mark y3 h3
    have m4 := digit_not_mark y4 h4
    have hsp : " - ".data = [' ', '-', ' '] := rfl
    have hda : "-".data = ['-'] := rfl
    have hpd : ('.' == ' ') = false := by decide
    have hpm : ('.' == '-') = false := by decide
    have hnorm : normBorders ⟨[y1, y2, y3, y4]⟩ yearMin
        ⟨[a, b, '.', c, d, ' ', '-', ' ', e, f, '.', g, i]⟩
        = String.mk [a, b, '.', c, d, '-', e, f, '.', g, i] := by
      simp only [normBorders, ReplaceAll, hsp, hda, replaceScan, startsWith, ma, mb, mc, md,
        me, mf, mg, mi, m1, m2, m3, m4, hpd, Bool.false_and, Bool.and_false,
        Bool.false_eq_true, if_false, beq_self_eq_true, Bool.and_self, if_true,
        List.length_cons, List.length_nil, List.singleton_append, List.cons_append,
        List.nil_append]
    refine ⟨a, b, c, d, e, f, g, i, hnorm, ?_⟩
    rw [hnorm]
    simp only [splitDash, splitScan, ma, mb, mc, md, me, mf, mg, mi, hpm, Bool.false_eq_true,
      if_false, beq_self_eq_true, if_true, List.reverse_cons, List.reverse_nil,
      List.nil_append, List.cons_append]

theorem selects_unparsed_end (now : Int) (w : StudyWeek) (d0 d1 : String)
    (rest : List String) (hs : splitDash w.Borders = d0 :: d1 :: rest)
    (hp : timeParse d1 = none) : selects now w = false := by
  have h0 := parsedOrZero_nonneg d0
  simp only [selects, hs, parsedOrZero, hp, Option.getD_none, decide_eq_false_iff_not,
    not_and, not_lt]
  intro h1
  simp only [parsedOrZero] at h0
  omega

theorem timeParse_five (a b c d e : Char) : timeParse (String.mk [a, b, c, d, e]) = none := rfl

theorem pairWeeks_label (year yearMin : String) (cells : List String) (m : Nat)
    (hlen : cells.length = 2 * m) (w : StudyWeek) (hw : w ∈ pairWeeks year yearMin cells) :
    ∃ k, k < m ∧ w.Borders = normBorders year yearMin (cells.getD (2 * k + 1) "") := by
  obtain ⟨k, hk⟩ := List.getElem?_of_mem hw
  have hkm : k < m := by
    have := (List.getElem?_eq_some_iff.mp hk).1
    rw [pairWeeks_length year yearMin m cells hlen] at this
    exact this
  refine ⟨k, hkm, ?_⟩
  rw [pairWeeks_get year yearMin m cells k hlen hkm] at hk
  cases hk
  rfl

/-- C15, as amended.  In a year of four digits, when every label of an
even-length table has the year-less form DD.MM - DD.MM (as in the cells
"1", "01.09 - 07.09", "2", "08.09 - 14.09"), its date strings do not parse as
DD.MM.YY and `parseStudyWeeks` returns the current week number 0 wherever the
current date-time lies.  The number of the first week whose range brackets
the current date-time is returned when every normalised label carries the
year, that is, splits into two strings that parse as DD.MM.YY. -/
theorem parseStudyWeeks_yearLess (clock : Clock) (cells : List String) (m : Nat)
    (hlen : cells.length = 2 * m) :
    ((formatYear clock).length = 4 → (formatYear clock).data.all isDigit = true →
      (∀ k, k < m → yearLess (cells.getD (2 * k + 1) "") = true) →
      parseStudyWeeks clock cells
        = .ok ((pairWeeks (formatYear clock) (formatYearMin clock) cells).map some, 0))
    ∧ ((∀ w ∈ pairWeeks (formatYear clock) (formatYearMin clock) cells,
          wellFormedLabel w.Borders = true) →
      parseStudyWeeks clock cells
        = .ok ((pairWeeks (formatYear clock) (formatYearMin clock) cells).map some,
            firstNum (brackets clock.now)
              (pairWeeks (formatYear clock) (formatYearMin clock) cells))) := by
  refine ⟨?_, ?_⟩
  · intro hy4 hyd hless
    have hsplit : ∀ w ∈ pairWeeks (formatYear clock) (formatYearMin clock) cells,
        ∃ a b c d e f g i : Char, splitDash w.Borders
          = [String.mk [a, b, '.', c, d], String.mk [e, f, '.', g, i]] := by
      intro w hw
      obtain ⟨k, hk, hb⟩ := pairWeeks_label _ _ cells m hlen w hw
      obtain ⟨a, b, c, d, e, f, g, i, -, hs⟩ :=
        normBorders_yearLess (formatYear clock) (formatYearMin clock) _ (hless k hk) hy4 hyd
      exact ⟨a, b, c, d, e, f, g, i, by rw [hb]; exact hs⟩
    have hd : ∀ w ∈ pairWeeks (formatYear clock) (formatYearMin clock) cells,
        '-' ∈ w.Borders.data := by
      intro w hw
      obtain ⟨a, b, c, d, e, f, g, i, hs⟩ := hsplit w hw
      by_contra hn
      have h1 := splitScan_one '-' w.Borders.data hn []
      simp only [splitDash] at hs
      rw [h1] at hs
      simp at hs
    have hsel : ∀ w ∈ pairWeeks (formatYear clock) (formatYearMin clock) cells,
        selects clock.now w = false := by
      intro w hw
      obtain ⟨a, b, c, d, e, f, g, i, hs⟩ := hsplit w hw
      exact selects_unparsed_end clock.now w _ _ [] hs (timeParse_five e f '.' g i)
    have hnone : (pairWeeks (formatYear clock) (formatYearMin clock) cells).find?
        (selects clock.now) = none := by
      rw [List.find?_eq_none]
      intro w hw
      simp [hsel w hw]
    rw [parseStudyWeeks_unfold clock cells m hlen, thisWeekLoop_selects clock.now _ hd]
    simp only [firstNum, hnone]
  · intro hwf
    have hd : ∀ w ∈ pairWeeks (formatYear clock) (formatYearMin clock) cells,
        '-' ∈ w.Borders.data := fun w hw => wellFormed_dash _ (hwf w hw)
    rw [parseStudyWeeks_unfold clock cells m hlen, thisWeekLoop_selects clock.now _ hd]
    simp only [firstNum]
    rw [find_congr (selects clock.now) (brackets clock.now) _
      (fun w hw => selects_eq_brackets clock.now w (hwf w hw))]

/-- C15 on the cells of the claim: on 3 September 2024 the year-less labels
give the current week number 0. -/
theorem parseStudyWeeks_yearLess_witness :
    parseStudyWeeks clockSep2024 ["1", "01.09 - 07.09", "2", "08.09 - 14.09"]
      = .ok ([some ⟨1, "01.09-07.09"⟩, some ⟨2, "08.09-14.09"⟩], 0) :=
  ((parseStudyWeeks_yearLess clockSep2024 ["1", "01.09 - 07.09", "2", "08.09 - 14.09"] 2
    (by decide)).1 (by decide) (by decide)
    (by
      intro k hk
      match k, hk with
      | 0, _ => decide
      | 1, _ => decide)).trans (by decide)

/-- C15 fails as stated: at noon of 3 September 2024, inside the range of
week 1 of the claim's cells, `parseStudyWeeks` returns the current week number
0, not 1, because the year-less date strings do not parse. -/
theorem parseStudyWeeks_yearLess_counterexample :
    dateInstant 2024 9 1 < clockSep2024.now ∧ clockSep2024.now < dateInstant 2024 9 7
    ∧ timeParse "01.09" = none ∧ timeParse "07.09" = none
    ∧ parseStudyWeeks clockSep2024 ["1", "01.09 - 07.09", "2", "08.09 - 14.09"]
      = .ok ([some ⟨1, "01.09-07.09"⟩, some ⟨2, "08.09-14.09"⟩], 0) := by
  decide

/-! ## C14: what the normalisation leaves in a label -/

theorem replaceScan_skip (old new : List Char) (s : List Char) :
    ∀ k : Nat, replaceScan old new k s = replaceScan old new 0 (s.drop k) := by
  induction s with
  | nil => intro k; cases k <;> rfl
  | cons c s ih =>
    intro k
    cases k with
    | zero => rfl
    | succ k => simp only [replaceScan, List.drop_succ_cons]; exact ih k

theorem startsWith_nil_right (p : List Char) (h : p ≠ []) : startsWith p [] = false := by
  cases p with
  | nil => exact absurd rfl h
  | cons a p => rfl

theorem replaceScan_match (old new post : List Char) (h : old ≠ []) :
    replaceScan old new 0 (old ++ post) = new ++ replaceScan old new 0 post := by
  cases old with
  | nil => exact absurd rfl h
  | cons a old =>
    have hs : startsWith (a :: old) (a :: (old ++ post)) = true :=
      (startsWith_iff _ _).mpr ⟨post, rfl⟩
    have hd : List.drop old.length (old ++ post) = post := List.drop_left _ _
    show replaceScan (a :: old) new 0 (a :: (old ++ post)) = _
    simp only [replaceScan, hs, if_true, List.length_cons, Nat.add_sub_cancel]
    rw [replaceScan_skip, hd]

theorem replaceScan_step (old new : List Char) (c : Char) (s : List Char)
    (h : startsWith old (c :: s) = false) :
    replaceScan old new 0 (c :: s) = c :: replaceScan old new 0 s := by
  simp only [replaceScan, h, Bool.false_eq_true, if_false]

theorem containsAt_head (p s : List Char) (h : containsAt p s = false) :
    startsWith p s = false := by
  cases s with
  | nil => exact h
  | cons c s =>
    simp only [containsAt, Bool.or_eq_false_iff] at h
    exact h.1

theorem containsAt_tail (p : List Char) (c : Char) (s : List Char)
    (h : containsAt p (c :: s) = false) : containsAt p s = false := by
  simp only [containsAt, Bool.or_eq_false_iff] at h
  exact h.2

theorem containsAt_suffix (p pre t : List Char) (h : containsAt p (pre ++ t) = false) :
    containsAt p t = false := by
  induction pre with
  | nil => exact h
  | cons c pre ih => exact ih (containsAt_tail p c _ h)

theorem containsAt_cons (p : List Char) (c : Char) (s : List Char) :
    containsAt p (c :: s) = (startsWith p (c :: s) || containsAt p s) := rfl

/-- A text without an occurrence of `old` is left unchanged. -/
theorem replaceScan_id (old new : List Char) (s : List Char)
    (h : containsAt old s = false) : replaceScan old new 0 s = s := by
  induction s with
  | nil => rfl
  | cons c s ih =>
    rw [replaceScan_step old new c s (containsAt_head _ _ h), ih (containsAt_tail _ _ _ h)]

/-- The scan is a left-to-right case analysis on its input. -/
theorem replaceScan_cases (old : List Char) (s : List Char) :
    s = [] ∨ (∃ post, s = old ++ post ∧ startsWith old s = true)
      ∨ (∃ c t, s = c :: t ∧ startsWith old s = false) := by
  cases s with
  | nil => exact Or.inl rfl
  | cons c t =>
    cases h : startsWith old (c :: t) with
    | true =>
      obtain ⟨post, hp⟩ := (startsWith_iff _ _).mp h
      exact Or.inr (Or.inl ⟨post, hp, rfl⟩)
    | false => exact Or.inr (Or.inr ⟨c, t, rfl, rfl⟩)

/-! ### The first pass cannot leave " - " unless two spaces were adjacent -/

theorem dashScan_head (s : List Char)
    (h : (replaceScan [' ', '-', ' '] ['-'] 0 s).head? = some ' ') :
    ∃ t, s = ' ' :: t ∧ startsWith [' ', '-', ' '] s = false := by
  rcases replaceScan_cases [' ', '-', ' '] s with rfl | ⟨post, rfl, _⟩ | ⟨c, t, rfl, hn⟩
  · simp [replaceScan] at h
  · rw [replaceScan_match _ _ _ (by simp)] at h
    simp at h
  · rw [replaceScan_step _ _ c t hn] at h
    simp only [List.head?_cons, Option.some.injEq] at h
    subst h
    exact ⟨t, rfl, hn⟩

theorem dashScan_free (n : Nat) :
    ∀ s : List Char, s.length ≤ n → containsAt [' ', ' '] s = false →
      containsAt [' ', '-', ' '] (replaceScan [' ', '-', ' '] ['-'] 0 s) = false := by
  induction n with
  | zero =>
    intro s hs _
    have : s = [] := List.length_eq_zero.mp (by omega)
    subst this
    rfl
  | succ n ih =>
    intro s hs h2
    rcases replaceScan_cases [' ', '-', ' '] s with rfl | ⟨post, rfl, _⟩ | ⟨c, t, rfl, hn⟩
    · rfl
    · rw [replaceScan_match _ _ _ (by simp)]
      have hpost := ih post (by simp at hs; omega) (containsAt_suffix _ _ _ h2)
      simp only [List.singleton_append, containsAt_cons, hpost, Bool.or_false]
      rfl
    · rw [replaceScan_step _ _ c t hn]
      have ht := ih t (by simp at hs; omega) (containsAt_tail _ _ _ h2)
      simp only [containsAt_cons, ht, Bool.or_false]
      by_contra hcon
      simp only [Bool.not_eq_false] at hcon
      simp only [startsWith, Bool.and_eq_true, beq_iff_eq] at hcon
      obtain ⟨hc, hrest⟩ := hcon
      subst hc
      rcases replaceScan_cases [' ', '-', ' '] t with rfl | ⟨post, rfl, _⟩ | ⟨c2, t2, rfl, hn2⟩
      · simp [replaceScan, startsWith] at hrest
      · simp [containsAt, startsWith] at h2
      · rw [replaceScan_step _ _ c2 t2 hn2] at hrest
        simp only [startsWith, Bool.and_eq_true, beq_iff_eq] at hrest
        obtain ⟨hc2, hr3⟩ := hrest
        subst hc2
        have hhead : (replaceScan [' ', '-', ' '] ['-'] 0 t2).head? = some ' ' := by
          cases hr : replaceScan [' ', '-', ' '] ['-'] 0 t2 with
          | nil => rw [hr] at hr3; simp [startsWith] at hr3
          | cons x xs =>
            rw [hr] at hr3
            simp only [startsWith, Bool.and_true, beq_iff_eq] at hr3
            simp [← hr3]
        obtain ⟨t3, rfl, _⟩ := dashScan_head t2 hhead
        simp [startsWith] at hn

/-! ### A pass cannot create a pattern that shares no character with `new` -/

theorem startsWith_foreign (p : List Char) (c : Char) (s : List Char) (hp : p ≠ [])
    (hc : c ∉ p) : startsWith p (c :: s) = false := by
  cases p with
  | nil => exact absurd rfl hp
  | cons a p =>
    have hne : (a == c) = false := by
      simp only [beq_eq_false_iff_ne, ne_eq]
      intro e; exact hc (by simp [e])
    simp [startsWith, hne]

theorem containsAt_foreign (p pre t : List Char) (hp : p ≠ []) (hpre : ∀ c ∈ pre, c ∉ p) :
    containsAt p (pre ++ t) = containsAt p t := by
  induction pre with
  | nil => rfl
  | cons c pre ih =>
    simp only [List.cons_append, containsAt_cons,
      startsWith_foreign p c _ hp (hpre c (by simp)), Bool.false_or]
    exact ih (fun x hx => hpre x (List.mem_cons_of_mem _ hx))

theorem containsAt_append_left (p pre t : List Char) (h : containsAt p t = true) :
    containsAt p (pre ++ t) = true := by
  by_contra hn
  simp only [Bool.not_eq_true] at hn
  rw [containsAt_suffix p pre t hn] at h
  cases h

theorem scan_startsWith (old new : List Char) (hold : old ≠ []) (hnew : new ≠ []) :
    ∀ (p s : List Char), (∀ c ∈ new, c ∉ p) →
      startsWith p (replaceScan old new 0 s) = true → startsWith p s = true := by
  intro p
  induction p with
  | nil => intro s _ _; rfl
  | cons a p ih =>
    intro s hf h
    rcases replaceScan_cases old s with rfl | ⟨post, rfl, _⟩ | ⟨c, t, rfl, hn⟩
    · simp [replaceScan, startsWith] at h
    · rw [replaceScan_match _ _ _ hold] at h
      cases new with
      | nil => exact absurd rfl hnew
      | cons n new =>
        have := startsWith_foreign (a :: p) n (new ++ replaceScan old (n :: new) 0 post)
          (by simp) (hf n (by simp))
        rw [List.cons_append, this] at h
        cases h
    · rw [replaceScan_step _ _ c t hn] at h
      simp only [startsWith, Bool.and_eq_true, beq_iff_eq] at h ⊢
      exact ⟨h.1, ih t (fun x hx hxp => hf x hx (List.mem_cons_of_mem _ hxp)) h.2⟩

theorem scan_contains (old new p : List Char) (hold : old ≠ []) (hnew : new ≠ [])
    (hp : p ≠ []) (hf : ∀ c ∈ new, c ∉ p) (n : Nat) :
    ∀ s : List Char, s.length ≤ n → containsAt p s = false →
      containsAt p (replaceScan old new 0 s) = false := by
  induction n with
  | zero =>
    intro s hs h
    have : s = [] := List.length_eq_zero.mp (by omega)
    subst this
    exact h
  | succ n ih =>
    intro s hs h
    rcases replaceScan_cases old s with rfl | ⟨post, rfl, _⟩ | ⟨c, t, rfl, hn⟩
    · exact h
    · rw [replaceScan_match _ _ _ hold, containsAt_foreign p new _ hp hf]
      have hlen : post.length ≤ n := by
        have : 0 < old.length := List.length_pos.mpr hold
        simp only [List.length_append] at hs; omega
      exact ih post hlen (containsAt_suffix _ _ _ h)
    · rw [replaceScan_step _ _ c t hn, containsAt_cons,
        ih t (by simp at hs; omega) (containsAt_tail _ _ _ h), Bool.or_false]
      by_contra hcon
      simp only [Bool.not_eq_false] at hcon
      have h1 : startsWith p (replaceScan old new 0 (c :: t)) = true := by
        rw [replaceScan_step _ _ c t hn]; exact hcon
      have h2 := scan_startsWith old new hold hnew p (c :: t) hf h1
      rw [containsAt_head _ _ h] at h2
      cases h2

/-! ### The year pass leaves no year unless a digit touched one -/

theorem startsWith_append_long (a t p : List Char) (hlen : a.length < p.length)
    (h : startsWith p (a ++ t) = true) : ∃ c q, p = a ++ c :: q ∧ t.head? = some c := by
  obtain ⟨post, hpost⟩ := (startsWith_iff _ _).mp h
  rcases List.append_eq_append_iff.mp hpost with ⟨q, hq, ht⟩ | ⟨q, hq, ht⟩
  · -- p = a ++ q
    cases q with
    | nil => rw [hq] at hlen; simp at hlen
    | cons c q => exact ⟨c, q, hq, by rw [ht]; rfl⟩
  · -- a = p ++ q
    rw [hq] at hlen
    simp at hlen

theorem apart_tail (old : List Char) (c : Char) (s : List Char) (h : apart old (c :: s)) :
    apart old s :=
  fun d hd => ⟨containsAt_tail _ _ _ (h d hd).1, containsAt_tail _ _ _ (h d hd).2⟩

theorem apart_suffix (old pre t : List Char) (h : apart old (pre ++ t)) : apart old t :=
  fun d hd => ⟨containsAt_suffix _ _ _ (h d hd).1, containsAt_suffix _ _ _ (h d hd).2⟩

theorem apart_after (old post : List Char) (h : apart old (old ++ post)) :
    ∀ c, post.head? = some c → isDigit c = false := by
  intro c hc
  cases hd : isDigit c with
  | false => rfl
  | true =>
    exfalso
    cases post with
    | nil => cases hc
    | cons x post =>
      simp only [List.head?_cons, Option.some.injEq] at hc
      subst hc
      have h1 := containsAt_head _ _ (h x hd).2
      have h2 : startsWith (old ++ [x]) (old ++ x :: post) = true :=
        (startsWith_iff _ _).mpr ⟨post, by simp⟩
      rw [h1] at h2
      cases h2

theorem scan_head_after (old new post : List Char) (hold : old ≠ [])
    (hod : old.all isDigit = true) (hpost : ∀ c, post.head? = some c → isDigit c = false) :
    ∀ c, (replaceScan old new 0 post).head? = some c → isDigit c = false := by
  intro c hc
  cases post with
  | nil => simp [replaceScan] at hc
  | cons x post =>
    have hx := hpost x rfl
    have hn : startsWith old (x :: post) = false := by
      cases old with
      | nil => exact absurd rfl hold
      | cons a old =>
        simp only [List.all_cons, Bool.and_eq_true] at hod
        have : (a == x) = false := by
          simp only [beq_eq_false_iff_ne, ne_eq]
          rintro rfl
          rw [hod.1] at hx
          cases hx
        simp [startsWith, this]
    rw [replaceScan_step _ _ x post hn] at hc
    simp only [List.head?_cons, Option.some.injEq] at hc
    rw [← hc]; exact hx

theorem scan_window (old new : List Char) (hold : old ≠ []) (hod : old.all isDigit = true) :
    ∀ (p s : List Char), p.all isDigit = true → apart old s →
      startsWith p (replaceScan old new 0 s) = true →
      startsWith p s = true ∨ (startsWith old s = true ∧ p.length ≤ new.length) := by
  intro p
  induction p with
  | nil => intro s _ _ _; exact Or.inl rfl
  | cons a p ih =>
    intro s hp hap h
    simp only [List.all_cons, Bool.and_eq_true] at hp
    rcases replaceScan_cases old s with rfl | ⟨post, rfl, hst⟩ | ⟨c, t, rfl, hn⟩
    · simp [replaceScan, startsWith] at h
    · right
      refine ⟨hst, ?_⟩
      by_contra hlen
      rw [replaceScan_match _ _ _ hold] at h
      obtain ⟨x, q, hpq, hx⟩ := startsWith_append_long new _ (a :: p) (by omega) h
      have hxd : isDigit x = true := by
        have hall : (a :: p).all isDigit = true := by
          simp only [List.all_cons, Bool.and_eq_true]; exact hp
        rw [hpq] at hall
        simp only [List.all_append, List.all_cons, Bool.and_eq_true] at hall
        exact hall.2.1
      have := scan_head_after old new post hold hod (apart_after old post hap) x hx
      rw [hxd] at this
      cases this
    · rw [replaceScan_step _ _ c t hn] at h
      simp only [startsWith, Bool.and_eq_true, beq_iff_eq] at h
      obtain ⟨hac, hrest⟩ := h
      subst hac
      rcases ih t hp.2 (apart_tail old a t hap) hrest with h1 | ⟨h1, _⟩
      · left
        simp [startsWith, h1]
      · exfalso
        have h2 := containsAt_head _ _ (hap a hp.1).1
        simp only [startsWith, beq_self_eq_true, Bool.true_and] at h2
        rw [h1] at h2
        cases h2

theorem contains_after_block (old new t : List Char) (hod : old.all isDigit = true)
    (hlen : new.length < old.length) (ht : ∀ c, t.head? = some c → isDigit c = false)
    (h : containsAt old t = false) : containsAt old (new ++ t) = false := by
  induction new with
  | nil => exact h
  | cons n new ih =>
    simp only [List.length_cons] at hlen
    rw [List.cons_append, containsAt_cons, ih (by omega), Bool.or_false]
    by_contra hcon
    simp only [Bool.not_eq_false] at hcon
    obtain ⟨x, q, hpq, hx⟩ := startsWith_append_long (n :: new) t old
      (by simp only [List.length_cons]; omega) hcon
    have hxd : isDigit x = true := by
      rw [hpq] at hod
      simp only [List.all_append, List.all_cons, Bool.and_eq_true] at hod
      exact hod.2.1
    have := ht x hx
    rw [hxd] at this
    cases this

theorem scan_year_free (old new : List Char) (hod : old.all isDigit = true)
    (hlen : new.length < old.length) (n : Nat) :
    ∀ s : List Char, s.length ≤ n → apart old s →
      containsAt old (replaceScan old new 0 s) = false := by
  have hold : old ≠ [] := by
    intro e; rw [e] at hlen; simp at hlen
  induction n with
  | zero =>
    intro s hs _
    have : s = [] := List.length_eq_zero.mp (by omega)
    subst this
    exact startsWith_nil_right old hold
  | succ n ih =>
    intro s hs hap
    rcases replaceScan_cases old s with rfl | ⟨post, rfl, _⟩ | ⟨c, t, rfl, hn⟩
    · exact startsWith_nil_right old hold
    · rw [replaceScan_match _ _ _ hold]
      have hpl : post.length ≤ n := by
        have : 0 < old.length := List.length_pos.mpr hold
        simp only [List.length_append] at hs; omega
      exact contains_after_block old new _ hod hlen
        (scan_head_after old new post hold hod (apart_after old post hap))
        (ih post hpl (apart_suffix old old post hap))
    · rw [replaceScan_step _ _ c t hn, containsAt_cons,
        ih t (by simp at hs; omega) (apart_tail old c t hap), Bool.or_false]
      by_contra hcon
      simp only [Bool.not_eq_false] at hcon
      have h1 : startsWith old (replaceScan old new 0 (c :: t)) = true := by
        rw [replaceScan_step _ _ c t hn]; exact hcon
      rcases scan_window old new hold hod old (c :: t) hod hap h1 with h2 | ⟨h2, _⟩
      · rw [hn] at h2; cases h2
      · rw [hn] at h2; cases h2

theorem ReplaceAll_data (s old new : String) (h : old.data ≠ []) :
    (ReplaceAll s old new).data = replaceScan old.data new.data 0 s.data := by
  cases hd : old.data with
  | nil => exact absurd hd h
  | cons a t =>
    have e : ReplaceAll s old new = String.mk (replaceScan old.data new.data 0 s.data) := by
      simp only [ReplaceAll, hd]
    rw [e, hd]

theorem normBorders_data (year yearMin text : String) (h : year.data ≠ []) :
    (normBorders year yearMin text).data
      = replaceScan year.data yearMin.data 0
          (replaceScan [' ', '-', ' '] ['-'] 0 text.data) := by
  simp only [normBorders]
  rw [ReplaceAll_data _ year yearMin h, ReplaceAll_data text " - " "-" (by decide)]

/-- C14, as amended.  For a current year `y` of four digits, with its
two-digit suffix, the normalised label contains no " - " when the label text
has no two adjacent spaces, and no occurrence of `y` when no occurrence of `y`
in the text is directly preceded or followed by another decimal digit; a text
with neither " - " nor `y` is left unchanged.  (Each replacement is one
left-to-right pass that does not rescan what it wrote.) -/
theorem normBorders_clean (year yearMin text : String)
    (hy : year.data.all isDigit = true) (hy4 : year.length = 4)
    (hm : yearMin.data.all isDigit = true) (hm2 : yearMin.length = 2) :
    (Contains text "  " = false → Contains (normBorders year yearMin text) " - " = false)
    ∧ ((∀ d : Char, isDigit d = true →
          Contains text (String.mk (d :: year.data)) = false
          ∧ Contains text (String.mk (year.data ++ [d])) = false) →
        Contains (normBorders year yearMin text) year = false)
    ∧ (Contains text " - " = false → Contains text year = false →
        normBorders year yearMin text = text) := by
  have hyl : year.data.length = 4 := hy4
  have hml : yearMin.data.length = 2 := hm2
  have hyne : year.data ≠ [] := by
    intro e; rw [e] at hyl; simp at hyl
  have hmne : yearMin.data ≠ [] := by
    intro e; rw [e] at hml; simp at hml
  have hdata := normBorders_data year yearMin text hyne
  refine ⟨?_, ?_, ?_⟩
  · intro h2
    have h1 : containsAt [' ', '-', ' '] (replaceScan [' ', '-', ' '] ['-'] 0 text.data)
        = false := dashScan_free _ _ (Nat.le_refl _) h2
    have hf : ∀ c ∈ yearMin.data, c ∉ [' ', '-', ' '] := by
      intro c hc hmem
      have hd := List.all_eq_true.mp hm c hc
      have hmk := digit_not_mark c hd
      simp only [List.mem_cons, List.mem_singleton, List.not_mem_nil, or_false] at hmem
      rcases hmem with e | e | e
      · rw [e] at hmk; simp at hmk
      · rw [e] at hmk; simp at hmk
      · rw [e] at hmk; simp at hmk
    have := scan_contains year.data yearMin.data [' ', '-', ' '] hyne hmne (by simp) hf _ _
      (Nat.le_refl _) h1
    simp only [Contains, hdata]
    exact this
  · intro hcond
    have hdash : ∀ p : List Char, p ≠ [] → p.all isDigit = true →
        containsAt p text.data = false →
        containsAt p (replaceScan [' ', '-', ' '] ['-'] 0 text.data) = false := by
      intro p hp hpd hc
      have hf : ∀ c ∈ ['-'], c ∉ p := by
        intro c hc hmem
        simp only [List.mem_singleton] at hc
        subst hc
        have := List.all_eq_true.mp hpd _ hmem
        revert this; decide
      exact scan_contains _ _ p (by simp) (by simp) hp hf _ _ (Nat.le_refl _) hc
    have hap : apart year.data (replaceScan [' ', '-', ' '] ['-'] 0 text.data) := by
      intro d hd
      refine ⟨hdash _ (by simp) ?_ (hcond d hd).1, hdash _ (by simp) ?_ (hcond d hd).2⟩
      · simp only [List.all_cons, Bool.and_eq_true]; exact ⟨hd, hy⟩
      · simp only [List.all_append, List.all_cons, List.all_nil, Bool.and_true,
          Bool.and_eq_true]
        exact ⟨hy, hd⟩
    have := scan_year_free year.data yearMin.data hy (by omega) _ _ (Nat.le_refl _) hap
    simp only [Contains, hdata]
    exact this
  · intro h1 h2
    have e1 : replaceScan [' ', '-', ' '] ['-'] 0 text.data = text.data :=
      replaceScan_id _ _ _ h1
    have e2 : replaceScan year.data yearMin.data 0 text.data = text.data :=
      replaceScan_id _ _ _ h2
    have : (normBorders year yearMin text).data = text.data := by
      rw [hdata, e1, e2]
    cases hn : normBorders year yearMin text
    cases text
    rw [hn] at this
    simp only at this
    rw [this]

/-- C14 on a label with the year: in 2024 the normalised label of
"01.09.2024 - 07.09.2024" has neither " - " nor "2024". -/
theorem normBorders_clean_witness :
    Contains (normBorders "2024" "24" "01.09.2024 - 07.09.2024") " - " = false
    ∧ Contains (normBorders "2024" "24" "01.09.2024 - 07.09.2024") "2024" = false :=
  ⟨(normBorders_clean "2024" "24" "01.09.2024 - 07.09.2024" (by decide) (by decide) (by decide)
      (by decide)).1 (by decide),
   (normBorders_clean "2024" "24" "01.09.2024 - 07.09.2024" (by decide) (by decide) (by decide)
      (by decide)).2.1 (by
        intro d hd
        have hmk := digit_not_mark d hd
        have h2 : "2024".data = ['2', '0', '2', '4'] := rfl
        have ht : "01.09.2024 - 07.09.2024".data
            = ['0', '1', '.', '0', '9', '.', '2', '0', '2', '4', ' ', '-', ' ',
               '0', '7', '.', '0', '9', '.', '2', '0', '2', '4'] := rfl
        simp only [Contains, h2, ht, List.cons_append, List.nil_append]
        constructor
        · simp [containsAt, startsWith, hmk]
        · simp [containsAt, startsWith, hmk])⟩

/-- C14 fails as stated: in 2024 the text "202024" is normalised to "2024",
which contains the year, and the text "a  -  b" to "a - b", which contains
" - ". -/
theorem normBorders_clean_counterexample :
    normBorders "2024" "24" "202024" = "2024"
    ∧ Contains (normBorders "2024" "24" "202024") "2024" = true
    ∧ normBorders "2024" "24" "a  -  b" = "a - b"
    ∧ Contains (normBorders "2024" "24" "a  -  b") " - " = true := by
  decide

/-! ## C10: the refetch of `GetWeekShedule` -/

/-- The number `strconv.Atoi` returns is a 64-bit integer. -/
theorem Atoi_range (s : String) : -(2 ^ 63) ≤ (Atoi s).1 ∧ (Atoi s).1 ≤ 2 ^ 63 - 1 := by
  cases h : isIntegerText s with
  | true =>
    rw [Atoi_integer s h]
    simp only [clampInt64]
    split_ifs <;> constructor <;> omega
  | false =>
    rcases Atoi_nonInteger s h with e | e | e <;> rw [e] <;> constructor <;> norm_num

theorem pairWeeks_range (year yearMin : String) :
    ∀ (n : Nat) (cells : List String), cells.length ≤ n →
      ∀ v ∈ pairWeeks year yearMin cells, -(2 ^ 63) ≤ v.Num ∧ v.Num ≤ 2 ^ 63 - 1 := by
  intro n
  induction n using Nat.strong_induction_on with
  | _ n ih =>
    intro cells hn v hv
    match cells, hn, hv with
    | a :: b :: rest, hn, hv =>
      simp only [pairWeeks, List.mem_cons] at hv
      rcases hv with rfl | hv
      · exact Atoi_range a
      · simp only [List.length_cons] at hn
        exact ih rest.length (by omega) rest (Nat.le_refl _) v hv
    | [], _, hv => simp [pairWeeks] at hv
    | [_], _, hv => simp [pairWeeks] at hv

/-- The week number the loop of lines 238-246 resolves is 0 or the number of
one of the weeks. -/
theorem thisWeekLoop_result (now : Int) (n : Int) :
    ∀ ws : List (Option StudyWeek), thisWeekLoop now ws = .ok n →
      n = 0 ∨ ∃ v, some v ∈ ws ∧ v.Num = n := by
  intro ws
  induction ws with
  | nil =>
    intro h
    simp only [thisWeekLoop, Except.ok.injEq] at h
    exact Or.inl h.symm
  | cons x ws ih =>
    intro h
    cases x with
    | none => simp [thisWeekLoop] at h
    | some week =>
      simp only [thisWeekLoop] at h
      split at h
      · split at h
        · simp only [Except.ok.injEq] at h
          exact Or.inr ⟨week, by simp, h⟩
        · rcases ih h with h0 | ⟨v, hv, e⟩
          · exact Or.inl h0
          · exact Or.inr ⟨v, List.mem_cons_of_mem _ hv, e⟩
      · cases h

/-- On an odd number of cells `parseStudyWeeks` panics. -/
theorem parseStudyWeeks_odd (clock : Clock) (cells : List String) (m : Nat)
    (hlen : cells.length = 2 * m + 1) :
    parseStudyWeeks clock cells = .error .indexOutOfRange := by
  have htake : (cells.take (2 * m)).length = 2 * m := by
    rw [List.length_take]; omega
  have hscan := eachCell_even clock (cells.take (2 * m)) m htake
  have hwl := pairWeeks_length (formatYear clock) (formatYearMin clock) m _ htake
  have hlast := weekCell_full (formatYear clock) (formatYearMin clock)
    ((pairWeeks (formatYear clock) (formatYearMin clock) (cells.take (2 * m))).map some) m
    (m : Int) (cells.getD (2 * m) "") (by simp [hwl])
  have hdiv : ((cells.length : Int) / 2) = (m : Int) := by
    rw [hlen]; push_cast; omega
  have hmk : (makeSlice ((cells.length : Int) / 2) : Except Panic (List (Option StudyWeek)))
      = .ok (List.replicate m none) := by
    rw [hdiv]; simp [makeSlice]
  have hsplit : cells = cells.take (2 * m) ++ [cells.getD (2 * m) ""] := by
    have hdl : (cells.drop (2 * m)).length = 1 := by
      rw [List.length_drop]; omega
    obtain ⟨x, hx⟩ : ∃ x, cells.drop (2 * m) = [x] := by
      match hd : cells.drop (2 * m), hdl with
      | [x], _ => exact ⟨x, rfl⟩
    have hc : cells = cells.take (2 * m) ++ [x] := by
      conv_lhs => rw [← List.take_append_drop (2 * m) cells, hx]
    have hget : cells.getD (2 * m) "" = x := by
      have := getD_at_length (cells.take (2 * m)) [] x ""
      rw [htake, ← hc] at this
      exact this
    rw [hget]; exact hc
  have hrun : eachCell (formatYear clock) (formatYearMin clock) cells 0
      ⟨List.replicate m none, 0, 0⟩ = .error .indexOutOfRange := by
    rw [hsplit, eachCell_append, hscan]
    simp only [htake, Nat.zero_add, eachCell, hlast]
  simp only [parseStudyWeeks, hmk, hrun]

/-- The current week number `parseStudyWeeks` returns is a 64-bit integer. -/
theorem parseStudyWeeks_range (clock : Clock) (cells : List String)
    (weeks : List (Option StudyWeek)) (c : Int)
    (h : parseStudyWeeks clock cells = .ok (weeks, c)) : -(2 ^ 63) ≤ c ∧ c ≤ 2 ^ 63 - 1 := by
  rcases Nat.even_or_odd' cells.length with ⟨m, hm | hm⟩
  · rw [parseStudyWeeks_unfold clock cells m hm] at h
    split at h
    · cases h
    · rename_i n hn
      simp only [Except.ok.injEq, Prod.mk.injEq] at h
      obtain ⟨_, rfl⟩ := h
      rcases thisWeekLoop_result _ _ _ hn with h0 | ⟨v, hv, e⟩
      · rw [h0]; constructor <;> norm_num
      · simp only [List.mem_map, Option.some.injEq] at hv
        obtain ⟨u, hu, rfl⟩ := hv
        rw [← e]
        exact pairWeeks_range _ _ cells.length cells (Nat.le_refl _) u hu
  · rw [parseStudyWeeks_odd clock cells m hm] at h
    cases h

theorem log_append_unless (b : Bool) (l : List String) (u : String) :
    (if b = true then l else l ++ [u]) = l ++ (if b = true then [] else [u]) := by
  cases b <;> simp

/-- C10, as amended.  For a valid group whose first detail page resolves a
current week number `c` other than 0, `GetWeekShedule` refetches the URL
`detail.php?group=g&week=T` (one request, none when `http.Get` rejects that
URL before sending), where `T` is `c` in decimal for mode thisweek, `c + 1`
for mode nextweek when `c` is below the largest 64-bit integer, and `N`
itself for every mode `N` followed by week with `N` a non-empty string of
decimal digits; when the refetch succeeds and its days are parsed, the
returned schedule has those days and the weeks and current week number of the
first page. -/
theorem GetWeekShedule_refetch (w : World) (log log1 : List String) (g mode T : String)
    (page : Page) (weeks : List (Option StudyWeek)) (c : Int)
    (hvalid : ValidateGroup w log g = ((0, none), log1))
    (hpage : w.respond log1 (detailURL ++ g) = .ok page)
    (hweeks : parseStudyWeeks w.clock page.weekCells = .ok (weeks, c))
    (hc : c ≠ 0)
    (hmode : (mode = "thisweek" ∧ T = Itoa c)
      ∨ (mode = "nextweek" ∧ c < 2 ^ 63 - 1 ∧ T = Itoa (c + 1))
      ∨ (∃ N : List Char, N ≠ [] ∧ N.all isDigit = true
          ∧ mode = String.mk N ++ "week" ∧ T = String.mk N)) :
    (∀ r, GetWeekShedule w log mode g = .ok r →
        r.2 = log1 ++ [detailURL ++ g]
          ++ (if w.refused (detailURL ++ g ++ "&week=" ++ T) then []
              else [detailURL ++ g ++ "&week=" ++ T]))
    ∧ (∀ page2 days,
        w.respond (log1 ++ [detailURL ++ g]) (detailURL ++ g ++ "&week=" ++ T) = .ok page2 →
        parseStudyDays page2.dayContainers 0 = .ok days →
        GetWeekShedule w log mode g
          = .ok ((⟨"", c, days, weeks⟩, none),
              log1 ++ [detailURL ++ g] ++ [detailURL ++ g ++ "&week=" ++ T]))
    ∧ (∀ err,
        w.respond (log1 ++ [detailURL ++ g]) (detailURL ++ g ++ "&week=" ++ T) = .error err →
        GetWeekShedule w log mode g
          = .ok ((Shedule.zero, some err),
              log1 ++ [detailURL ++ g]
                ++ (if w.refused (detailURL ++ g ++ "&week=" ++ T) then []
                    else [detailURL ++ g ++ "&week=" ++ T]))) := by
  have hwm : weekMode (detailURL ++ g) c mode = some (some (detailURL ++ g ++ "&week=" ++ T)) := by
    rcases hmode with ⟨rfl, rfl⟩ | ⟨rfl, hlt, rfl⟩ | ⟨N, hne, hd, rfl, rfl⟩
    · have h1 : ("thisweek" == "thisweeknum") = false := by decide
      simp [weekMode, h1]
    · have h1 : ("nextweek" == "thisweeknum") = false := by decide
      have h2 : ("nextweek" == "thisweek") = false := by decide
      have hadd : addInt64 c 1 = c + 1 :=
        addInt64_succ c (parseStudyWeeks_range w.clock page.weekCells weeks c hweeks).1 hlt
      simp [weekMode, h1, h2, hadd]
    · exact weekMode_digits _ c N hne hd
  have hc0 : (c == 0) = false := by simpa using hc
  have hrun : GetWeekShedule w log mode g
      = match getPage w (log1 ++ [detailURL ++ g]) (detailURL ++ g ++ "&week=" ++ T) with
        | (.error err, log3) => .ok ((Shedule.zero, some err), log3)
        | (.ok page2, log3) =>
          match parseStudyDays page2.dayContainers 0 with
          | .error p => .error p
          | .ok days => .ok ((⟨"", c, days, weeks⟩, none), log3) := by
    simp only [GetWeekShedule, hvalid, getPage_ok w log1 _ page hpage, hweeks, hc0,
      Bool.false_eq_true, if_false, hwm, Shedule.zero]
  refine ⟨?_, ?_, ?_⟩
  · intro r hr
    rw [hrun] at hr
    cases hresp : w.respond (log1 ++ [detailURL ++ g]) (detailURL ++ g ++ "&week=" ++ T) with
    | error err =>
      simp only [getPage, hresp, log_append_unless] at hr
      cases hr; rfl
    | ok page2 =>
      have hnot : w.refused (detailURL ++ g ++ "&week=" ++ T) = false := by
        cases hr2 : w.refused (detailURL ++ g ++ "&week=" ++ T) with
        | false => rfl
        | true =>
          obtain ⟨err, he⟩ := w.refused_fails _ _ hr2
          rw [hresp] at he
          cases he
      rw [getPage_ok w _ _ page2 hresp] at hr
      simp only [hnot, Bool.false_eq_true, if_false]
      simp only [] at hr
      cases hp : parseStudyDays page2.dayContainers 0 with
      | error p => rw [hp] at hr; cases hr
      | ok days => rw [hp] at hr; cases hr; rfl
  · intro page2 days hresp hp
    rw [hrun, getPage_ok w _ _ page2 hresp]
    simp only [hp]
  · intro err hresp
    rw [hrun]
    simp only [getPage, hresp, log_append_unless]

/-- C10 on the example: mode 5week refetches the detail URL with week=5 and
returns the days of that page with the weeks and week number of the first;
mode nextweek, the current week being 1, refetches it with week=2. -/
theorem GetWeekShedule_refetch_witness :
    GetWeekShedule (exampleWorld exampleDetail) [] "5week" "M8O-406B-19"
      = .ok ((⟨"", 1, exampleDetail.dayContainers.map (fun c => some (dayOf c)),
              [some ⟨1, "01.09.24-07.09.24"⟩, some ⟨2, "08.09.24-14.09.24"⟩]⟩, none),
          [sheduleURL] ++ [detailURL ++ "M8O-406B-19"]
            ++ [detailURL ++ "M8O-406B-19" ++ "&week=" ++ "5"])
    ∧ GetWeekShedule (exampleWorld exampleDetail) [] "nextweek" "M8O-406B-19"
      = .ok ((⟨"", 1, exampleDetail.dayContainers.map (fun c => some (dayOf c)),
              [some ⟨1, "01.09.24-07.09.24"⟩, some ⟨2, "08.09.24-14.09.24"⟩]⟩, none),
          [sheduleURL] ++ [detailURL ++ "M8O-406B-19"]
            ++ [detailURL ++ "M8O-406B-19" ++ "&week=" ++ "2"]) :=
  ⟨(GetWeekShedule_refetch (exampleWorld exampleDetail) [] [sheduleURL] "M8O-406B-19" "5week" "5"
      exampleDetail [some ⟨1, "01.09.24-07.09.24"⟩, some ⟨2, "08.09.24-14.09.24"⟩] 1
      (by decide) (by decide) (by decide) (by decide)
      (Or.inr (Or.inr ⟨['5'], by decide, by decide, by decide, by decide⟩))).2.1
      exampleDetail _ (by decide) (by decide),
   (GetWeekShedule_refetch (exampleWorld exampleDetail) [] [sheduleURL] "M8O-406B-19" "nextweek"
      "2" exampleDetail [some ⟨1, "01.09.24-07.09.24"⟩, some ⟨2, "08.09.24-14.09.24"⟩] 1
      (by decide) (by decide) (by decide) (by decide)
      (Or.inr (Or.inl ⟨rfl, by decide, by decide⟩))).2.1
      exampleDetail _ (by decide) (by decide)⟩

/-- C10 fails as stated: when the first page resolves the current week
9223372036854775807, the largest Go `int`, mode nextweek does not request week
`c + 1` = 9223372036854775808 but, the addition of line 141 wrapping around,
week -9223372036854775808. -/
theorem GetWeekShedule_refetch_counterexample :
    (ValidateGroup (exampleWorld overflowDetail) [] "M8O-406B-19").1 = (0, none)
    ∧ parseStudyWeeks clockSep2024 overflowDetail.weekCells
      = .ok ([some ⟨9223372036854775807, "01.09.24-07.09.24"⟩], 9223372036854775807)
    ∧ GetWeekShedule (exampleWorld overflowDetail) [] "nextweek" "M8O-406B-19"
      = .ok ((⟨"", 9223372036854775807, [],
              [some ⟨9223372036854775807, "01.09.24-07.09.24"⟩]⟩, none),
          [sheduleURL, detailURL ++ "M8O-406B-19",
           detailURL ++ "M8O-406B-19" ++ "&week=-9223372036854775808"])
    ∧ Itoa (9223372036854775807 + 1) = "9223372036854775808" := by
  decide

end GoMaiShedule
